import Mathlib

/-!
Multi-index container benchmarks (`src/multiindex_bench.h`)

A shallow embedding of the `Person` record, of `generatePersons`, of the
multi-index container `person_multi_index` the benchmarks drive, and of the
benchmark loops themselves.

The container is the library's: the repository holds only its type
definition and its callers.  Its operations are modelled from the design in
the specification (Record Arena, Ordered / Hashed / Sequence index, Container
Coordinator); the benchmark functions are translated from the source.
-/

namespace MultiIndexBench

/-! ## Records and test data -/

/-- The record `struct Person` (fields `id`, `name`, `email`, `age`, `city`). -/
structure Person where
  id : Int
  name : String
  email : String
  age : Int
  city : String
deriving DecidableEq, Repr

/-- The local table `names` of `generatePersons`. -/
def names : List String :=
  ["John", "Mary", "Steve", "Jane", "Michael", "Sarah", "Robert", "Emily", "William", "Olivia"]

/-- The local table `cities` of `generatePersons`. -/
def cities : List String :=
  ["New York", "London", "Paris", "Tokyo", "Berlin", "Sydney", "Moscow", "Beijing", "Mumbai", "Rio"]

/-- The body of the loop of `generatePersons` at loop index `i`: the record that
`emplace_back` appends.  `std::to_string(i)` is the decimal rendering of `i`. -/
def generatePersonsBody (i : Nat) : Person :=
  let id : Int := i
  let name : String := names.getD (i % names.length) ""
  let email : String := name ++ toString i ++ "@example.com"
  let age : Int := 20 + ((i % 60 : Nat) : Int)
  let city : String := cities.getD (i % cities.length) ""
  { id := id, name := name, email := email, age := age, city := city }

/-- The function `generatePersons(count)` for `count >= 0`: the loop
`for (int i = 0; i < count; ++i)` appending one record per index. -/
def generatePersons (count : Nat) : List Person :=
  (List.range count).foldl (fun persons i => persons ++ [generatePersonsBody i]) []

/-! ## The container, modelled from the specification -/

/-- Modelled from the spec: the failure taxonomy of section 7 (`DuplicateKey`,
`NotFound`, `InvalidSlot`); the library reports failures its own way. -/
inductive Fault where
  | DuplicateKey
  | NotFound
  | InvalidSlot
deriving DecidableEq, Repr

/-! A slot, the integer handle of one record inside the arena, is a natural
number throughout. -/

/-- Modelled from the spec: the Record Arena (section 4.1), whose code is the
library's and not in the repository.  Cell `s` holds the record of slot `s`, or
nothing when the slot is free. -/
structure Arena where
  cells : List (Option Person)
deriving DecidableEq, Repr

namespace Arena

/-- Modelled from the spec: the Record Arena of a default-constructed
container, with no slot. -/
def empty : Arena := ⟨[]⟩

/-- Modelled from the spec: `get(slot) -> record or not-found` of the Record
Arena (library code). -/
def get (a : Arena) (s : Nat) : Option Person := (a.cells[s]?).join

/-- Modelled from the spec: the slot the next `allocate` of the Record Arena
returns ("a fresh or recycled slot identifier"): the first free cell, or a
fresh one past the end when no cell is free. -/
def nextSlot (a : Arena) : Nat := a.cells.findIdx (fun c => c.isNone)

/-- Modelled from the spec: `allocate(value) -> slot` of the Record Arena
(library code): stores the value and returns a fresh or recycled slot. -/
def allocate (a : Arena) (v : Person) : Arena × Nat :=
  let s := a.nextSlot
  if s < a.cells.length then (⟨a.cells.set s (some v)⟩, s) else (⟨a.cells ++ [some v]⟩, s)

/-- Modelled from the spec: `set(slot, value)` of the Record Arena (library
code): overwrites in place. -/
def set (a : Arena) (s : Nat) (v : Person) : Arena := ⟨a.cells.set s (some v)⟩

/-- Modelled from the spec: `free(slot)` of the Record Arena (library code):
marks the slot reusable, and fails with `InvalidSlot` when the slot is still
referenced by an index (the coordinator passes that fact in). -/
def free (a : Arena) (s : Nat) (referenced : Bool) : Except Fault Arena :=
  if referenced then .error .InvalidSlot else .ok ⟨a.cells.set s none⟩

end Arena

namespace OrderedIndex

variable {κ : Type} [LinearOrder κ]

/-- Modelled from the spec: where `insert` of the Ordered Index (section 4.2,
library code) puts a new entry: in key order, after every entry whose key is
not greater (insertion-order tie-break among equal keys). -/
def place (e : κ × Nat) : List (κ × Nat) → List (κ × Nat)
  | [] => [e]
  | x :: xs => if e.1 < x.1 then e :: x :: xs else x :: place e xs

/-- Modelled from the spec: the test "an equal key already present" of the
unique Ordered Index (library code). -/
def hasKey (k : κ) (idx : List (κ × Nat)) : Bool := idx.any (fun e => decide (e.1 = k))

/-- Modelled from the spec: `insert(key, slot)` of the unique Ordered Index
(section 4.2, library code): fails with `DuplicateKey` when an equal key is
present and leaves the index unchanged. -/
def insertUnique (e : κ × Nat) (idx : List (κ × Nat)) : Except Fault (List (κ × Nat)) :=
  if hasKey e.1 idx then .error .DuplicateKey else .ok (place e idx)

/-- Modelled from the spec: `insert(key, slot)` of the non-unique Ordered Index
(library code): always succeeds, next to the equal keys. -/
def insertNonUnique (e : κ × Nat) (idx : List (κ × Nat)) : List (κ × Nat) := place e idx

/-- Modelled from the spec: the Ordered Index (library code) with the entry `e`
taken out, as `erase(key, slot)` leaves it. -/
def remove (e : κ × Nat) (idx : List (κ × Nat)) : List (κ × Nat) := idx.erase e

/-- Modelled from the spec: `erase(key, slot)` of the Ordered Index (library
code): removes exactly the matching entry, `NotFound` when absent. -/
def erase (e : κ × Nat) (idx : List (κ × Nat)) : Except Fault (List (κ × Nat)) :=
  if e ∈ idx then .ok (remove e idx) else .error .NotFound

/-- Modelled from the spec: `find(key)` of the Ordered Index (library code):
the slots with an equal key, in index order. -/
def find (k : κ) (idx : List (κ × Nat)) : List Nat :=
  (idx.filter (fun e => decide (e.1 = k))).map Prod.snd

/-- Modelled from the spec: the ordered index is the library's and its code is
not in the repository; `lower_bound(x)`, which the range benchmark calls, is the
standard ordered-container operation: the position of the first entry whose key
is not less than `x` (the end position when there is none). -/
def lower_bound (x : κ) : List (κ × Nat) → Nat
  | [] => 0
  | e :: es => if e.1 < x then lower_bound x es + 1 else 0

/-- Modelled from the spec: the ordered index is the library's and its code is
not in the repository; `upper_bound(x)`, which the range benchmark calls, is the
standard ordered-container operation: the position of the first entry whose key
is greater than `x` (the end position when there is none). -/
def upper_bound (x : κ) : List (κ × Nat) → Nat
  | [] => 0
  | e :: es => if x < e.1 then 0 else upper_bound x es + 1

end OrderedIndex

namespace HashedIndex

/-- Modelled from the spec: the test for an equal key of the unique Hashed Index
(library code). -/
def hasKey (k : String) (idx : List (String × Nat)) : Bool :=
  idx.any (fun e => decide (e.1 = k))

/-- Modelled from the spec: `insert(key, slot)` of the unique Hashed Index
(section 4.3, library code): fails with `DuplicateKey` on an equal key.  The
table is kept as one chain; iteration order carries no guarantee. -/
def insert (e : String × Nat) (idx : List (String × Nat)) :
    Except Fault (List (String × Nat)) :=
  if hasKey e.1 idx then .error .DuplicateKey else .ok (idx ++ [e])

/-- Modelled from the spec: `erase(key)` of the Hashed Index (library code). -/
def erase (k : String) (idx : List (String × Nat)) : Except Fault (List (String × Nat)) :=
  if hasKey k idx then .ok (idx.filter (fun e => decide (e.1 ≠ k))) else .error .NotFound

/-- Modelled from the spec: `find(key) -> slot or not-found` of the Hashed Index
(library code). -/
def find (k : String) (idx : List (String × Nat)) : Option Nat :=
  (idx.find? (fun e => decide (e.1 = k))).map Prod.snd

end HashedIndex

namespace SequenceIndex

/-- Modelled from the spec: `append(slot)` of the Sequence Index (section 4.4,
library code): places the slot at the end. -/
def append (s : Nat) (seq : List Nat) : List Nat := seq ++ [s]

/-- Modelled from the spec: `remove(slot)` of the Sequence Index (library code),
on a dense array: the later positions shift down by one. -/
def remove (s : Nat) (seq : List Nat) : List Nat := seq.erase s

end SequenceIndex

/-- Key extractor of the `id` index (`member<Person, int, &Person::id>`). -/
def idKey (p : Person) : Int := p.id

/-- Key extractor of the `email` index. -/
def emailKey (p : Person) : String := p.email

/-- Key extractor of the `name` index: the characters of the name, compared
lexicographically as `std::string` is. -/
def nameKey (p : Person) : List Char := p.name.data

/-- Key extractor of the `age` index. -/
def ageKey (p : Person) : Int := p.age

/-- Key extractor of the `city` index: the characters of the city. -/
def cityKey (p : Person) : List Char := p.city.data

/-- The container `person_multi_index`: the arena and the six indices of the
typedef, in its order: `ordered_unique<id>`, `hashed_unique<email>`,
`ordered_non_unique<name>`, `ordered_non_unique<age>`,
`ordered_non_unique<city>`, `random_access<>`. -/
structure Container where
  arena : Arena
  byId : List (Int × Nat)
  byEmail : List (String × Nat)
  byName : List (List Char × Nat)
  byAge : List (Int × Nat)
  byCity : List (List Char × Nat)
  seq : List Nat
deriving DecidableEq, Repr

/-- Modelled from the spec: `ModifyOutcome { Updated | Erased(DuplicateKey) |
NotFound }` of section 6; the library's `modify` returns a flag. -/
inductive ModifyOutcome where
  | Updated
  | Erased (f : Fault)
  | NotFound
deriving DecidableEq, Repr

namespace Container

/-- The default-constructed container `person_multi_index container;`: no
record, every index empty. -/
def empty : Container :=
  { arena := Arena.empty, byId := [], byEmail := [], byName := [], byAge := [], byCity := [],
    seq := [] }

/-- Modelled from the spec: whether "the slot is still referenced by any index",
the precondition the coordinator checks for `free` (library code). -/
def referenced (c : Container) (s : Nat) : Bool :=
  c.byId.any (fun e => decide (e.2 = s)) || c.byEmail.any (fun e => decide (e.2 = s)) ||
  c.byName.any (fun e => decide (e.2 = s)) || c.byAge.any (fun e => decide (e.2 = s)) ||
  c.byCity.any (fun e => decide (e.2 = s)) || decide (s ∈ c.seq)

/-- Modelled from the spec: `insert(record)` of the Container Coordinator
(section 4.5, library code).  The unique indices are tried first, `id` then
`email`; on `DuplicateKey` the insertions already made are undone and the call
fails with the arena untouched; otherwise the slot is allocated and entered in
the non-unique indices and the sequence.  The result is `none` only on an
internal-consistency fault (the process halts). -/
def insert (c : Container) (r : Person) : Option (Container × Except Fault Nat) :=
  let s := c.arena.nextSlot
  match OrderedIndex.insertUnique (idKey r, s) c.byId with
  | .error f => some (c, .error f)
  | .ok byId1 =>
    match HashedIndex.insert (emailKey r, s) c.byEmail with
    | .error f =>
      match OrderedIndex.erase (idKey r, s) byId1 with
      | .error _ => none
      | .ok byId2 => some ({ c with byId := byId2 }, .error f)
    | .ok byEmail1 =>
      some ({ arena := (c.arena.allocate r).1
              byId := byId1
              byEmail := byEmail1
              byName := OrderedIndex.insertNonUnique (nameKey r, s) c.byName
              byAge := OrderedIndex.insertNonUnique (ageKey r, s) c.byAge
              byCity := OrderedIndex.insertNonUnique (cityKey r, s) c.byCity
              seq := SequenceIndex.append s c.seq }, .ok (c.arena.allocate r).2)

/-- Modelled from the spec: the common tail of `erase` and of a failed `modify`
of the Container Coordinator (library code): with the keyed entries of the slot
already removed, take the slot out of the sequence and free it. -/
def release (c : Container) (s : Nat) : Option Container :=
  let c1 := { c with seq := SequenceIndex.remove s c.seq }
  match c.arena.free s (c1.referenced s) with
  | .error _ => none
  | .ok arena1 => some { c1 with arena := arena1 }

/-- Modelled from the spec: step "remove the old key entries" of `erase` and
`modify` of the Container Coordinator (library code): the entries of the record
`p` held in slot `s` leave the five keyed indices; `none` when one of them has
no such entry. -/
def unindex (c : Container) (s : Nat) (p : Person) : Option Container :=
  match OrderedIndex.erase (idKey p, s) c.byId, HashedIndex.erase (emailKey p) c.byEmail,
        OrderedIndex.erase (nameKey p, s) c.byName, OrderedIndex.erase (ageKey p, s) c.byAge,
        OrderedIndex.erase (cityKey p, s) c.byCity with
  | .ok byId1, .ok byEmail1, .ok byName1, .ok byAge1, .ok byCity1 =>
    some { c with byId := byId1, byEmail := byEmail1, byName := byName1, byAge := byAge1,
                  byCity := byCity1 }
  | _, _, _, _, _ => none

/-- Modelled from the spec: `erase(slot)` of the Container Coordinator (section
4.5, library code): `NotFound` when the slot is not live; otherwise the entry of
the slot leaves every index and the arena slot is freed. -/
def erase (c : Container) (s : Nat) : Option (Container × Except Fault Unit) :=
  match c.arena.get s with
  | none => some (c, .error .NotFound)
  | some p =>
    match c.unindex s p with
    | none => none
    | some c1 =>
      match c1.release s with
      | none => none
      | some c2 => some (c2, .ok ())

/-- Modelled from the spec: `modify(slot, mutator)` of the Container Coordinator
(section 4.5, library code).  The old keys leave every keyed index; the new
unique keys are inserted, `id` then `email`; on success the new record is written
and entered in the non-unique indices, the sequence position kept; on
`DuplicateKey` the removal is completed, the slot is freed, and the outcome is
`Erased`. -/
def modify (c : Container) (s : Nat) (mutator : Person → Person) :
    Option (Container × ModifyOutcome) :=
  match c.arena.get s with
  | none => some (c, .NotFound)
  | some old =>
    let new := mutator old
    match c.unindex s old with
    | none => none
    | some c1 =>
      match OrderedIndex.insertUnique (idKey new, s) c1.byId with
      | .error f =>
        match c1.release s with
        | none => none
        | some c2 => some (c2, .Erased f)
      | .ok byId2 =>
        match HashedIndex.insert (emailKey new, s) c1.byEmail with
        | .error f =>
          match OrderedIndex.erase (idKey new, s) byId2 with
          | .error _ => none
          | .ok byId3 =>
            match ({ c1 with byId := byId3 } : Container).release s with
            | none => none
            | some c2 => some (c2, .Erased f)
        | .ok byEmail2 =>
          some ({ arena := c1.arena.set s new
                  byId := byId2
                  byEmail := byEmail2
                  byName := OrderedIndex.insertNonUnique (nameKey new, s) c1.byName
                  byAge := OrderedIndex.insertNonUnique (ageKey new, s) c1.byAge
                  byCity := OrderedIndex.insertNonUnique (cityKey new, s) c1.byCity
                  seq := c1.seq }, .Updated)

/-- Modelled from the spec: iteration over an index (library code): the records
of its entries, in the order of the entries, read from the arena. -/
def enumerate {κ : Type} (c : Container) (idx : List (κ × Nat)) : List Person :=
  idx.filterMap (fun e => c.arena.get e.2)

/-- Modelled from the spec: iteration over the `id` index (library code): the
records in the order of its entries. -/
def idView (c : Container) : List Person := c.enumerate c.byId

/-- Modelled from the spec: iteration over the `email` index (library code): the
records in the order of its entries. -/
def emailView (c : Container) : List Person := c.enumerate c.byEmail

/-- Modelled from the spec: iteration over the `name` index (library code): the
records in the order of its entries. -/
def nameView (c : Container) : List Person := c.enumerate c.byName

/-- Modelled from the spec: iteration over the `age` index (library code): the
records in the order of its entries. -/
def ageView (c : Container) : List Person := c.enumerate c.byAge

/-- Modelled from the spec: iteration over the `city` index (library code): the
records in the order of its entries. -/
def cityView (c : Container) : List Person := c.enumerate c.byCity

/-- Modelled from the spec: `iterate()` of the Sequence Index (library code):
the records in the order of the sequence (random-access) index. -/
def seqView (c : Container) : List Person := c.seq.filterMap c.arena.get

/-- Modelled from the spec: the call `get<id>().find(k)` (library code) through
`find` of the unique Ordered Index: the slot of the record with id `k`, if
any. -/
def findId (c : Container) (k : Int) : Option Nat := (OrderedIndex.find k c.byId).head?

/-- Modelled from the spec: the record the iterator `get<id>().find(k)` (library
code) points at. -/
def findById (c : Container) (k : Int) : Option Person := (c.findId k).bind c.arena.get

/-- Modelled from the spec: the record the iterator `get<email>().find(k)`
(library code) points at, through `find` of the Hashed Index. -/
def findByEmail (c : Container) (k : String) : Option Person :=
  (HashedIndex.find k c.byEmail).bind c.arena.get

/-- Modelled from the spec: the records `find(key)` of the name index (library
code) yields: those with an equal name. -/
def findByName (c : Container) (k : String) : List Person :=
  (OrderedIndex.find k.data c.byName).filterMap c.arena.get

/-- Modelled from the spec: the records `find(key)` of the city index (library
code) yields: those with an equal city. -/
def findByCity (c : Container) (k : String) : List Person :=
  (OrderedIndex.find k.data c.byCity).filterMap c.arena.get

end Container

/-! ## Well-formedness and the states the operations produce -/

/-- An index agrees with the arena contents `g` through the key extractor `f`:
its entries are exactly the pairs (key of the record, slot) of the live slots,
one entry per slot. -/
def Agrees {κ : Type} (f : Person → κ) (g : Nat → Option Person) (idx : List (κ × Nat)) :
    Prop :=
  (∀ k s, (k, s) ∈ idx ↔ ∃ p, g s = some p ∧ f p = k) ∧ (idx.map Prod.snd).Nodup

/-- The invariants of the data model (section 3 of the specification) on a
container: every keyed index agrees with the arena, the unique indices hold no
key twice, the ordered indices are in key order, and the sequence enumerates
exactly the live slots, each once. -/
structure WF (c : Container) : Prop where
  id_agrees : Agrees idKey c.arena.get c.byId
  email_agrees : Agrees emailKey c.arena.get c.byEmail
  name_agrees : Agrees nameKey c.arena.get c.byName
  age_agrees : Agrees ageKey c.arena.get c.byAge
  city_agrees : Agrees cityKey c.arena.get c.byCity
  id_unique : (c.byId.map Prod.fst).Nodup
  email_unique : (c.byEmail.map Prod.fst).Nodup
  id_sorted : c.byId.Pairwise (fun a b => a.1 ≤ b.1)
  name_sorted : c.byName.Pairwise (fun a b => a.1 ≤ b.1)
  age_sorted : c.byAge.Pairwise (fun a b => a.1 ≤ b.1)
  city_sorted : c.byCity.Pairwise (fun a b => a.1 ≤ b.1)
  seq_nodup : c.seq.Nodup
  seq_live : ∀ s, s ∈ c.seq ↔ ∃ p, c.arena.get s = some p

namespace Container

/-- The state a successful `insert` of `r` leaves. -/
def withRecord (c : Container) (r : Person) : Container :=
  { arena := (c.arena.allocate r).1
    byId := OrderedIndex.place (idKey r, c.arena.nextSlot) c.byId
    byEmail := c.byEmail ++ [(emailKey r, c.arena.nextSlot)]
    byName := OrderedIndex.place (nameKey r, c.arena.nextSlot) c.byName
    byAge := OrderedIndex.place (ageKey r, c.arena.nextSlot) c.byAge
    byCity := OrderedIndex.place (cityKey r, c.arena.nextSlot) c.byCity
    seq := c.seq ++ [c.arena.nextSlot] }

/-- The state that removing the record `p` of slot `s` leaves: what `erase`
and a failed `modify` produce. -/
def without (c : Container) (s : Nat) (p : Person) : Container :=
  { arena := ⟨c.arena.cells.set s none⟩
    byId := OrderedIndex.remove (idKey p, s) c.byId
    byEmail := c.byEmail.erase (emailKey p, s)
    byName := OrderedIndex.remove (nameKey p, s) c.byName
    byAge := OrderedIndex.remove (ageKey p, s) c.byAge
    byCity := OrderedIndex.remove (cityKey p, s) c.byCity
    seq := c.seq.erase s }

/-- The state a successful `modify` leaves: slot `s` held `old` and now holds
`new`. -/
def withUpdate (c : Container) (s : Nat) (old new : Person) : Container :=
  { arena := c.arena.set s new
    byId := OrderedIndex.place (idKey new, s) (OrderedIndex.remove (idKey old, s) c.byId)
    byEmail := c.byEmail.erase (emailKey old, s) ++ [(emailKey new, s)]
    byName := OrderedIndex.place (nameKey new, s) (OrderedIndex.remove (nameKey old, s) c.byName)
    byAge := OrderedIndex.place (ageKey new, s) (OrderedIndex.remove (ageKey old, s) c.byAge)
    byCity := OrderedIndex.place (cityKey new, s) (OrderedIndex.remove (cityKey old, s) c.byCity)
    seq := c.seq }

/-- Some live record other than the one in slot `s` has the id `k`. -/
def idTaken (c : Container) (s : Nat) (k : Int) : Prop :=
  ∃ t q, t ≠ s ∧ c.arena.get t = some q ∧ q.id = k

/-- Some live record other than the one in slot `s` has the email `k`. -/
def emailTaken (c : Container) (s : Nat) (k : String) : Prop :=
  ∃ t q, t ≠ s ∧ c.arena.get t = some q ∧ q.email = k

/-- The record `p` is live: some slot of the arena holds it. -/
def holds (c : Container) (p : Person) : Prop := ∃ s, c.arena.get s = some p

end Container

/-- The container states reachable from the empty container by `insert`, `erase`
and `modify` calls, whatever their outcome. -/
inductive Reachable : Container → Prop where
  | empty : Reachable Container.empty
  | insert {c c' : Container} {res : Except Fault Nat} (r : Person) :
      Reachable c → c.insert r = some (c', res) → Reachable c'
  | erase {c c' : Container} {res : Except Fault Unit} (s : Nat) :
      Reachable c → c.erase s = some (c', res) → Reachable c'
  | modify {c c' : Container} {res : ModifyOutcome} (s : Nat) (mutator : Person → Person) :
      Reachable c → c.modify s mutator = some (c', res) → Reachable c'

/-! ## The benchmark loops, from the source -/

/-- The insert loop `for (const auto& person : persons) container.insert(person);`
of `BM_MultiIndexInsert` (and of the set-up of the other benchmarks), the result
of each call kept for inspection.  `none` when a call halts. -/
def insertAll : List Person → Container → Option (Container × List (Except Fault Nat))
  | [], c => some (c, [])
  | p :: ps, c =>
    match c.insert p with
    | none => none
    | some (c1, res) => (insertAll ps c1).map (fun x => (x.1, res :: x.2))

/-- One iteration of `BM_MultiIndexInsert` for `SIZE = state.range(0)`: a fresh
container filled with `generatePersons(SIZE)`. -/
def BM_MultiIndexInsert (SIZE : Nat) : Option (Container × List (Except Fault Nat)) :=
  insertAll (generatePersons SIZE) Container.empty

/-- The loop `for (auto it = lower; it != upper; ++it) count++` of
`BM_MultiIndexRangeByAge`.  An iterator is a position together with the entries
from that position on; the entries visited are collected, `count` being their
number.  Stepping past the end before `upper` is met is undefined (`none`). -/
def scanLoop {α : Type} (upper : Nat) : List α → Nat → Option (List α)
  | [], it => if it = upper then some [] else none
  | e :: rest, it =>
    if it = upper then some [] else (scanLoop upper rest (it + 1)).map (fun es => e :: es)

/-- The body of the loop over `age_ranges` in `BM_MultiIndexRangeByAge` for one
`AgeRange {min, max}`: `lower_bound(range.min)`, `upper_bound(range.max)`, and
the scan between them; the result is the entries of the age index visited. -/
def rangeScan (c : Container) (min max : Int) : Option (List (Int × Nat)) :=
  let lower := OrderedIndex.lower_bound min c.byAge
  let upper := OrderedIndex.upper_bound max c.byAge
  scanLoop upper (c.byAge.drop lower) lower

/-- The records the range scan visits, in scan order. -/
def rangeScanRecords (c : Container) (min max : Int) : Option (List Person) :=
  (rangeScan c min max).map (fun es => c.enumerate es)

/-- The mutator lambda of `BM_MultiIndexModify`, with the two values its calls
of `rand()` return: it assigns `name` and `city` and nothing else. -/
def benchMutator (r1 r2 : Nat) (p : Person) : Person :=
  { p with name := "Modified" ++ toString (r1 % 1000)
           city := "NewCity" ++ toString (r2 % 1000) }

/-- The modification loop `for (int i = 0; i < mod_count; ++i)` of
`BM_MultiIndexModify`.  `rand k` is the value the `k`-th call of `rand()`
returns and `n` counts the calls made so far; the first argument is the number
of iterations left.  The outcome of each `modify` is kept for inspection. -/
def modifyLoop (SIZE : Nat) (rand : Nat → Nat) :
    Nat → Nat → Container → Option (Container × List ModifyOutcome)
  | 0, _, c => some (c, [])
  | k + 1, n, c =>
    let id_to_modify : Int := ((rand n % SIZE : Nat) : Int)
    match c.findId id_to_modify with
    | none => modifyLoop SIZE rand k (n + 1) c
    | some it =>
      match c.modify it (benchMutator (rand (n + 1)) (rand (n + 2))) with
      | none => none
      | some (c1, res) =>
        (modifyLoop SIZE rand k (n + 3) c1).map (fun x => (x.1, res :: x.2))

/-- One iteration of `BM_MultiIndexModify` for `SIZE = state.range(0)` and
`mod_count = state.range(1)`: fill a fresh container, then run the
modification loop. -/
def BM_MultiIndexModify (SIZE mod_count : Nat) (rand : Nat → Nat) :
    Option (Container × List ModifyOutcome) :=
  match insertAll (generatePersons SIZE) Container.empty with
  | none => none
  | some (c, _) => modifyLoop SIZE rand mod_count 0 c

/-- The value of a string of decimal digits, most significant first. -/
def decimalValue (ds : List Char) : Nat :=
  ds.foldl (fun acc ch => acc * 10 + (ch.toNat - 48)) 0

/-! ## Vocabulary of the statements, and sample data -/

namespace Container

/-- The record `p` is enumerated by none of the six indices. -/
def inNoIndex (c : Container) (p : Person) : Prop :=
  p ∉ c.idView ∧ p ∉ c.emailView ∧ p ∉ c.nameView ∧ p ∉ c.ageView ∧ p ∉ c.cityView ∧
    p ∉ c.seqView

/-- The record `p` is enumerated by each of the six indices. -/
def inEveryIndex (c : Container) (p : Person) : Prop :=
  p ∈ c.idView ∧ p ∈ c.emailView ∧ p ∈ c.nameView ∧ p ∈ c.ageView ∧ p ∈ c.cityView ∧
    p ∈ c.seqView

/-- Each of the six indices of `c'` enumerates what it enumerates in `c`, in the
same order, with the record `p` taken out. -/
def enumeratesAllBut (c' c : Container) (p : Person) : Prop :=
  c'.idView = c.idView.filter (fun q => decide (q ≠ p)) ∧
  c'.emailView = c.emailView.filter (fun q => decide (q ≠ p)) ∧
  c'.nameView = c.nameView.filter (fun q => decide (q ≠ p)) ∧
  c'.ageView = c.ageView.filter (fun q => decide (q ≠ p)) ∧
  c'.cityView = c.cityView.filter (fun q => decide (q ≠ p)) ∧
  c'.seqView = c.seqView.filter (fun q => decide (q ≠ p))

end Container

/-- Sample record A, with id 1. -/
def recordA : Person := { id := 1, name := "Ann", email := "ann@example.com", age := 30, city := "X" }

/-- Sample record B, with id 2. -/
def recordB : Person := { id := 2, name := "Bob", email := "bob@example.com", age := 40, city := "Y" }

/-- Sample record with a fresh id and the email of record A. -/
def recordC : Person := { id := 7, name := "Cy", email := "ann@example.com", age := 50, city := "Z" }

/-- Sample record with id 3. -/
def recordD : Person := { id := 3, name := "Dee", email := "dee@example.com", age := 35, city := "X" }

/-- The container after `insert(recordA)` on the empty container. -/
def containerA : Container := Container.empty.withRecord recordA

/-- The container after `insert(recordA)` and `insert(recordB)`. -/
def containerAB : Container := containerA.withRecord recordB

/-- A record of the given id and age for the range example. -/
def aged (i : Nat) (a : Int) : Person :=
  { id := (i : Int), name := "P", email := "p" ++ toString i ++ "@example.com", age := a,
    city := "C" }

/-- The container holding five records aged 20, 25, 30, 35 and 40. -/
def agesContainer : Container :=
  ((((Container.empty.withRecord (aged 0 20)).withRecord (aged 1 25)).withRecord
    (aged 2 30)).withRecord (aged 3 35)).withRecord (aged 4 40)

/-! ## The standard-container comparison and the range benchmark, from the source -/

/-- Modelled from the spec: `std::map` and `std::unordered_map` are the standard
library's, not in the repository, and the spec leaves them out of scope; the
assignment `index[key] = value` has its standard meaning: the value of an
existing key is replaced, a new key is added.  The map is kept as a list of
(key, value) pairs, one per key. -/
def mapAssign {κ : Type} [DecidableEq κ] (k : κ) (v : Nat) : List (κ × Nat) → List (κ × Nat)
  | [] => [(k, v)]
  | x :: rest => if x.1 = k then (k, v) :: rest else x :: mapAssign k v rest

/-- Modelled from the spec: lookup `index[key]` / `index.find(key)` of `std::map`
and `std::unordered_map` (standard library, not in the repository): the value
stored under the key, if any. -/
def mapFind {κ : Type} [DecidableEq κ] (k : κ) : List (κ × Nat) → Option Nat
  | [] => none
  | x :: rest => if x.1 = k then some x.2 else mapFind k rest

/-- Modelled from the spec: `std::multimap::emplace(key, value)` (standard
library, not in the repository): always adds an entry, in key order, after the
entries of an equal key. -/
def multimapEmplace {κ : Type} [LinearOrder κ] (k : κ) (v : Nat) :
    List (κ × Nat) → List (κ × Nat)
  | [] => [(k, v)]
  | x :: rest => if k < x.1 then (k, v) :: x :: rest else x :: multimapEmplace k v rest

/-- The separate data structures of `BM_StandardContainersInsert`, under the
names of the source. -/
structure StandardContainers where
  id_index : List (Int × Nat)
  email_index : List (String × Nat)
  name_index : List (List Char × Nat)
  age_index : List (Int × Nat)
  city_index : List (List Char × Nat)
  name_city_index : List (Lex (List Char × List Char) × Nat)
  data : List Person

/-- The body of the insert loop of `BM_StandardContainersInsert` for
`person = persons[i]`: `push_back` and the six index updates. -/
def standardInsertBody (st : StandardContainers) (person : Person) (i : Nat) :
    StandardContainers :=
  { data := st.data ++ [person]
    id_index := mapAssign person.id i st.id_index
    email_index := mapAssign person.email i st.email_index
    name_index := multimapEmplace person.name.data i st.name_index
    age_index := multimapEmplace person.age i st.age_index
    city_index := multimapEmplace person.city.data i st.city_index
    name_city_index :=
      multimapEmplace (toLex (person.name.data, person.city.data)) i st.name_city_index }

/-- The loop `for (size_t i = 0; i < persons.size(); ++i)` of
`BM_StandardContainersInsert`, from index `i` on, over the persons not yet
visited. -/
def standardInsertLoop : List Person → Nat → StandardContainers → StandardContainers
  | [], _, st => st
  | person :: rest, i, st => standardInsertLoop rest (i + 1) (standardInsertBody st person i)

/-- One iteration of `BM_StandardContainersInsert` for `SIZE = state.range(0)`:
fresh containers filled from `generatePersons(SIZE)`. -/
def BM_StandardContainersInsert (SIZE : Nat) : StandardContainers :=
  standardInsertLoop (generatePersons SIZE) 0
    { id_index := [], email_index := [], name_index := [], age_index := [], city_index := [],
      name_city_index := [], data := [] }

/-- The vector `age_ranges` of `BM_MultiIndexRangeByAge`, as (min, max) pairs. -/
def age_ranges : List (Int × Int) := [(20, 30), (30, 40), (40, 50), (50, 60), (60, 70)]

/-- The loop `for (const auto& range : age_ranges)` of `BM_MultiIndexRangeByAge`
over the ranges left, `total_count` being the sum so far: each range is scanned,
`count` is the number of entries visited, and `total_count += count`. -/
def countRanges (c : Container) : List (Int × Int) → Nat → Option Nat
  | [], total_count => some total_count
  | range :: rest, total_count =>
    match rangeScan c range.1 range.2 with
    | none => none
    | some visited => countRanges c rest (total_count + visited.length)

/-- One iteration of `BM_MultiIndexRangeByAge` for `SIZE = state.range(0)`: the
value of `total_count` on a container filled from `generatePersons(SIZE)`. -/
def BM_MultiIndexRangeByAge (SIZE : Nat) : Option Nat :=
  match insertAll (generatePersons SIZE) Container.empty with
  | none => none
  | some (c, _) => countRanges c age_ranges 0

/-- The sum over `age_ranges` of the number of `i < SIZE` whose generated age
`20 + (i mod 60)` lies in the range, both bounds inclusive. -/
def expectedRangeTotal (SIZE : Nat) : Nat :=
  (age_ranges.map (fun range =>
    ((List.range SIZE).filter (fun i =>
      decide (range.1 ≤ 20 + ((i % 60 : Nat) : Int) ∧
        20 + ((i % 60 : Nat) : Int) ≤ range.2))).length)).sum

/-- The index that the assignments `index[f(person)] = i` of the loop of
`BM_StandardContainersInsert` leave, from position `i` on. -/
def assignFrom {κ : Type} [DecidableEq κ] (f : Person → κ) :
    List Person → Nat → List (κ × Nat) → List (κ × Nat)
  | [], _, m => m
  | person :: rest, i, m => assignFrom f rest (i + 1) (mapAssign (f person) i m)

/-- The multimap that the calls `index.emplace(f(person), i)` of the loop of
`BM_StandardContainersInsert` leave, from position `i` on. -/
def emplaceFrom {κ : Type} [LinearOrder κ] (f : Person → κ) :
    List Person → Nat → List (κ × Nat) → List (κ × Nat)
  | [], _, m => m
  | person :: rest, i, m => emplaceFrom f rest (i + 1) (multimapEmplace (f person) i m)

end MultiIndexBench

namespace GraphBench

/-!
Graph benchmarks (`src/graph_bench.h`)

`generate_random_graph`, `generate_grid_graph` and `ManhattanDistanceHeuristic`
are translated from the source.  The graph type is a template parameter that the
benchmarks instantiate with the library's `adjacency_list<vecS, vecS, ...>`;
the few graph operations the generators call are modelled with their documented
meaning.
-/

/-- An edge descriptor: source, target, and the identity of the edge (the
`n`-th edge ever added to the graph has identity `n`). -/
structure Edge where
  source : Nat
  target : Nat
  id : Nat
deriving DecidableEq, Repr

/-- The directedness selector of `adjacency_list`: `directedS`
(`BM_BoostGraphDijkstra`), `undirectedS` (`BM_BoostGraphBFS`,
`BM_BoostGraphDFS`), `bidirectionalS` (`BM_BoostGraphAStar`). -/
inductive Directedness where
  | directedS
  | undirectedS
  | bidirectionalS
deriving DecidableEq, Repr

/-- Modelled from the spec: the graph type is a template parameter, instantiated
with the library's `adjacency_list<vecS, vecS, D>`, whose code is not in the
repository and which the spec leaves out of scope.  Vertices are `0 ..
num_vertices - 1`; the edges are kept in the order they were added. -/
structure Graph where
  kind : Directedness
  num_vertices : Nat
  edges : List Edge
  next_id : Nat
deriving DecidableEq, Repr

namespace Graph

/-- Modelled from the spec: a default-constructed `adjacency_list` (library
code): no vertex, no edge. -/
def empty (kind : Directedness) : Graph :=
  { kind := kind, num_vertices := 0, edges := [], next_id := 0 }

/-- Modelled from the spec: `boost::add_vertex(g)` on a `vecS` vertex list
(library code): the new vertex is the old number of vertices. -/
def add_vertex (g : Graph) : Graph × Nat :=
  ({ g with num_vertices := g.num_vertices + 1 }, g.num_vertices)

/-- Modelled from the spec: `boost::add_edge(u, v, g)` on a `vecS` out-edge list
(library code): the edge is always added (`inserted` is true, parallel edges are
allowed), and the vertex set grows when `u` or `v` is past its end. -/
def add_edge (u v : Nat) (g : Graph) : Graph × Edge × Bool :=
  let e : Edge := { source := u, target := v, id := g.next_id }
  ({ g with num_vertices := max g.num_vertices (max u v + 1)
            edges := g.edges ++ [e]
            next_id := g.next_id + 1 }, e, true)

/-- Modelled from the spec: `boost::out_edges(u, g)` (library code), as the list
of edge descriptors seen from `u`: in a directed or bidirectional graph the
edges with source `u`; in an undirected graph the edges incident to `u`, each
presented with `u` as its source and the other end as its target. -/
def out_edges (u : Nat) (g : Graph) : List Edge :=
  match g.kind with
  | .undirectedS =>
    g.edges.flatMap (fun e =>
      (if e.source = u then [e] else []) ++
      (if e.target = u then [{ source := u, target := e.source, id := e.id }] else []))
  | _ => g.edges.filter (fun e => decide (e.source = u))

/-- Modelled from the spec: `boost::clear_vertex(v, g)` (library code): removes
every edge to and from `v`; the vertex stays. -/
def clear_vertex (v : Nat) (g : Graph) : Graph :=
  { g with edges := g.edges.filter (fun e => decide (e.source ≠ v ∧ e.target ≠ v)) }

end Graph

/-- Modelled from the spec: the assignment `map[key] = value` through an
`associative_property_map` over a `std::map` (library code, not in the
repository): the value of an existing key is replaced, a new key is added.  Edge
keys are edge identities, vertex keys are vertex numbers. -/
def propAssign {β : Type} (k : Nat) (v : β) : List (Nat × β) → List (Nat × β)
  | [] => [(k, v)]
  | x :: rest => if x.1 = k then (k, v) :: rest else x :: propAssign k v rest

/-- Modelled from the spec: the value stored under a key of a `std::map` behind
an `associative_property_map` (library code), if any. -/
def propFind {β : Type} (k : Nat) : List (Nat × β) → Option β
  | [] => none
  | x :: rest => if x.1 = k then some x.2 else propFind k rest

/-- Modelled from the spec: a draw of `std::uniform_int_distribution<>(a, b)`
(standard library) for `a <= b`: some value in `a .. b`.  `raw` is an arbitrary
natural number standing for the state of the generator at that draw, so that
every sequence of in-range values arises from some sequence of `raw`. -/
def uniform_int (a b : Nat) (raw : Nat) : Nat := a + raw % (b - a + 1)

/-- The body of the loop `for (int i = 0; i < num_edges; ++i)` of
`generate_random_graph`: three draws, the self-loop test, the search of
`out_edges(source)` for the target, and `add_edge` with the weight assignment.
`rand k` stands for the generator at its `k`-th draw. -/
def randomEdgeBody (num_vertices max_weight : Nat) (rand : Nat → Nat)
    (st : Graph × List (Nat × Int)) (i : Nat) : Graph × List (Nat × Int) :=
  let source := uniform_int 0 (num_vertices - 1) (rand (3 * i))
  let target := uniform_int 0 (num_vertices - 1) (rand (3 * i + 1))
  let weight := uniform_int 1 max_weight (rand (3 * i + 2))
  if source ≠ target then
    let found := (st.1.out_edges source).any (fun e => decide (e.target = target))
    if !found then
      match st.1.add_edge source target with
      | (g, e, inserted) =>
        if inserted then (g, propAssign e.id (weight : Int) st.2) else (g, st.2)
    else st
  else st

/-- The function `generate_random_graph(g, weight_map, num_vertices, num_edges,
max_weight)` for non-negative arguments.  The distributions `(0, num_vertices -
1)` and `(1, max_weight)` need a lower bound not above the upper one; otherwise
the behaviour is undefined (`none`). -/
def generate_random_graph (g : Graph) (weight_map : List (Nat × Int))
    (num_vertices num_edges max_weight : Nat) (rand : Nat → Nat) :
    Option (Graph × List (Nat × Int)) :=
  let g1 := (List.range num_vertices).foldl (fun g _ => g.add_vertex.1) g
  if num_vertices < 1 ∨ max_weight < 1 then none
  else some ((List.range num_edges).foldl (randomEdgeBody num_vertices max_weight rand)
    (g1, weight_map))

/-- The state of `generate_grid_graph`: the graph, the position map, the weight
map and the local vector `vertices`. -/
structure Grid where
  g : Graph
  pos_map : List (Nat × (Int × Int))
  weight_map : List (Nat × Int)
  vertices : List Nat
deriving DecidableEq, Repr

/-- The nested loops `for (int y = 0; y < height; ++y) for (int x = 0; x <
width; ++x)` of `generate_grid_graph` around a body `f`. -/
def forCells {σ : Type} (width height : Nat) (f : σ → Nat → Nat → σ) (init : σ) : σ :=
  (List.range height).foldl (fun st y => (List.range width).foldl (fun st x => f st x y) st)
    init

/-- The body of the first pair of loops of `generate_grid_graph`: `add_vertex`,
`pos_map[v] = (x, y)`, `vertices[y * width + x] = v`. -/
def gridVertexBody (width : Nat) (st : Grid) (x y : Nat) : Grid :=
  match st.g.add_vertex with
  | (g, v) =>
    { st with g := g
              pos_map := propAssign v ((x : Int), (y : Int)) st.pos_map
              vertices := st.vertices.set (y * width + x) v }

/-- The four lines `boost::tie(e, inserted) = boost::add_edge(current, n, g); if
(inserted) weight_map[e] = w;` of `generate_grid_graph`. -/
def addWeighted (st : Grid) (current neighbour : Nat) (w : Int) : Grid :=
  match st.g.add_edge current neighbour with
  | (g, e, inserted) =>
    if inserted then { st with g := g, weight_map := propAssign e.id w st.weight_map }
    else { st with g := g }

/-- The body of the second pair of loops of `generate_grid_graph`: the edges to
the right, down, down-right and down-left neighbours, each under its test. -/
def gridEdgeBody (width height : Nat) (st : Grid) (x y : Nat) : Grid :=
  let current := st.vertices.getD (y * width + x) 0
  let st1 :=
    if x + 1 < width then addWeighted st current (st.vertices.getD (y * width + (x + 1)) 0) 1
    else st
  let st2 :=
    if y + 1 < height then addWeighted st1 current (st.vertices.getD ((y + 1) * width + x) 0) 1
    else st1
  let st3 :=
    if x + 1 < width ∧ y + 1 < height then
      addWeighted st2 current (st.vertices.getD ((y + 1) * width + (x + 1)) 0) 14
    else st2
  if x > 0 ∧ y + 1 < height then
    addWeighted st3 current (st.vertices.getD ((y + 1) * width + (x - 1)) 0) 14
  else st3

/-- The part of `generate_grid_graph` before the obstacles: the vector
`vertices(width * height)`, the vertex loops and the edge loops. -/
def gridBuild (g : Graph) (pos_map : List (Nat × (Int × Int))) (weight_map : List (Nat × Int))
    (width height : Nat) : Grid :=
  let st0 : Grid :=
    { g := g, pos_map := pos_map, weight_map := weight_map
      vertices := List.replicate (width * height) 0 }
  let st1 := forCells width height (gridVertexBody width) st0
  forCells width height (gridEdgeBody width height) st1

/-- The body of the obstacle loop of `generate_grid_graph`: a draw of
`vertex_dist`, and `clear_vertex` on the vertex drawn. -/
def obstacleBody (width height : Nat) (rand : Nat → Nat) (st : Grid) (i : Nat) : Grid :=
  let idx := uniform_int 0 (width * height - 1) (rand i)
  let v := st.vertices.getD idx 0
  { st with g := st.g.clear_vertex v }

/-- The function `generate_grid_graph(g, pos_map, weight_map, width, height)`
for non-negative `width` and `height`.  The distribution `(0, width * height -
1)` needs `width * height >= 1`; otherwise the behaviour is undefined
(`none`). -/
def generate_grid_graph (g : Graph) (pos_map : List (Nat × (Int × Int)))
    (weight_map : List (Nat × Int)) (width height : Nat) (rand : Nat → Nat) : Option Grid :=
  let st := gridBuild g pos_map weight_map width height
  if width * height < 1 then none
  else
    let num_obstacles := (width * height) / 10
    some ((List.range num_obstacles).foldl (obstacleBody width height rand) st)

/-- The value of a computation in `int` (32 bits, signed): the result when it is
representable, undefined (`none`) on overflow. -/
def int32 (z : Int) : Option Int :=
  if -2147483648 ≤ z ∧ z ≤ 2147483647 then some z else none

/-- The read `m_position_map[v]` of the heuristic: the position stored for `v`,
the value-initialised pair `(0, 0)` when `std::map::operator[]` finds none. -/
def positionOf (pos_map : List (Nat × (Int × Int))) (v : Nat) : Int × Int :=
  (propFind v pos_map).getD (0, 0)

/-- The call operator of `ManhattanDistanceHeuristic(goal, pos_map)` at `v`:
`std::abs(pos_v.first - pos_goal.first) + std::abs(pos_v.second -
pos_goal.second)`, every step in `int`. -/
def ManhattanDistanceHeuristic (goal : Nat) (pos_map : List (Nat × (Int × Int))) (v : Nat) :
    Option Int :=
  let pos_v := positionOf pos_map v
  let pos_goal := positionOf pos_map goal
  match int32 (pos_v.1 - pos_goal.1), int32 (pos_v.2 - pos_goal.2) with
  | some dx, some dy =>
    match int32 |dx|, int32 |dy| with
    | some ax, some ay => int32 (ax + ay)
    | _, _ => none
  | _, _ => none

/-- The graph has an edge from `u` to `v` that a search follows: an out-edge of
`u` with target `v`. -/
def Adjacent (g : Graph) (u v : Nat) : Prop :=
  ∃ e ∈ g.edges, e.source = u ∧ e.target = v

/-- The two edges join the same unordered pair of vertices. -/
def sameEnds (e e' : Edge) : Prop :=
  (e.source = e'.source ∧ e.target = e'.target) ∨
  (e.source = e'.target ∧ e.target = e'.source)

/-- The cells `(x, y)` of the grid in the order the nested loops visit them. -/
def cells (width height : Nat) : List (Nat × Nat) :=
  (List.range height).flatMap (fun y => (List.range width).map (fun x => (x, y)))

/-- The edges of the cell `(x, y)` as (source, target, weight), in the order the
loop body adds them: right, down, down-right, down-left, each when the
neighbour is inside the grid. -/
def cellEdges (width height : Nat) (c : Nat × Nat) : List (Nat × Nat × Int) :=
  (if c.1 + 1 < width then [(c.2 * width + c.1, c.2 * width + (c.1 + 1), 1)] else []) ++
  (if c.2 + 1 < height then [(c.2 * width + c.1, (c.2 + 1) * width + c.1, 1)] else []) ++
  (if c.1 + 1 < width ∧ c.2 + 1 < height then
    [(c.2 * width + c.1, (c.2 + 1) * width + (c.1 + 1), 14)] else []) ++
  (if c.1 > 0 ∧ c.2 + 1 < height then
    [(c.2 * width + c.1, (c.2 + 1) * width + (c.1 - 1), 14)] else [])

/-- The edge descriptors of a list of (source, target, weight) added one after
the other, the first with identity `n`. -/
def edgesFrom : Nat → List (Nat × Nat × Int) → List Edge
  | _, [] => []
  | n, t :: rest => { source := t.1, target := t.2.1, id := n } :: edgesFrom (n + 1) rest

/-- The weight-map entries of a list of (source, target, weight) added one after
the other, the first with identity `n`. -/
def weightsFrom : Nat → List (Nat × Nat × Int) → List (Nat × Int)
  | _, [] => []
  | n, t :: rest => (n, t.2.2) :: weightsFrom (n + 1) rest

end GraphBench

namespace MultiIndexBench

/-! ## The arena: what `get` returns after each operation -/

namespace Arena

theorem get_empty (s : Nat) : Arena.empty.get s = none := by
  simp [Arena.empty, Arena.get]

theorem get_nextSlot (a : Arena) : a.get a.nextSlot = none := by
  unfold Arena.get Arena.nextSlot
  by_cases h : List.findIdx (fun c => c.isNone) a.cells < a.cells.length
  · have hp : (a.cells[List.findIdx (fun c => c.isNone) a.cells]).isNone = true :=
      List.findIdx_getElem (p := fun c : Option Person => c.isNone) (w := h)
    rw [List.getElem?_eq_getElem h]
    simpa [Option.isNone_iff_eq_none] using hp
  · rw [List.getElem?_eq_none (by omega)]
    rfl

theorem allocate_snd (a : Arena) (v : Person) : (a.allocate v).2 = a.nextSlot := by
  unfold Arena.allocate
  by_cases h : a.nextSlot < a.cells.length <;> simp [h]

theorem get_allocate_self (a : Arena) (v : Person) :
    (a.allocate v).1.get a.nextSlot = some v := by
  unfold Arena.allocate
  by_cases h : a.nextSlot < a.cells.length
  · simp [h, Arena.get]
  · have hle : a.nextSlot ≤ a.cells.length := List.findIdx_le_length _
    have heq : a.nextSlot = a.cells.length := by omega
    simp [h, Arena.get, heq]

theorem get_allocate_ne (a : Arena) (v : Person) (s : Nat) (hs : s ≠ a.nextSlot) :
    (a.allocate v).1.get s = a.get s := by
  unfold Arena.allocate
  by_cases h : a.nextSlot < a.cells.length
  · simp [h, Arena.get, List.getElem?_set_ne (Ne.symm hs)]
  · have hle : a.nextSlot ≤ a.cells.length := List.findIdx_le_length _
    have heq : a.nextSlot = a.cells.length := by omega
    simp only [h, if_false, Arena.get]
    by_cases hlt : s < a.cells.length
    · rw [List.getElem?_append_left hlt]
    · have : a.cells.length < s := by omega
      rw [List.getElem?_eq_none (by simp; omega), List.getElem?_eq_none (by omega)]

theorem lt_length_of_get {a : Arena} {s : Nat} {p : Person} (h : a.get s = some p) :
    s < a.cells.length := by
  by_contra hlt
  unfold Arena.get at h
  rw [List.getElem?_eq_none (by omega)] at h
  simp at h

theorem get_set_self {a : Arena} {s : Nat} {p : Person} (h : a.get s = some p) (v : Person) :
    (a.set s v).get s = some v := by
  have := lt_length_of_get h
  simp [Arena.set, Arena.get, this]

theorem get_set_ne (a : Arena) (s t : Nat) (v : Person) (h : t ≠ s) :
    (a.set s v).get t = a.get t := by
  simp [Arena.set, Arena.get, List.getElem?_set_ne (Ne.symm h)]

theorem get_cleared_self (a : Arena) (s : Nat) :
    (Arena.mk (a.cells.set s none)).get s = none := by
  by_cases h : s < a.cells.length
  · simp [Arena.get, h]
  · have hlen : (a.cells.set s none).length ≤ s := by simp; omega
    simp [Arena.get, List.getElem?_eq_none hlen]

theorem get_cleared_ne (a : Arena) (s t : Nat) (h : t ≠ s) :
    (Arena.mk (a.cells.set s none)).get t = a.get t := by
  simp [Arena.get, List.getElem?_set_ne (Ne.symm h)]

end Arena

/-! ## Index entries against the arena -/

namespace Agrees

variable {κ : Type} {f : Person → κ} {g g' : Nat → Option Person} {idx idx' : List (κ × Nat)}

theorem of_nil : Agrees f (fun _ => none) ([] : List (κ × Nat)) := by
  constructor
  · intro k s; simp
  · simp

theorem entries_nodup (h : Agrees f g idx) : idx.Nodup := List.Nodup.of_map _ h.2

theorem slot_live (h : Agrees f g idx) {e : κ × Nat} (he : e ∈ idx) :
    ∃ p, g e.2 = some p ∧ f p = e.1 := (h.1 e.1 e.2).1 he

theorem no_entry (h : Agrees f g idx) {s : Nat} (hs : g s = none) :
    ∀ e ∈ idx, e.2 ≠ s := by
  intro e he heq
  obtain ⟨p, hp, _⟩ := h.slot_live he
  rw [heq, hs] at hp
  cases hp

theorem of_add (h : Agrees f g idx) {s : Nat} {r : Person} (hs : g s = none)
    (hs' : g' s = some r) (hother : ∀ t, t ≠ s → g' t = g t)
    (hperm : idx'.Perm ((f r, s) :: idx)) : Agrees f g' idx' := by
  constructor
  · intro k t
    rw [hperm.mem_iff, List.mem_cons]
    constructor
    · rintro (heq | hmem)
      · cases heq
        exact ⟨r, hs', rfl⟩
      · obtain ⟨p, hp, hk⟩ := (h.1 k t).1 hmem
        have hts : t ≠ s := by
          rintro rfl
          rw [hs] at hp
          cases hp
        exact ⟨p, by rw [hother t hts]; exact hp, hk⟩
    · rintro ⟨p, hp, hk⟩
      by_cases hts : t = s
      · subst hts
        rw [hs'] at hp
        cases hp
        left
        rw [hk]
      · right
        rw [hother t hts] at hp
        exact (h.1 k t).2 ⟨p, hp, hk⟩
  · rw [(hperm.map Prod.snd).nodup_iff, List.map_cons, List.nodup_cons]
    refine ⟨?_, h.2⟩
    intro hmem
    obtain ⟨e, he, hes⟩ := List.mem_map.1 hmem
    exact h.no_entry hs e he hes

theorem remove_core {_ : BEq (κ × Nat)} (hl : LawfulBEq (κ × Nat)) (h : Agrees f g idx)
    {s : Nat} {p : Person} (hs : g s = some p)
    (hs' : g' s = none) (hother : ∀ t, t ≠ s → g' t = g t) :
    Agrees f g' (idx.erase (f p, s)) := by
  constructor
  · intro k t
    rw [h.entries_nodup.mem_erase_iff]
    constructor
    · rintro ⟨hne, hmem⟩
      obtain ⟨q, hq, hk⟩ := (h.1 k t).1 hmem
      have hts : t ≠ s := by
        rintro rfl
        rw [hs] at hq
        cases hq
        exact hne (by rw [hk])
      exact ⟨q, by rw [hother t hts]; exact hq, hk⟩
    · rintro ⟨q, hq, hk⟩
      have hts : t ≠ s := by
        rintro rfl
        rw [hs'] at hq
        cases hq
      rw [hother t hts] at hq
      refine ⟨?_, (h.1 k t).2 ⟨q, hq, hk⟩⟩
      intro heq
      exact hts (Prod.mk.inj heq).2
  · exact h.2.sublist ((List.erase_sublist _ _).map Prod.snd)

theorem of_remove [LinearOrder κ] (h : Agrees f g idx) {s : Nat} {p : Person}
    (hs : g s = some p) (hs' : g' s = none) (hother : ∀ t, t ≠ s → g' t = g t) :
    Agrees f g' (OrderedIndex.remove (f p, s) idx) :=
  remove_core inferInstance h hs hs' hother

theorem of_remove_hashed {f : Person → String} {idx : List (String × Nat)} (h : Agrees f g idx)
    {s : Nat} {p : Person}
    (hs : g s = some p) (hs' : g' s = none) (hother : ∀ t, t ≠ s → g' t = g t) :
    Agrees f g' (idx.erase (f p, s)) :=
  remove_core inferInstance h hs hs' hother

theorem congr_arena (h : Agrees f g idx) (hg : ∀ t, g' t = g t) : Agrees f g' idx := by
  have : g' = g := funext hg
  rw [this]
  exact h

end Agrees

/-! ## Ordered, hashed and sequence index: structural lemmas -/

namespace OrderedIndex

variable {κ : Type} [LinearOrder κ]

theorem place_perm (e : κ × Nat) (idx : List (κ × Nat)) : (place e idx).Perm (e :: idx) := by
  induction idx with
  | nil => exact List.Perm.refl _
  | cons x xs ih =>
    unfold place
    by_cases h : e.1 < x.1
    · simp [h]
    · simp only [h, if_false]
      exact (List.Perm.cons x ih).trans (List.Perm.swap e x xs)

theorem place_sorted (e : κ × Nat) {idx : List (κ × Nat)}
    (h : idx.Pairwise (fun a b => a.1 ≤ b.1)) :
    (place e idx).Pairwise (fun a b => a.1 ≤ b.1) := by
  induction idx with
  | nil => simp [place]
  | cons x xs ih =>
    rw [List.pairwise_cons] at h
    unfold place
    by_cases hlt : e.1 < x.1
    · simp only [hlt, if_true, List.pairwise_cons]
      refine ⟨?_, h.1, h.2⟩
      intro y hy
      rcases List.mem_cons.1 hy with rfl | hy
      · exact le_of_lt hlt
      · exact le_trans (le_of_lt hlt) (h.1 y hy)
    · simp only [hlt, if_false, List.pairwise_cons]
      refine ⟨?_, ih h.2⟩
      intro y hy
      rcases List.mem_cons.1 ((place_perm e xs).mem_iff.1 hy) with rfl | hy
      · exact le_of_not_lt hlt
      · exact h.1 y hy

theorem hasKey_iff (k : κ) (idx : List (κ × Nat)) :
    hasKey k idx = true ↔ k ∈ idx.map Prod.fst := by
  simp [hasKey, List.any_eq_true]

theorem hasKey_false_iff (k : κ) (idx : List (κ × Nat)) :
    hasKey k idx = false ↔ k ∉ idx.map Prod.fst := by
  rw [← hasKey_iff]
  simp

theorem not_mem_of_hasKey_false {e : κ × Nat} {idx : List (κ × Nat)}
    (h : hasKey e.1 idx = false) : e ∉ idx := by
  intro he
  exact (hasKey_false_iff _ _).1 h (List.mem_map_of_mem Prod.fst he)

theorem remove_place {e : κ × Nat} {idx : List (κ × Nat)} (h : e ∉ idx) :
    remove e (place e idx) = idx := by
  unfold remove
  induction idx with
  | nil => simp [place]
  | cons x xs ih =>
    have hx : x ≠ e := fun hxe => h (by simp [hxe])
    have hxs : e ∉ xs := fun hmem => h (List.mem_cons_of_mem _ hmem)
    unfold place
    by_cases hlt : e.1 < x.1
    · simp [hlt]
    · simp only [hlt, if_false]
      rw [List.erase_cons]
      simp [hx, ih hxs]

theorem place_keys_nodup {e : κ × Nat} {idx : List (κ × Nat)}
    (h : (idx.map Prod.fst).Nodup) (hk : hasKey e.1 idx = false) :
    ((place e idx).map Prod.fst).Nodup := by
  rw [((place_perm e idx).map Prod.fst).nodup_iff, List.map_cons, List.nodup_cons]
  exact ⟨(hasKey_false_iff _ _).1 hk, h⟩

theorem erase_of_mem {e : κ × Nat} {idx : List (κ × Nat)} (h : e ∈ idx) :
    erase e idx = .ok (remove e idx) := by
  simp [erase, h]

theorem remove_keys_nodup {idx : List (κ × Nat)} (e : κ × Nat)
    (h : (idx.map Prod.fst).Nodup) : ((remove e idx).map Prod.fst).Nodup :=
  h.sublist ((List.erase_sublist _ _).map Prod.fst)

theorem remove_sorted {idx : List (κ × Nat)} (e : κ × Nat)
    (h : idx.Pairwise (fun a b => a.1 ≤ b.1)) : (remove e idx).Pairwise (fun a b => a.1 ≤ b.1) :=
  h.sublist (List.erase_sublist _ _)

end OrderedIndex

namespace HashedIndex

theorem hashed_hasKey_iff (k : String) (idx : List (String × Nat)) :
    hasKey k idx = true ↔ k ∈ idx.map Prod.fst := by
  simp [hasKey, List.any_eq_true]

theorem hashed_hasKey_false_iff (k : String) (idx : List (String × Nat)) :
    hasKey k idx = false ↔ k ∉ idx.map Prod.fst := by
  rw [← hashed_hasKey_iff]
  simp

theorem filter_eq_erase {k : String} {s : Nat} :
    ∀ {idx : List (String × Nat)}, (idx.map Prod.fst).Nodup → (k, s) ∈ idx →
      idx.filter (fun e => decide (e.1 ≠ k)) = idx.erase (k, s) := by
  intro idx
  induction idx with
  | nil => intro _ h; cases h
  | cons x xs ih =>
    intro hnd hmem
    rw [List.map_cons, List.nodup_cons] at hnd
    rcases List.mem_cons.1 hmem with heq | hmem
    · subst heq
      have hall : ∀ y ∈ xs, decide (y.1 ≠ k) = true := by
        intro y hy
        have : y.1 ≠ k := fun h => hnd.1 (by
          show k ∈ List.map Prod.fst xs
          rw [← h]
          exact List.mem_map_of_mem Prod.fst hy)
        exact decide_eq_true this
      have hk : decide ((k, s).1 ≠ k) = false := decide_eq_false (fun h => h rfl)
      rw [List.filter_cons, hk, List.filter_eq_self.2 hall, List.erase_cons_head]
      rfl
    · have hx : x.1 ≠ k := fun h => hnd.1 (by
        rw [h]
        exact List.mem_map_of_mem Prod.fst hmem)
      have hx' : (x == (k, s)) = false := beq_false_of_ne (fun h => hx (by rw [h]))
      rw [List.filter_cons, decide_eq_true hx, List.erase_cons, hx', ih hnd.2 hmem]
      rfl

theorem hashed_erase_of_mem {k : String} {s : Nat} {idx : List (String × Nat)}
    (hnd : (idx.map Prod.fst).Nodup) (h : (k, s) ∈ idx) :
    erase k idx = .ok (idx.erase (k, s)) := by
  have hk : hasKey k idx = true := (hashed_hasKey_iff _ _).2 (List.mem_map_of_mem Prod.fst h)
  unfold erase
  rw [hk, filter_eq_erase hnd h]
  rfl

end HashedIndex

theorem erase_keys_nodup {idx : List (String × Nat)} (e : String × Nat)
    (h : (idx.map Prod.fst).Nodup) : ((idx.erase e).map Prod.fst).Nodup :=
  h.sublist ((List.erase_sublist _ _).map Prod.fst)

/-! ## The coordinator: `insert` -/

namespace Container

theorem insert_dup_id (c : Container) (r : Person)
    (h : OrderedIndex.hasKey (idKey r) c.byId = true) :
    c.insert r = some (c, .error .DuplicateKey) := by
  simp [insert, OrderedIndex.insertUnique, h]

theorem insert_dup_email (c : Container) (r : Person)
    (hid : OrderedIndex.hasKey (idKey r) c.byId = false)
    (h : HashedIndex.hasKey (emailKey r) c.byEmail = true) :
    c.insert r = some (c, .error .DuplicateKey) := by
  have hmem : (idKey r, c.arena.nextSlot) ∈
      OrderedIndex.place (idKey r, c.arena.nextSlot) c.byId :=
    (OrderedIndex.place_perm _ _).mem_iff.2 (List.mem_cons_self _ _)
  have hnot : (idKey r, c.arena.nextSlot) ∉ c.byId :=
    OrderedIndex.not_mem_of_hasKey_false hid
  simp [insert, OrderedIndex.insertUnique, HashedIndex.insert, hid, h,
    OrderedIndex.erase, hmem, OrderedIndex.remove_place hnot]

theorem insert_fresh (c : Container) (r : Person)
    (hid : OrderedIndex.hasKey (idKey r) c.byId = false)
    (hem : HashedIndex.hasKey (emailKey r) c.byEmail = false) :
    c.insert r = some (c.withRecord r, .ok c.arena.nextSlot) := by
  simp [insert, OrderedIndex.insertUnique, HashedIndex.insert, hid, hem, withRecord,
    OrderedIndex.insertNonUnique, SequenceIndex.append, Arena.allocate_snd]

end Container

namespace WF

theorem of_empty : WF Container.empty := by
  have hg : Container.empty.arena.get = fun _ => none := funext Arena.get_empty
  constructor
  all_goals first
    | (rw [hg]; exact Agrees.of_nil)
    | (simp [Container.empty]; done)
    | (intro s; simp [Container.empty, Arena.get_empty])

theorem hasKey_id {c : Container} (h : WF c) (k : Int) :
    OrderedIndex.hasKey k c.byId = true ↔ ∃ s p, c.arena.get s = some p ∧ p.id = k := by
  rw [OrderedIndex.hasKey_iff, List.mem_map]
  constructor
  · rintro ⟨e, he, rfl⟩
    obtain ⟨p, hp, hk⟩ := h.id_agrees.slot_live he
    exact ⟨e.2, p, hp, hk⟩
  · rintro ⟨s, p, hp, hk⟩
    exact ⟨(k, s), (h.id_agrees.1 k s).2 ⟨p, hp, hk⟩, rfl⟩

theorem hasKey_email {c : Container} (h : WF c) (k : String) :
    HashedIndex.hasKey k c.byEmail = true ↔ ∃ s p, c.arena.get s = some p ∧ p.email = k := by
  rw [HashedIndex.hashed_hasKey_iff, List.mem_map]
  constructor
  · rintro ⟨e, he, rfl⟩
    obtain ⟨p, hp, hk⟩ := h.email_agrees.slot_live he
    exact ⟨e.2, p, hp, hk⟩
  · rintro ⟨s, p, hp, hk⟩
    exact ⟨(k, s), (h.email_agrees.1 k s).2 ⟨p, hp, hk⟩, rfl⟩

theorem of_withRecord {c : Container} (h : WF c) (r : Person)
    (hid : OrderedIndex.hasKey (idKey r) c.byId = false)
    (hem : HashedIndex.hasKey (emailKey r) c.byEmail = false) : WF (c.withRecord r) := by
  have hs := Arena.get_nextSlot c.arena
  have hs' := Arena.get_allocate_self c.arena r
  have ho : ∀ t, t ≠ c.arena.nextSlot → (c.arena.allocate r).1.get t = c.arena.get t :=
    fun t ht => Arena.get_allocate_ne c.arena r t ht
  have hnot : c.arena.nextSlot ∉ c.seq := by
    intro hmem
    obtain ⟨p, hp⟩ := (h.seq_live _).1 hmem
    rw [hs] at hp
    cases hp
  constructor
  · exact h.id_agrees.of_add hs hs' ho (OrderedIndex.place_perm _ _)
  · exact h.email_agrees.of_add hs hs' ho (List.perm_append_singleton _ _)
  · exact h.name_agrees.of_add hs hs' ho (OrderedIndex.place_perm _ _)
  · exact h.age_agrees.of_add hs hs' ho (OrderedIndex.place_perm _ _)
  · exact h.city_agrees.of_add hs hs' ho (OrderedIndex.place_perm _ _)
  · exact OrderedIndex.place_keys_nodup h.id_unique hid
  · show ((c.byEmail ++ [(emailKey r, c.arena.nextSlot)]).map Prod.fst).Nodup
    rw [((List.perm_append_singleton _ _).map Prod.fst).nodup_iff, List.map_cons,
      List.nodup_cons]
    exact ⟨(HashedIndex.hashed_hasKey_false_iff _ _).1 hem, h.email_unique⟩
  · exact OrderedIndex.place_sorted _ h.id_sorted
  · exact OrderedIndex.place_sorted _ h.name_sorted
  · exact OrderedIndex.place_sorted _ h.age_sorted
  · exact OrderedIndex.place_sorted _ h.city_sorted
  · show (c.seq ++ [c.arena.nextSlot]).Nodup
    rw [(List.perm_append_singleton _ _).nodup_iff, List.nodup_cons]
    exact ⟨hnot, h.seq_nodup⟩
  · intro s
    show s ∈ c.seq ++ [c.arena.nextSlot] ↔ ∃ p, (c.arena.allocate r).1.get s = some p
    by_cases hsn : s = c.arena.nextSlot
    · subst hsn
      simp [hs']
    · rw [ho s hsn, ← h.seq_live s]
      simp [hsn]

end WF

/-! ## The coordinator: `erase` and `modify` -/

namespace WF

theorem of_without {c : Container} (h : WF c) {s : Nat} {p : Person}
    (hp : c.arena.get s = some p) : WF (c.without s p) := by
  have hs' := Arena.get_cleared_self c.arena s
  have ho : ∀ t, t ≠ s → (Arena.mk (c.arena.cells.set s none)).get t = c.arena.get t :=
    fun t ht => Arena.get_cleared_ne c.arena s t ht
  constructor
  · exact h.id_agrees.of_remove hp hs' ho
  · exact h.email_agrees.of_remove_hashed hp hs' ho
  · exact h.name_agrees.of_remove hp hs' ho
  · exact h.age_agrees.of_remove hp hs' ho
  · exact h.city_agrees.of_remove hp hs' ho
  · exact OrderedIndex.remove_keys_nodup _ h.id_unique
  · exact erase_keys_nodup _ h.email_unique
  · exact OrderedIndex.remove_sorted _ h.id_sorted
  · exact OrderedIndex.remove_sorted _ h.name_sorted
  · exact OrderedIndex.remove_sorted _ h.age_sorted
  · exact OrderedIndex.remove_sorted _ h.city_sorted
  · exact h.seq_nodup.sublist (List.erase_sublist _ _)
  · intro t
    show t ∈ c.seq.erase s ↔ ∃ q, (Arena.mk (c.arena.cells.set s none)).get t = some q
    rw [h.seq_nodup.mem_erase_iff]
    by_cases hts : t = s
    · subst hts
      simp [hs']
    · rw [ho t hts, ← h.seq_live t]
      simp [hts]

theorem hasKey_id_without {c : Container} (h : WF c) {s : Nat} {p : Person}
    (hp : c.arena.get s = some p) (k : Int) :
    OrderedIndex.hasKey k (OrderedIndex.remove (idKey p, s) c.byId) = true ↔ c.idTaken s k := by
  have h1 := (h.of_without hp).hasKey_id k
  simp only [Container.without] at h1
  rw [h1]
  constructor
  · rintro ⟨t, q, hq, hk⟩
    have hts : t ≠ s := by
      rintro rfl
      rw [Arena.get_cleared_self] at hq
      cases hq
    rw [Arena.get_cleared_ne _ _ _ hts] at hq
    exact ⟨t, q, hts, hq, hk⟩
  · rintro ⟨t, q, hts, hq, hk⟩
    exact ⟨t, q, by rw [Arena.get_cleared_ne _ _ _ hts]; exact hq, hk⟩

theorem hasKey_email_without {c : Container} (h : WF c) {s : Nat} {p : Person}
    (hp : c.arena.get s = some p) (k : String) :
    HashedIndex.hasKey k (c.byEmail.erase (emailKey p, s)) = true ↔ c.emailTaken s k := by
  have h1 := (h.of_without hp).hasKey_email k
  simp only [Container.without] at h1
  rw [h1]
  constructor
  · rintro ⟨t, q, hq, hk⟩
    have hts : t ≠ s := by
      rintro rfl
      rw [Arena.get_cleared_self] at hq
      cases hq
    rw [Arena.get_cleared_ne _ _ _ hts] at hq
    exact ⟨t, q, hts, hq, hk⟩
  · rintro ⟨t, q, hts, hq, hk⟩
    exact ⟨t, q, by rw [Arena.get_cleared_ne _ _ _ hts]; exact hq, hk⟩

theorem of_withUpdate {c : Container} (h : WF c) {s : Nat} {old : Person} (new : Person)
    (hp : c.arena.get s = some old)
    (hid : OrderedIndex.hasKey (idKey new) (OrderedIndex.remove (idKey old, s) c.byId) = false)
    (hem : HashedIndex.hasKey (emailKey new) (c.byEmail.erase (emailKey old, s)) = false) :
    WF (c.withUpdate s old new) := by
  have hw := h.of_without hp
  have hs := Arena.get_cleared_self c.arena s
  have hs' := Arena.get_set_self hp new
  have ho : ∀ t, t ≠ s →
      (c.arena.set s new).get t = (Arena.mk (c.arena.cells.set s none)).get t := by
    intro t ht
    rw [Arena.get_set_ne _ _ _ _ ht, Arena.get_cleared_ne _ _ _ ht]
  constructor
  · exact hw.id_agrees.of_add hs hs' ho (OrderedIndex.place_perm _ _)
  · exact hw.email_agrees.of_add hs hs' ho (List.perm_append_singleton _ _)
  · exact hw.name_agrees.of_add hs hs' ho (OrderedIndex.place_perm _ _)
  · exact hw.age_agrees.of_add hs hs' ho (OrderedIndex.place_perm _ _)
  · exact hw.city_agrees.of_add hs hs' ho (OrderedIndex.place_perm _ _)
  · exact OrderedIndex.place_keys_nodup hw.id_unique hid
  · show ((c.byEmail.erase (emailKey old, s) ++ [(emailKey new, s)]).map Prod.fst).Nodup
    rw [((List.perm_append_singleton _ _).map Prod.fst).nodup_iff, List.map_cons,
      List.nodup_cons]
    exact ⟨(HashedIndex.hashed_hasKey_false_iff _ _).1 hem, hw.email_unique⟩
  · exact OrderedIndex.place_sorted _ hw.id_sorted
  · exact OrderedIndex.place_sorted _ hw.name_sorted
  · exact OrderedIndex.place_sorted _ hw.age_sorted
  · exact OrderedIndex.place_sorted _ hw.city_sorted
  · exact h.seq_nodup
  · intro t
    show t ∈ c.seq ↔ ∃ q, (c.arena.set s new).get t = some q
    by_cases hts : t = s
    · subst hts
      rw [hs', h.seq_live t, hp]
      simp
    · rw [Arena.get_set_ne _ _ _ _ hts, h.seq_live t]

end WF

namespace Container

theorem unindex_eq {c : Container} (h : WF c) {s : Nat} {p : Person}
    (hp : c.arena.get s = some p) :
    c.unindex s p = some { c with byId := OrderedIndex.remove (idKey p, s) c.byId
                                  byEmail := c.byEmail.erase (emailKey p, s)
                                  byName := OrderedIndex.remove (nameKey p, s) c.byName
                                  byAge := OrderedIndex.remove (ageKey p, s) c.byAge
                                  byCity := OrderedIndex.remove (cityKey p, s) c.byCity } := by
  have h1 : (idKey p, s) ∈ c.byId := (h.id_agrees.1 _ _).2 ⟨p, hp, rfl⟩
  have h2 : (emailKey p, s) ∈ c.byEmail := (h.email_agrees.1 _ _).2 ⟨p, hp, rfl⟩
  have h3 : (nameKey p, s) ∈ c.byName := (h.name_agrees.1 _ _).2 ⟨p, hp, rfl⟩
  have h4 : (ageKey p, s) ∈ c.byAge := (h.age_agrees.1 _ _).2 ⟨p, hp, rfl⟩
  have h5 : (cityKey p, s) ∈ c.byCity := (h.city_agrees.1 _ _).2 ⟨p, hp, rfl⟩
  unfold unindex
  rw [OrderedIndex.erase_of_mem h1, HashedIndex.hashed_erase_of_mem h.email_unique h2,
    OrderedIndex.erase_of_mem h3, OrderedIndex.erase_of_mem h4, OrderedIndex.erase_of_mem h5]

theorem release_eq (c : Container) (s : Nat)
    (h1 : ∀ e ∈ c.byId, e.2 ≠ s) (h2 : ∀ e ∈ c.byEmail, e.2 ≠ s)
    (h3 : ∀ e ∈ c.byName, e.2 ≠ s) (h4 : ∀ e ∈ c.byAge, e.2 ≠ s)
    (h5 : ∀ e ∈ c.byCity, e.2 ≠ s) (h6 : c.seq.Nodup) :
    c.release s = some { c with seq := c.seq.erase s
                                arena := ⟨c.arena.cells.set s none⟩ } := by
  have hseq : s ∉ c.seq.erase s := fun hmem => ((h6.mem_erase_iff).1 hmem).1 rfl
  have href : ({ c with seq := c.seq.erase s } : Container).referenced s = false := by
    simp only [referenced, Bool.or_eq_false_iff, List.any_eq_false,
      decide_eq_true_eq, decide_eq_false_iff_not]
    exact ⟨⟨⟨⟨⟨h1, h2⟩, h3⟩, h4⟩, h5⟩, hseq⟩
  simp only [release, SequenceIndex.remove, href, Arena.free]
  rfl

theorem unindex_release {c : Container} (h : WF c) {s : Nat} {p : Person}
    (hp : c.arena.get s = some p) :
    ({ c with byId := OrderedIndex.remove (idKey p, s) c.byId
              byEmail := c.byEmail.erase (emailKey p, s)
              byName := OrderedIndex.remove (nameKey p, s) c.byName
              byAge := OrderedIndex.remove (ageKey p, s) c.byAge
              byCity := OrderedIndex.remove (cityKey p, s) c.byCity } : Container).release s
      = some (c.without s p) := by
  have hw := h.of_without hp
  have hs := Arena.get_cleared_self c.arena s
  have hr := release_eq { c with
      byId := OrderedIndex.remove (idKey p, s) c.byId,
      byEmail := c.byEmail.erase (emailKey p, s),
      byName := OrderedIndex.remove (nameKey p, s) c.byName,
      byAge := OrderedIndex.remove (ageKey p, s) c.byAge,
      byCity := OrderedIndex.remove (cityKey p, s) c.byCity }
    s (hw.id_agrees.no_entry hs) (hw.email_agrees.no_entry hs)
    (hw.name_agrees.no_entry hs) (hw.age_agrees.no_entry hs) (hw.city_agrees.no_entry hs)
    h.seq_nodup
  rw [hr]
  rfl

theorem erase_absent (c : Container) (s : Nat) (hs : c.arena.get s = none) :
    c.erase s = some (c, .error .NotFound) := by
  simp [erase, hs]

theorem erase_live {c : Container} (h : WF c) {s : Nat} {p : Person}
    (hp : c.arena.get s = some p) : c.erase s = some (c.without s p, .ok ()) := by
  simp only [erase, hp, unindex_eq h hp, unindex_release h hp]

theorem modify_absent (c : Container) (s : Nat) (m : Person → Person)
    (hs : c.arena.get s = none) : c.modify s m = some (c, .NotFound) := by
  simp [modify, hs]

theorem modify_clash {c : Container} (h : WF c) {s : Nat} {old : Person} (m : Person → Person)
    (hp : c.arena.get s = some old)
    (hdup : OrderedIndex.hasKey (idKey (m old)) (OrderedIndex.remove (idKey old, s) c.byId) = true ∨
      HashedIndex.hasKey (emailKey (m old)) (c.byEmail.erase (emailKey old, s)) = true) :
    c.modify s m = some (c.without s old, .Erased .DuplicateKey) := by
  by_cases hid : OrderedIndex.hasKey (idKey (m old)) (OrderedIndex.remove (idKey old, s) c.byId) = true
  · simp only [modify, hp, unindex_eq h hp, OrderedIndex.insertUnique, hid, if_true,
      unindex_release h hp]
  · have hid' : OrderedIndex.hasKey (idKey (m old)) (OrderedIndex.remove (idKey old, s) c.byId) = false := by
      simpa using hid
    have hem : HashedIndex.hasKey (emailKey (m old)) (c.byEmail.erase (emailKey old, s))
        = true := hdup.resolve_left hid
    have hmem : (idKey (m old), s) ∈
        OrderedIndex.place (idKey (m old), s) (OrderedIndex.remove (idKey old, s) c.byId) :=
      (OrderedIndex.place_perm _ _).mem_iff.2 (List.mem_cons_self _ _)
    have hnot : (idKey (m old), s) ∉ OrderedIndex.remove (idKey old, s) c.byId :=
      OrderedIndex.not_mem_of_hasKey_false hid'
    simp only [modify, hp, unindex_eq h hp, OrderedIndex.insertUnique, hid', HashedIndex.insert,
      hem, if_true, Bool.false_eq_true, if_false]
    rw [show OrderedIndex.erase (idKey (m old), s) (OrderedIndex.place (idKey (m old), s)
        (OrderedIndex.remove (idKey old, s) c.byId)) = .ok (OrderedIndex.remove (idKey old, s)
        c.byId) by rw [OrderedIndex.erase_of_mem hmem, OrderedIndex.remove_place hnot]]
    simp only [unindex_release h hp]

theorem modify_fresh {c : Container} (h : WF c) {s : Nat} {old : Person} (m : Person → Person)
    (hp : c.arena.get s = some old)
    (hid : OrderedIndex.hasKey (idKey (m old)) (OrderedIndex.remove (idKey old, s) c.byId) = false)
    (hem : HashedIndex.hasKey (emailKey (m old)) (c.byEmail.erase (emailKey old, s)) = false) :
    c.modify s m = some (c.withUpdate s old (m old), .Updated) := by
  simp only [modify, hp, unindex_eq h hp, OrderedIndex.insertUnique, hid, HashedIndex.insert,
    hem, withUpdate, OrderedIndex.insertNonUnique]
  simp

end Container

/-! ## Every operation returns and keeps the invariants -/

namespace WF

theorem insert_cases {c : Container} (r : Person) :
    c.insert r = some (c, .error .DuplicateKey) ∨
      (OrderedIndex.hasKey (idKey r) c.byId = false ∧
        HashedIndex.hasKey (emailKey r) c.byEmail = false ∧
        c.insert r = some (c.withRecord r, .ok c.arena.nextSlot)) := by
  by_cases hid : OrderedIndex.hasKey (idKey r) c.byId = true
  · exact Or.inl (Container.insert_dup_id c r hid)
  · have hid' : OrderedIndex.hasKey (idKey r) c.byId = false := by simpa using hid
    by_cases hem : HashedIndex.hasKey (emailKey r) c.byEmail = true
    · exact Or.inl (Container.insert_dup_email c r hid' hem)
    · have hem' : HashedIndex.hasKey (emailKey r) c.byEmail = false := by simpa using hem
      exact Or.inr ⟨hid', hem', Container.insert_fresh c r hid' hem'⟩

theorem of_insert {c c' : Container} (h : WF c) {r : Person} {res : Except Fault Nat}
    (hi : c.insert r = some (c', res)) : WF c' := by
  rcases insert_cases (c := c) r with h1 | ⟨hid, hem, h1⟩
  · rw [h1] at hi
    cases hi
    exact h
  · rw [h1] at hi
    cases hi
    exact h.of_withRecord r hid hem

theorem of_erase {c c' : Container} (h : WF c) {s : Nat} {res : Except Fault Unit}
    (he : c.erase s = some (c', res)) : WF c' := by
  cases hp : c.arena.get s with
  | none =>
    rw [Container.erase_absent c s hp] at he
    cases he
    exact h
  | some p =>
    rw [Container.erase_live h hp] at he
    cases he
    exact h.of_without hp

theorem modify_cases {c : Container} (h : WF c) (s : Nat) (m : Person → Person) :
    (c.arena.get s = none ∧ c.modify s m = some (c, .NotFound)) ∨
    (∃ old, c.arena.get s = some old ∧
      (OrderedIndex.hasKey (idKey (m old)) (OrderedIndex.remove (idKey old, s) c.byId) = true ∨
        HashedIndex.hasKey (emailKey (m old)) (c.byEmail.erase (emailKey old, s)) = true) ∧
      c.modify s m = some (c.without s old, .Erased .DuplicateKey)) ∨
    (∃ old, c.arena.get s = some old ∧
      OrderedIndex.hasKey (idKey (m old)) (OrderedIndex.remove (idKey old, s) c.byId) = false ∧
      HashedIndex.hasKey (emailKey (m old)) (c.byEmail.erase (emailKey old, s)) = false ∧
      c.modify s m = some (c.withUpdate s old (m old), .Updated)) := by
  cases hp : c.arena.get s with
  | none => exact Or.inl ⟨rfl, Container.modify_absent c s m hp⟩
  | some old =>
    right
    by_cases hid :
        OrderedIndex.hasKey (idKey (m old)) (OrderedIndex.remove (idKey old, s) c.byId) = true
    · exact Or.inl ⟨old, rfl, Or.inl hid, Container.modify_clash h m hp (Or.inl hid)⟩
    · have hid' : OrderedIndex.hasKey (idKey (m old))
          (OrderedIndex.remove (idKey old, s) c.byId) = false := by simpa using hid
      by_cases hem :
          HashedIndex.hasKey (emailKey (m old)) (c.byEmail.erase (emailKey old, s)) = true
      · exact Or.inl ⟨old, rfl, Or.inr hem, Container.modify_clash h m hp (Or.inr hem)⟩
      · have hem' : HashedIndex.hasKey (emailKey (m old))
            (c.byEmail.erase (emailKey old, s)) = false := by simpa using hem
        exact Or.inr ⟨old, rfl, hid', hem', Container.modify_fresh h m hp hid' hem'⟩

theorem of_modify {c c' : Container} (h : WF c) {s : Nat} {m : Person → Person}
    {res : ModifyOutcome} (hm : c.modify s m = some (c', res)) : WF c' := by
  rcases h.modify_cases s m with ⟨_, h1⟩ | ⟨old, hp, _, h1⟩ | ⟨old, hp, hid, hem, h1⟩
  · rw [h1] at hm
    cases hm
    exact h
  · rw [h1] at hm
    cases hm
    exact h.of_without hp
  · rw [h1] at hm
    cases hm
    exact h.of_withUpdate (m old) hp hid hem

theorem of_reachable {c : Container} (h : Reachable c) : WF c := by
  induction h with
  | empty => exact WF.of_empty
  | insert r _ hi ih => exact ih.of_insert hi
  | erase s _ he ih => exact ih.of_erase he
  | modify s m _ hm ih => exact ih.of_modify hm

/-! ### Records, slots and what the indices enumerate -/

theorem slot_unique_of_id {c : Container} (h : WF c) {s t : Nat} {p q : Person}
    (hp : c.arena.get s = some p) (hq : c.arena.get t = some q) (hid : p.id = q.id) :
    s = t := by
  have h1 : (p.id, s) ∈ c.byId := (h.id_agrees.1 _ _).2 ⟨p, hp, rfl⟩
  have h2 : (p.id, t) ∈ c.byId := (h.id_agrees.1 _ _).2 ⟨q, hq, hid.symm⟩
  have := List.inj_on_of_nodup_map h.id_unique h1 h2 rfl
  exact (Prod.mk.inj this).2

theorem slot_unique_of_email {c : Container} (h : WF c) {s t : Nat} {p q : Person}
    (hp : c.arena.get s = some p) (hq : c.arena.get t = some q) (hem : p.email = q.email) :
    s = t := by
  have h1 : (p.email, s) ∈ c.byEmail := (h.email_agrees.1 _ _).2 ⟨p, hp, rfl⟩
  have h2 : (p.email, t) ∈ c.byEmail := (h.email_agrees.1 _ _).2 ⟨q, hq, hem.symm⟩
  have := List.inj_on_of_nodup_map h.email_unique h1 h2 rfl
  exact (Prod.mk.inj this).2

theorem mem_enumerate {κ : Type} {c : Container} {f : Person → κ} {idx : List (κ × Nat)}
    (ha : Agrees f c.arena.get idx) (p : Person) : p ∈ c.enumerate idx ↔ c.holds p := by
  unfold Container.enumerate Container.holds
  rw [List.mem_filterMap]
  constructor
  · rintro ⟨e, _, he⟩
    exact ⟨e.2, he⟩
  · rintro ⟨s, hs⟩
    exact ⟨(f p, s), (ha.1 _ _).2 ⟨p, hs, rfl⟩, hs⟩

theorem mem_seqView {c : Container} (h : WF c) (p : Person) : p ∈ c.seqView ↔ c.holds p := by
  unfold Container.seqView Container.holds
  rw [List.mem_filterMap]
  constructor
  · rintro ⟨s, _, hs⟩
    exact ⟨s, hs⟩
  · rintro ⟨s, hs⟩
    exact ⟨s, (h.seq_live s).2 ⟨p, hs⟩, hs⟩

theorem findId_of_get {c : Container} (h : WF c) {s : Nat} {p : Person}
    (hp : c.arena.get s = some p) : c.findId p.id = some s := by
  have hmem : (p.id, s) ∈ c.byId := (h.id_agrees.1 _ _).2 ⟨p, hp, rfl⟩
  unfold Container.findId OrderedIndex.find
  cases hf : List.filter (fun e => decide (e.1 = p.id)) c.byId with
  | nil =>
    have : (p.id, s) ∈ List.filter (fun e => decide (e.1 = p.id)) c.byId :=
      List.mem_filter.2 ⟨hmem, by simp⟩
    rw [hf] at this
    cases this
  | cons e es =>
    have he : e ∈ List.filter (fun e => decide (e.1 = p.id)) c.byId := by
      rw [hf]
      exact List.mem_cons_self _ _
    obtain ⟨he1, he2⟩ := List.mem_filter.1 he
    have hk : e.1 = p.id := by simpa using he2
    have := List.inj_on_of_nodup_map h.id_unique he1 hmem hk
    simp [this]

theorem findById_of_get {c : Container} (h : WF c) {s : Nat} {p : Person}
    (hp : c.arena.get s = some p) : c.findById p.id = some p := by
  simp [Container.findById, h.findId_of_get hp, hp]

theorem findId_none {c : Container} (h : WF c) {k : Int}
    (hk : ∀ s p, c.arena.get s = some p → p.id ≠ k) : c.findId k = none := by
  unfold Container.findId OrderedIndex.find
  cases hf : List.filter (fun e => decide (e.1 = k)) c.byId with
  | nil => rfl
  | cons e es =>
    have he : e ∈ List.filter (fun e => decide (e.1 = k)) c.byId := by
      rw [hf]
      exact List.mem_cons_self _ _
    obtain ⟨he1, he2⟩ := List.mem_filter.1 he
    have hk' : e.1 = k := by simpa using he2
    obtain ⟨p, hp, hpk⟩ := h.id_agrees.slot_live he1
    exact absurd (hpk.trans hk') (hk e.2 p hp)

theorem findByEmail_of_get {c : Container} (h : WF c) {s : Nat} {p : Person}
    (hp : c.arena.get s = some p) : c.findByEmail p.email = some p := by
  have hmem : (p.email, s) ∈ c.byEmail := (h.email_agrees.1 _ _).2 ⟨p, hp, rfl⟩
  unfold Container.findByEmail HashedIndex.find
  cases hf : List.find? (fun e => decide (e.1 = p.email)) c.byEmail with
  | none =>
    have := List.find?_eq_none.1 hf (p.email, s) hmem
    simp at this
  | some e =>
    have he1 : e ∈ c.byEmail := List.mem_of_find?_eq_some hf
    have he2 := List.find?_some hf
    have hk : e.1 = p.email := by simpa using he2
    have := List.inj_on_of_nodup_map h.email_unique he1 hmem hk
    simp [this, hp]

end WF

/-! ## `generatePersons` -/

theorem generatePersons_eq_map (count : Nat) :
    generatePersons count = (List.range count).map generatePersonsBody := by
  unfold generatePersons
  induction count with
  | zero => rfl
  | succ n ih => rw [List.range_succ, List.foldl_append, ih, List.map_append]; rfl

theorem generatePersons_length (count : Nat) : (generatePersons count).length = count := by
  simp [generatePersons_eq_map]

theorem generatePersons_getElem? {count i : Nat} (h : i < count) :
    (generatePersons count)[i]? = some (generatePersonsBody i) := by
  simp [generatePersons_eq_map, List.getElem?_range h]

theorem names_lookup (k : Nat) (h : k < 10) : names[k]? = some (names.getD k "") := by
  interval_cases k <;> rfl

theorem cities_lookup (k : Nat) (h : k < 10) : cities[k]? = some (cities.getD k "") := by
  interval_cases k <;> rfl

/-! ### Decimal rendering is injective -/

theorem digitChar_value (k : Nat) (h : k < 10) : (Nat.digitChar k).toNat - 48 = k := by
  interval_cases k <;> rfl

theorem digitChar_isDigit (k : Nat) (h : k < 10) : (Nat.digitChar k).isDigit = true := by
  interval_cases k <;> rfl

theorem decimalValue_append (xs : List Char) (ch : Char) :
    decimalValue (xs ++ [ch]) = decimalValue xs * 10 + (ch.toNat - 48) := by
  simp [decimalValue, List.foldl_append]

theorem toDigitsCore_spec : ∀ (fuel n : Nat) (ds : List Char), n < fuel →
    ∃ pre, Nat.toDigitsCore 10 fuel n ds = pre ++ ds ∧ decimalValue pre = n ∧
      ∀ ch ∈ pre, ch.isDigit = true := by
  intro fuel
  induction fuel with
  | zero => intro n ds h; omega
  | succ fuel ih =>
    intro n ds h
    have hmod : n % 10 < 10 := Nat.mod_lt _ (by decide)
    unfold Nat.toDigitsCore
    by_cases h0 : n / 10 = 0
    · refine ⟨[Nat.digitChar (n % 10)], by simp [h0], ?_, ?_⟩
      · have hn : n % 10 = n := by omega
        have hv := digitChar_value _ hmod
        simp only [decimalValue, List.foldl_cons, List.foldl_nil, Nat.zero_mul, Nat.zero_add]
        rw [hv, hn]
      · intro ch hch
        rw [List.mem_singleton] at hch
        rw [hch]
        exact digitChar_isDigit _ hmod
    · obtain ⟨pre, hpre, hval, hdig⟩ := ih (n / 10) (Nat.digitChar (n % 10) :: ds) (by omega)
      refine ⟨pre ++ [Nat.digitChar (n % 10)], by simp [h0, hpre], ?_, ?_⟩
      · rw [decimalValue_append, hval, digitChar_value _ hmod]
        omega
      · intro ch hch
        rcases List.mem_append.1 hch with hch | hch
        · exact hdig ch hch
        · rw [List.mem_singleton] at hch
          rw [hch]
          exact digitChar_isDigit _ hmod

theorem repr_spec (n : Nat) :
    decimalValue (toString n).data = n ∧ ∀ ch ∈ (toString n).data, ch.isDigit = true := by
  obtain ⟨pre, hpre, hval, hdig⟩ := toDigitsCore_spec (n + 1) n [] (by omega)
  have hd : (toString n).data = pre := by
    show (Nat.repr n).data = pre
    simp [Nat.repr, Nat.toDigits, hpre, List.asString]
  rw [hd]
  exact ⟨hval, hdig⟩

theorem name_no_digit (k : Nat) : (names.getD k "").data.filter Char.isDigit = [] := by
  by_cases h : k < 10
  · interval_cases k <;> rfl
  · have : names.getD k "" = "" := by
      rw [List.getD_eq_default]
      simp [names]
      omega
    rw [this]
    rfl

theorem email_digits (i : Nat) :
    decimalValue ((generatePersonsBody i).email.data.filter Char.isDigit) = i := by
  have h1 := (repr_spec i).1
  have h2 : (toString i).data.filter Char.isDigit = (toString i).data :=
    List.filter_eq_self.2 (repr_spec i).2
  have h3 : ("@example.com" : String).data.filter Char.isDigit = [] := by rfl
  simp only [generatePersonsBody, String.data_append, List.filter_append, name_no_digit, h2, h3,
    List.nil_append, List.append_nil]
  exact h1

theorem generatePersonsBody_email_injective {i j : Nat}
    (h : (generatePersonsBody i).email = (generatePersonsBody j).email) : i = j := by
  rw [← email_digits i, ← email_digits j, h]

theorem generatePersonsBody_id (i : Nat) : (generatePersonsBody i).id = (i : Int) := rfl

/-! ## What the indices enumerate after each operation -/

namespace WF

theorem enumerate_erase_core {κ : Type} {_ : BEq (κ × Nat)} (hl : LawfulBEq (κ × Nat))
    {c : Container} (h : WF c) {f : Person → κ} {idx : List (κ × Nat)}
    (ha : Agrees f c.arena.get idx) {s : Nat} {p : Person} (hp : c.arena.get s = some p) :
    (idx.erase (f p, s)).filterMap (fun e => (Arena.mk (c.arena.cells.set s none)).get e.2)
      = (idx.filterMap (fun e => c.arena.get e.2)).filter (fun q => decide (q ≠ p)) := by
  rw [ha.entries_nodup.erase_eq_filter, List.filterMap_filter, List.filter_filterMap]
  apply List.filterMap_congr
  intro e he
  obtain ⟨q, hq, hk⟩ := ha.slot_live he
  by_cases hes : e.2 = s
  · have hqp : q = p := by
      rw [hes, hp] at hq
      exact (Option.some.inj hq).symm
    have hee : e = (f p, s) := by
      rw [← hqp, hk, ← hes]
    rw [hee]
    simp [hp, Option.filter]
  · have hne : e ≠ (f p, s) := fun h => hes (by rw [h])
    have hqp : q ≠ p := fun hqp => hes (h.slot_unique_of_id hq hp (by rw [hqp]))
    simp [hne, Arena.get_cleared_ne _ _ _ hes, hq, hqp, Option.filter]

theorem enumerate_remove {κ : Type} [LinearOrder κ] {c : Container} (h : WF c)
    {f : Person → κ} {idx : List (κ × Nat)} (ha : Agrees f c.arena.get idx) {s : Nat}
    {p : Person} (hp : c.arena.get s = some p) :
    (c.without s p).enumerate (OrderedIndex.remove (f p, s) idx)
      = (c.enumerate idx).filter (fun q => decide (q ≠ p)) :=
  h.enumerate_erase_core inferInstance ha hp

theorem idView_without {c : Container} (h : WF c) {s : Nat} {p : Person}
    (hp : c.arena.get s = some p) :
    (c.without s p).idView = c.idView.filter (fun q => decide (q ≠ p)) :=
  h.enumerate_remove h.id_agrees hp

theorem emailView_without {c : Container} (h : WF c) {s : Nat} {p : Person}
    (hp : c.arena.get s = some p) :
    (c.without s p).emailView = c.emailView.filter (fun q => decide (q ≠ p)) :=
  h.enumerate_erase_core inferInstance h.email_agrees hp

theorem nameView_without {c : Container} (h : WF c) {s : Nat} {p : Person}
    (hp : c.arena.get s = some p) :
    (c.without s p).nameView = c.nameView.filter (fun q => decide (q ≠ p)) :=
  h.enumerate_remove h.name_agrees hp

theorem ageView_without {c : Container} (h : WF c) {s : Nat} {p : Person}
    (hp : c.arena.get s = some p) :
    (c.without s p).ageView = c.ageView.filter (fun q => decide (q ≠ p)) :=
  h.enumerate_remove h.age_agrees hp

theorem cityView_without {c : Container} (h : WF c) {s : Nat} {p : Person}
    (hp : c.arena.get s = some p) :
    (c.without s p).cityView = c.cityView.filter (fun q => decide (q ≠ p)) :=
  h.enumerate_remove h.city_agrees hp

theorem seqView_without {c : Container} (h : WF c) {s : Nat} {p : Person}
    (hp : c.arena.get s = some p) :
    (c.without s p).seqView = c.seqView.filter (fun q => decide (q ≠ p)) := by
  show (c.seq.erase s).filterMap (Arena.mk (c.arena.cells.set s none)).get
    = (c.seq.filterMap c.arena.get).filter (fun q => decide (q ≠ p))
  rw [h.seq_nodup.erase_eq_filter, List.filterMap_filter, List.filter_filterMap]
  apply List.filterMap_congr
  intro t ht
  obtain ⟨q, hq⟩ := (h.seq_live t).1 ht
  by_cases hts : t = s
  · subst hts
    simp [hp, Option.filter]
  · have hqp : q ≠ p := fun hqp => hts (h.slot_unique_of_id hq hp (by rw [hqp]))
    simp [hts, Arena.get_cleared_ne _ _ _ hts, hq, hqp, Option.filter]

theorem seqView_withRecord {c : Container} (h : WF c) (r : Person) :
    (c.withRecord r).seqView = c.seqView ++ [r] := by
  show (c.seq ++ [c.arena.nextSlot]).filterMap (c.arena.allocate r).1.get
    = c.seq.filterMap c.arena.get ++ [r]
  rw [List.filterMap_append]
  congr 1
  · apply List.filterMap_congr
    intro t ht
    apply Arena.get_allocate_ne
    rintro rfl
    obtain ⟨q, hq⟩ := (h.seq_live _).1 ht
    rw [Arena.get_nextSlot] at hq
    cases hq
  · simp [Arena.get_allocate_self]

theorem holds_withRecord (c : Container) (r q : Person) :
    (c.withRecord r).holds q ↔ q = r ∨ c.holds q := by
  unfold Container.holds
  show (∃ s, (c.arena.allocate r).1.get s = some q) ↔ _
  constructor
  · rintro ⟨s, hs⟩
    by_cases hsn : s = c.arena.nextSlot
    · subst hsn
      rw [Arena.get_allocate_self] at hs
      exact Or.inl (Option.some.inj hs).symm
    · rw [Arena.get_allocate_ne _ _ _ hsn] at hs
      exact Or.inr ⟨s, hs⟩
  · rintro (rfl | ⟨s, hs⟩)
    · exact ⟨c.arena.nextSlot, Arena.get_allocate_self _ _⟩
    · have hsn : s ≠ c.arena.nextSlot := by
        rintro rfl
        rw [Arena.get_nextSlot] at hs
        cases hs
      exact ⟨s, by rw [Arena.get_allocate_ne _ _ _ hsn]; exact hs⟩

theorem get_withUpdate {c : Container} {s : Nat} {old : Person} (new : Person)
    (hp : c.arena.get s = some old) (t : Nat) :
    (c.withUpdate s old new).arena.get t = if t = s then some new else c.arena.get t := by
  show (c.arena.set s new).get t = _
  by_cases hts : t = s
  · subst hts
    simp [Arena.get_set_self hp]
  · simp [hts, Arena.get_set_ne _ _ _ _ hts]

theorem get_without (c : Container) (s : Nat) (p : Person) (t : Nat) :
    (c.without s p).arena.get t = if t = s then none else c.arena.get t := by
  show (Arena.mk (c.arena.cells.set s none)).get t = _
  by_cases hts : t = s
  · subst hts
    simp [Arena.get_cleared_self]
  · simp [hts, Arena.get_cleared_ne _ _ _ hts]

end WF

/-! ## Sample containers are reachable -/

theorem containerA_insert :
    Container.empty.insert recordA = some (containerA, .ok 0) := by rfl

theorem containerAB_insert : containerA.insert recordB = some (containerAB, .ok 1) := by rfl

theorem containerA_reachable : Reachable containerA :=
  Reachable.insert recordA Reachable.empty containerA_insert

theorem containerAB_reachable : Reachable containerAB :=
  Reachable.insert recordB containerA_reachable containerAB_insert

namespace WF

theorem referenced_of_free {c : Container} (h : WF c) {s : Nat} (hs : c.arena.get s = none) :
    c.referenced s = false := by
  have hseq : s ∉ c.seq := by
    intro hmem
    obtain ⟨p, hp⟩ := (h.seq_live s).1 hmem
    rw [hs] at hp
    cases hp
  simp only [Container.referenced, Bool.or_eq_false_iff, List.any_eq_false,
    decide_eq_true_eq, decide_eq_false_iff_not]
  exact ⟨⟨⟨⟨⟨h.id_agrees.no_entry hs, h.email_agrees.no_entry hs⟩, h.name_agrees.no_entry hs⟩,
    h.age_agrees.no_entry hs⟩, h.city_agrees.no_entry hs⟩, hseq⟩

theorem inEveryIndex_iff {c : Container} (h : WF c) (p : Person) :
    c.inEveryIndex p ↔ c.holds p := by
  unfold Container.inEveryIndex Container.idView Container.emailView Container.nameView
    Container.ageView Container.cityView
  rw [mem_enumerate h.id_agrees, mem_enumerate h.email_agrees,
    mem_enumerate h.name_agrees, mem_enumerate h.age_agrees,
    mem_enumerate h.city_agrees, h.mem_seqView]
  tauto

theorem inNoIndex_iff {c : Container} (h : WF c) (p : Person) :
    c.inNoIndex p ↔ ¬ c.holds p := by
  unfold Container.inNoIndex Container.idView Container.emailView Container.nameView
    Container.ageView Container.cityView
  rw [mem_enumerate h.id_agrees, mem_enumerate h.email_agrees,
    mem_enumerate h.name_agrees, mem_enumerate h.age_agrees,
    mem_enumerate h.city_agrees, h.mem_seqView]
  tauto

theorem enumeratesAllBut_without {c : Container} (h : WF c) {s : Nat} {p : Person}
    (hp : c.arena.get s = some p) : (c.without s p).enumeratesAllBut c p :=
  ⟨h.idView_without hp, h.emailView_without hp, h.nameView_without hp, h.ageView_without hp,
    h.cityView_without hp, h.seqView_without hp⟩

theorem not_holds_without {c : Container} (h : WF c) {s : Nat} {p : Person}
    (hp : c.arena.get s = some p) : ¬ (c.without s p).holds p := by
  rintro ⟨t, ht⟩
  rw [get_without] at ht
  by_cases hts : t = s
  · simp [hts] at ht
  · simp only [hts, if_false] at ht
    exact hts (h.slot_unique_of_id ht hp rfl)

end WF

/-! ## The claims -/

/-- C1 (modify erasure semantics).  In a reachable container where slot `sA`
holds a record `A` with id 1 and slot `sB` a record `B` with id 2 (their emails
then differ, the email index being unique), `modify` on `A` with the mutator that
sets the id to 2 returns with the outcome `Erased DuplicateKey`.  Afterwards no
index has an entry of the slot of `A`, the slot is free, `A` is enumerated by
none of the six indices, `B` is still held by its slot and enumerated by all six,
and every index enumerates what it did before, in the same order, minus `A`. -/
theorem modify_duplicate_id_erases (c : Container) (hc : Reachable c) (sA sB : Nat)
    (A B : Person) (hA : c.arena.get sA = some A) (hB : c.arena.get sB = some B)
    (hAid : A.id = 1) (hBid : B.id = 2) :
    ∃ c', c.modify sA (fun p => { p with id := 2 }) = some (c', .Erased .DuplicateKey) ∧
      c'.referenced sA = false ∧ c'.arena.get sA = none ∧ c'.inNoIndex A ∧
      c'.arena.get sB = some B ∧ c'.inEveryIndex B ∧ c'.enumeratesAllBut c A := by
  have h := WF.of_reachable hc
  have hne : sB ≠ sA := by
    rintro rfl
    rw [hA] at hB
    cases hB
    rw [hAid] at hBid
    cases hBid
  have hdup : OrderedIndex.hasKey (idKey ((fun p : Person => { p with id := 2 }) A))
      (OrderedIndex.remove (idKey A, sA) c.byId) = true :=
    (h.hasKey_id_without hA _).2 ⟨sB, B, hne, hB, hBid⟩
  have hw := h.of_without hA
  have hgA : (c.without sA A).arena.get sA = none := by simp [WF.get_without]
  have hgB : (c.without sA A).arena.get sB = some B := by simp [WF.get_without, hne, hB]
  exact ⟨c.without sA A, Container.modify_clash h _ hA (Or.inl hdup),
    hw.referenced_of_free hgA, hgA, (hw.inNoIndex_iff A).2 (h.not_holds_without hA), hgB,
    (hw.inEveryIndex_iff B).2 ⟨sB, hgB⟩, h.enumeratesAllBut_without hA⟩

/-- Witness of C1 on the container holding `recordA` (id 1, slot 0) and
`recordB` (id 2, slot 1). -/
theorem modify_duplicate_id_erases_witness :
    ∃ c', containerAB.modify 0 (fun p => { p with id := 2 }) =
        some (c', .Erased .DuplicateKey) ∧
      c'.referenced 0 = false ∧ c'.arena.get 0 = none ∧ c'.inNoIndex recordA ∧
      c'.arena.get 1 = some recordB ∧ c'.inEveryIndex recordB ∧
      c'.enumeratesAllBut containerAB recordA :=
  modify_duplicate_id_erases containerAB containerAB_reachable 0 1 recordA recordB rfl rfl
    rfl rfl

theorem hasKey_id_false_iff {c : Container} (h : WF c) (k : Int) :
    OrderedIndex.hasKey k c.byId = false ↔ ∀ p, c.holds p → p.id ≠ k := by
  rw [← Bool.not_eq_true, h.hasKey_id]
  constructor
  · rintro hn p ⟨s, hs⟩ hk
    exact hn ⟨s, p, hs, hk⟩
  · rintro hn ⟨s, p, hs, hk⟩
    exact hn p ⟨s, hs⟩ hk

theorem hasKey_email_false_iff {c : Container} (h : WF c) (k : String) :
    HashedIndex.hasKey k c.byEmail = false ↔ ∀ p, c.holds p → p.email ≠ k := by
  rw [← Bool.not_eq_true, h.hasKey_email]
  constructor
  · rintro hn p ⟨s, hs⟩ hk
    exact hn ⟨s, p, hs, hk⟩
  · rintro hn ⟨s, p, hs, hk⟩
    exact hn p ⟨s, hs⟩ hk

/-- C3 (insert round-trip).  In every reachable container `insert(r)` returns;
it succeeds if and only if no record held has the id of `r` or the email of `r`;
and after a success the returned slot holds `r`, find by id and find by email
return exactly `r`, and `r` is enumerated by every index, the name, age, city
and sequence indices among them. -/
theorem insert_round_trip (c : Container) (hc : Reachable c) (r : Person) :
    (∃ c' res, c.insert r = some (c', res)) ∧
    ((∃ c' s, c.insert r = some (c', .ok s)) ↔
      ∀ p, c.holds p → p.id ≠ r.id ∧ p.email ≠ r.email) ∧
    ∀ c' s, c.insert r = some (c', .ok s) →
      c'.arena.get s = some r ∧ c'.findById r.id = some r ∧
      c'.findByEmail r.email = some r ∧ c'.inEveryIndex r := by
  have h := WF.of_reachable hc
  refine ⟨?_, ?_, ?_⟩
  · rcases WF.insert_cases (c := c) r with h1 | ⟨_, _, h1⟩
    · exact ⟨_, _, h1⟩
    · exact ⟨_, _, h1⟩
  · constructor
    · rintro ⟨c', s, hi⟩ p hp
      rcases WF.insert_cases (c := c) r with h1 | ⟨hid, hem, _⟩
      · rw [h1] at hi
        cases hi
      · exact ⟨(hasKey_id_false_iff h _).1 hid p hp, (hasKey_email_false_iff h _).1 hem p hp⟩
    · intro hfree
      exact ⟨_, _, Container.insert_fresh c r
        ((hasKey_id_false_iff h _).2 fun p hp => (hfree p hp).1)
        ((hasKey_email_false_iff h _).2 fun p hp => (hfree p hp).2)⟩
  · intro c' s hi
    rcases WF.insert_cases (c := c) r with h1 | ⟨hid, hem, h1⟩
    · rw [h1] at hi
      cases hi
    · rw [h1] at hi
      cases hi
      have hw := h.of_withRecord r hid hem
      have hg : (c.withRecord r).arena.get c.arena.nextSlot = some r :=
        Arena.get_allocate_self c.arena r
      exact ⟨hg, hw.findById_of_get hg, hw.findByEmail_of_get hg,
        (hw.inEveryIndex_iff r).2 ⟨_, hg⟩⟩

/-- Witness of C3: `recordB` inserted into the container holding `recordA`. -/
theorem insert_round_trip_witness :
    (∃ c' res, containerA.insert recordB = some (c', res)) ∧
    ((∃ c' s, containerA.insert recordB = some (c', .ok s)) ↔
      ∀ p, containerA.holds p → p.id ≠ recordB.id ∧ p.email ≠ recordB.email) ∧
    ∀ c' s, containerA.insert recordB = some (c', .ok s) →
      c'.arena.get s = some recordB ∧ c'.findById recordB.id = some recordB ∧
      c'.findByEmail recordB.email = some recordB ∧ c'.inEveryIndex recordB :=
  insert_round_trip containerA containerA_reachable recordB

/-- C4 (duplicate rejection is total).  In every reachable container, when a
record held has the id of `r` or the email of `r`, `insert(r)` returns
`DuplicateKey` and the container it leaves is the container it was given: the
arena and all six indices are unchanged, entry for entry, also when only the
email collides and the id entry had already been inserted and is undone. -/
theorem insert_duplicate_unchanged (c : Container) (hc : Reachable c) (r : Person)
    (hdup : ∃ p, c.holds p ∧ (p.id = r.id ∨ p.email = r.email)) :
    c.insert r = some (c, .error .DuplicateKey) := by
  have h := WF.of_reachable hc
  rcases WF.insert_cases (c := c) r with h1 | ⟨hid, hem, _⟩
  · exact h1
  · obtain ⟨p, hp, hk | hk⟩ := hdup
    · exact absurd hk ((hasKey_id_false_iff h _).1 hid p hp)
    · exact absurd hk ((hasKey_email_false_iff h _).1 hem p hp)

/-- Witness of C4: `recordC` has a fresh id and the email of `recordA`. -/
theorem insert_duplicate_unchanged_witness :
    containerAB.insert recordC = some (containerAB, .error .DuplicateKey) :=
  insert_duplicate_unchanged containerAB containerAB_reachable recordC
    ⟨recordA, ⟨0, rfl⟩, Or.inr rfl⟩

/-- C6 (invariant preservation).  In every container reachable from the empty
one by `insert`, `erase` and `modify` calls, two slots holding records of equal
id are one slot, two slots holding records of equal email are one slot, and the
sequence index lists exactly the live slots, each once; so it enumerates
exactly the records held, each once. -/
theorem reachable_invariants (c : Container) (hc : Reachable c) :
    (∀ s t p q, c.arena.get s = some p → c.arena.get t = some q → p.id = q.id → s = t) ∧
    (∀ s t p q, c.arena.get s = some p → c.arena.get t = some q → p.email = q.email →
      s = t) ∧
    c.seq.Nodup ∧ (∀ s, s ∈ c.seq ↔ ∃ p, c.arena.get s = some p) ∧
    c.seqView.Nodup ∧ (∀ p, p ∈ c.seqView ↔ c.holds p) := by
  have h := WF.of_reachable hc
  refine ⟨fun s t p q hp hq hid => h.slot_unique_of_id hp hq hid,
    fun s t p q hp hq hem => h.slot_unique_of_email hp hq hem, h.seq_nodup, h.seq_live, ?_,
    h.mem_seqView⟩
  unfold Container.seqView
  apply List.Nodup.filterMap _ h.seq_nodup
  intro s t p hp hq
  exact h.slot_unique_of_id (Option.mem_def.1 hp) (Option.mem_def.1 hq) rfl

/-- Witness of C6 on the container holding `recordA` and `recordB`. -/
theorem reachable_invariants_witness :
    (∀ s t p q, containerAB.arena.get s = some p → containerAB.arena.get t = some q →
      p.id = q.id → s = t) ∧
    (∀ s t p q, containerAB.arena.get s = some p → containerAB.arena.get t = some q →
      p.email = q.email → s = t) ∧
    containerAB.seq.Nodup ∧ (∀ s, s ∈ containerAB.seq ↔ ∃ p, containerAB.arena.get s = some p) ∧
    containerAB.seqView.Nodup ∧ (∀ p, p ∈ containerAB.seqView ↔ containerAB.holds p) :=
  reachable_invariants containerAB containerAB_reachable

namespace WF

theorem mem_find {κ : Type} [LinearOrder κ] {c : Container} {f : Person → κ}
    {idx : List (κ × Nat)} (ha : Agrees f c.arena.get idx) (k : κ) (q : Person) :
    q ∈ (OrderedIndex.find k idx).filterMap c.arena.get ↔ c.holds q ∧ f q = k := by
  unfold OrderedIndex.find Container.holds
  simp only [List.mem_filterMap, List.mem_map, List.mem_filter, decide_eq_true_eq]
  constructor
  · rintro ⟨s, ⟨e, ⟨he, hk⟩, rfl⟩, hq⟩
    obtain ⟨p, hp, hpk⟩ := ha.slot_live he
    rw [hq] at hp
    cases hp
    exact ⟨⟨e.2, hq⟩, hpk.trans hk⟩
  · rintro ⟨⟨s, hs⟩, hk⟩
    exact ⟨s, ⟨(k, s), ⟨(ha.1 k s).2 ⟨q, hs, hk⟩, rfl⟩, rfl⟩, hs⟩

theorem mem_findByCity {c : Container} (h : WF c) (k : String) (q : Person) :
    q ∈ c.findByCity k ↔ c.holds q ∧ q.city = k := by
  unfold Container.findByCity
  rw [mem_find h.city_agrees, cityKey, String.ext_iff]

theorem mem_findByName {c : Container} (h : WF c) (k : String) (q : Person) :
    q ∈ c.findByName k ↔ c.holds q ∧ q.name = k := by
  unfold Container.findByName
  rw [mem_find h.name_agrees, nameKey, String.ext_iff]

theorem keys_kept_free {c : Container} (h : WF c) {s : Nat} {A : Person}
    (m : Person → Person) (hA : c.arena.get s = some A) (hid : (m A).id = A.id)
    (hem : (m A).email = A.email) :
    OrderedIndex.hasKey (idKey (m A)) (OrderedIndex.remove (idKey A, s) c.byId) = false ∧
    HashedIndex.hasKey (emailKey (m A)) (c.byEmail.erase (emailKey A, s)) = false := by
  constructor
  · rw [← Bool.not_eq_true, h.hasKey_id_without hA]
    rintro ⟨t, q, hts, hq, hk⟩
    exact hts (h.slot_unique_of_id hq hA (hk.trans hid))
  · rw [← Bool.not_eq_true, h.hasKey_email_without hA]
    rintro ⟨t, q, hts, hq, hk⟩
    exact hts (h.slot_unique_of_email hq hA (hk.trans hem))

theorem modify_keys_kept {c : Container} (h : WF c) {s : Nat} {A : Person}
    (m : Person → Person) (hA : c.arena.get s = some A) (hid : (m A).id = A.id)
    (hem : (m A).email = A.email) :
    c.modify s m = some (c.withUpdate s A (m A), .Updated) ∧ WF (c.withUpdate s A (m A)) := by
  obtain ⟨h1, h2⟩ := h.keys_kept_free m hA hid hem
  exact ⟨Container.modify_fresh h m hA h1 h2, h.of_withUpdate (m A) hA h1 h2⟩

theorem not_holds_old {c : Container} (h : WF c) {s : Nat} {A : Person} (new : Person)
    (hA : c.arena.get s = some A) (hne : new ≠ A) : ¬ (c.withUpdate s A new).holds A := by
  rintro ⟨t, ht⟩
  rw [get_withUpdate new hA] at ht
  by_cases hts : t = s
  · simp only [hts, if_true] at ht
    exact hne (Option.some.inj ht)
  · simp only [hts, if_false] at ht
    exact hts (h.slot_unique_of_id ht hA rfl)

theorem seqView_withUpdate {c : Container} (h : WF c) {s : Nat} {old : Person} (new : Person)
    (hp : c.arena.get s = some old) :
    (c.withUpdate s old new).seqView = c.seqView.map (fun q => if q = old then new else q) := by
  show c.seq.filterMap (c.withUpdate s old new).arena.get
    = (c.seq.filterMap c.arena.get).map (fun q => if q = old then new else q)
  rw [List.map_filterMap]
  apply List.filterMap_congr
  intro t ht
  obtain ⟨q, hq⟩ := (h.seq_live t).1 ht
  rw [get_withUpdate new hp]
  by_cases hts : t = s
  · subst hts
    simp [hp]
  · have hqo : q ≠ old := fun hqo => hts (h.slot_unique_of_id hq hp (by rw [hqo]))
    simp [hts, hq, hqo]

end WF

/-- C5 (successful modify updates all indices).  In every reachable container,
for a record `A` held by slot `s` and a mutator that leaves the id and the email
as they are (one that sets `city`, or `name` and `city` as the mutator of
`BM_MultiIndexModify` does), `modify` succeeds with `Updated`; afterwards the
slot holds the mutated record, find by the id of `A` returns it; when the city
changed, neither it nor the old `A` is among the records found by the old city
and it is among those found by the new city; and likewise for the name index
when the name changed. -/
theorem modify_updates_indices (c : Container) (hc : Reachable c) (s : Nat) (A : Person)
    (mutator : Person → Person) (hA : c.arena.get s = some A)
    (hid : (mutator A).id = A.id) (hem : (mutator A).email = A.email) :
    ∃ c', c.modify s mutator = some (c', .Updated) ∧
      c'.arena.get s = some (mutator A) ∧ c'.findById A.id = some (mutator A) ∧
      ((mutator A).city ≠ A.city →
        mutator A ∉ c'.findByCity A.city ∧ A ∉ c'.findByCity A.city ∧
        mutator A ∈ c'.findByCity (mutator A).city) ∧
      ((mutator A).name ≠ A.name →
        mutator A ∉ c'.findByName A.name ∧ A ∉ c'.findByName A.name ∧
        mutator A ∈ c'.findByName (mutator A).name) := by
  have h := WF.of_reachable hc
  obtain ⟨hm, hw⟩ := h.modify_keys_kept mutator hA hid hem
  have hg : (c.withUpdate s A (mutator A)).arena.get s = some (mutator A) := by
    simp [WF.get_withUpdate (mutator A) hA]
  have hf := hw.findById_of_get hg
  rw [hid] at hf
  refine ⟨_, hm, hg, hf, ?_, ?_⟩
  · intro hne
    have hneq : mutator A ≠ A := fun heq => hne (by rw [heq])
    refine ⟨?_, ?_, ?_⟩
    · rw [hw.mem_findByCity]
      exact fun hh => hne hh.2
    · rw [hw.mem_findByCity]
      exact fun hh => h.not_holds_old (mutator A) hA hneq hh.1
    · rw [hw.mem_findByCity]
      exact ⟨⟨s, hg⟩, rfl⟩
  · intro hne
    have hneq : mutator A ≠ A := fun heq => hne (by rw [heq])
    refine ⟨?_, ?_, ?_⟩
    · rw [hw.mem_findByName]
      exact fun hh => hne hh.2
    · rw [hw.mem_findByName]
      exact fun hh => h.not_holds_old (mutator A) hA hneq hh.1
    · rw [hw.mem_findByName]
      exact ⟨⟨s, hg⟩, rfl⟩

/-- Witness of C5: `recordA` has id 1 and city "X"; the mutator sets the city
to "Y". -/
theorem modify_updates_indices_witness :
    ∃ c', containerAB.modify 0 (fun p => { p with city := "Y" }) = some (c', .Updated) ∧
      c'.arena.get 0 = some { recordA with city := "Y" } ∧
      c'.findById 1 = some { recordA with city := "Y" } ∧
      { recordA with city := "Y" } ∉ c'.findByCity "X" ∧ recordA ∉ c'.findByCity "X" ∧
      { recordA with city := "Y" } ∈ c'.findByCity "Y" := by
  obtain ⟨c', h1, h2, h3, h4, _⟩ :=
    modify_updates_indices containerAB containerAB_reachable 0 recordA
      (fun p => { p with city := "Y" }) rfl rfl rfl
  exact ⟨c', h1, h2, h3, h4 (by decide)⟩

theorem insert_ok_eq {c c' : Container} {r : Person} {s : Nat}
    (hi : c.insert r = some (c', .ok s)) : c' = c.withRecord r ∧ s = c.arena.nextSlot := by
  rcases WF.insert_cases (c := c) r with h1 | ⟨_, _, h1⟩
  · rw [h1] at hi
    cases hi
  · rw [h1] at hi
    cases hi
    exact ⟨rfl, rfl⟩

theorem modify_updated_eq {c c' : Container} (h : WF c) {s : Nat} {m : Person → Person}
    (hm : c.modify s m = some (c', .Updated)) :
    ∃ old, c.arena.get s = some old ∧ c' = c.withUpdate s old (m old) := by
  rcases h.modify_cases s m with ⟨_, h1⟩ | ⟨old, _, _, h1⟩ | ⟨old, hp, _, _, h1⟩
  · rw [h1] at hm
    cases hm
  · rw [h1] at hm
    cases hm
  · rw [h1] at hm
    cases hm
    exact ⟨old, hp, rfl⟩

theorem insert_new {c : Container} (h : WF c) (r : Person)
    (hfree : ∀ p, c.holds p → p.id ≠ r.id ∧ p.email ≠ r.email) :
    c.insert r = some (c.withRecord r, .ok c.arena.nextSlot) ∧ WF (c.withRecord r) := by
  have hid := (hasKey_id_false_iff h r.id).2 fun p hp => (hfree p hp).1
  have hem := (hasKey_email_false_iff h r.email).2 fun p hp => (hfree p hp).2
  exact ⟨Container.insert_fresh c r hid hem, h.of_withRecord r hid hem⟩

theorem not_holds_empty (p : Person) : ¬ Container.empty.holds p := by
  rintro ⟨s, hs⟩
  have := Arena.get_empty s
  rw [show Container.empty.arena = Arena.empty from rfl, this] at hs
  cases hs

/-- C7 (sequence order stability).  The sequence index enumerates in insertion
order: a successful `insert` appends the record to the enumeration, and a
successful `modify` leaves the sequence of slots as it was, the mutated record
standing where the old one stood.  Inserting `R1`,
`R2`, `R3` (pairwise distinct ids and emails) into the empty container gives the
order `[R1, R2, R3]`; erasing `R2` gives `[R1, R3]`; and a successful `modify` of
`R1` by a mutator that keeps id and email (one that changes name and city, as in
`BM_MultiIndexModify`) leaves the slots in place, the enumeration being
`[mutator R1, R3]`. -/
theorem sequence_order_stable :
    (∀ c, Reachable c → ∀ r c' s, c.insert r = some (c', .ok s) →
      c'.seq = c.seq ++ [s] ∧ c'.seqView = c.seqView ++ [r]) ∧
    (∀ c, Reachable c → ∀ s m c', c.modify s m = some (c', .Updated) →
      c'.seq = c.seq ∧ ∃ old, c.arena.get s = some old ∧
        c'.seqView = c.seqView.map (fun q => if q = old then m old else q)) ∧
    (∀ (R1 R2 R3 : Person) (mutator : Person → Person),
      R1.id ≠ R2.id → R1.id ≠ R3.id → R2.id ≠ R3.id →
      R1.email ≠ R2.email → R1.email ≠ R3.email → R2.email ≠ R3.email →
      (mutator R1).id = R1.id → (mutator R1).email = R1.email →
      ∃ c1 c2 c3 c4 c5 s1 s2 s3,
        Container.empty.insert R1 = some (c1, .ok s1) ∧
        c1.insert R2 = some (c2, .ok s2) ∧
        c2.insert R3 = some (c3, .ok s3) ∧
        c3.seqView = [R1, R2, R3] ∧
        c3.erase s2 = some (c4, .ok ()) ∧
        c4.seqView = [R1, R3] ∧
        c4.modify s1 mutator = some (c5, .Updated) ∧
        c5.seq = c4.seq ∧
        c5.seqView = [mutator R1, R3]) := by
  refine ⟨?_, ?_, ?_⟩
  · intro c hc r c' s hi
    obtain ⟨rfl, rfl⟩ := insert_ok_eq hi
    exact ⟨rfl, (WF.of_reachable hc).seqView_withRecord r⟩
  · intro c hc s m c' hm
    obtain ⟨old, hold, rfl⟩ := modify_updated_eq (WF.of_reachable hc) hm
    exact ⟨rfl, old, hold, (WF.of_reachable hc).seqView_withUpdate (m old) hold⟩
  · intro R1 R2 R3 m h12 h13 h23 e12 e13 e23 hid hem
    have hr12 : R1 ≠ R2 := fun h => h12 (by rw [h])
    have hr13 : R1 ≠ R3 := fun h => h13 (by rw [h])
    have hr32 : R3 ≠ R2 := fun h => h23 (by rw [h])
    have hr31 : R3 ≠ R1 := fun h => hr13 h.symm
    -- the three insertions
    obtain ⟨i1, w1⟩ := insert_new WF.of_empty R1 (fun p hp => absurd hp (not_holds_empty p))
    have hold1 : ∀ p, (Container.empty.withRecord R1).holds p → p = R1 := by
      intro p hp
      rcases (WF.holds_withRecord _ _ _).1 hp with hp | hp
      · exact hp
      · exact absurd hp (not_holds_empty p)
    obtain ⟨i2, w2⟩ := insert_new w1 R2 (fun p hp => by
      rw [hold1 p hp]
      exact ⟨h12, e12⟩)
    have hold2 : ∀ p, ((Container.empty.withRecord R1).withRecord R2).holds p →
        p = R1 ∨ p = R2 := by
      intro p hp
      rcases (WF.holds_withRecord _ _ _).1 hp with hp | hp
      · exact Or.inr hp
      · exact Or.inl (hold1 p hp)
    obtain ⟨i3, w3⟩ := insert_new w2 R3 (fun p hp => by
      rcases hold2 p hp with rfl | rfl
      · exact ⟨h13, e13⟩
      · exact ⟨h23, e23⟩)
    -- abbreviations for the states
    generalize hc1 : Container.empty.withRecord R1 = c1 at *
    generalize hc2 : c1.withRecord R2 = c2 at *
    generalize hc3 : c2.withRecord R3 = c3 at *
    have hv1 : c1.seqView = [R1] := by
      rw [← hc1, WF.of_empty.seqView_withRecord]
      rfl
    have hv2 : c2.seqView = [R1, R2] := by
      rw [← hc2, w1.seqView_withRecord, hv1]
      rfl
    have hv3 : c3.seqView = [R1, R2, R3] := by
      rw [← hc3, w2.seqView_withRecord, hv2]
      rfl
    -- where the records are
    have g1 : c1.arena.get Container.empty.arena.nextSlot = some R1 := by
      rw [← hc1]
      exact Arena.get_allocate_self _ _
    have g2 : c2.arena.get c1.arena.nextSlot = some R2 := by
      rw [← hc2]
      exact Arena.get_allocate_self _ _
    have n12 : Container.empty.arena.nextSlot ≠ c1.arena.nextSlot := by
      intro heq
      rw [heq, Arena.get_nextSlot] at g1
      cases g1
    have g21 : c2.arena.get Container.empty.arena.nextSlot = some R1 := by
      rw [← hc2]
      show (c1.arena.allocate R2).1.get _ = _
      rw [Arena.get_allocate_ne _ _ _ n12]
      exact g1
    have n23 : c1.arena.nextSlot ≠ c2.arena.nextSlot := by
      intro heq
      rw [heq, Arena.get_nextSlot] at g2
      cases g2
    have n13 : Container.empty.arena.nextSlot ≠ c2.arena.nextSlot := by
      intro heq
      rw [heq, Arena.get_nextSlot] at g21
      cases g21
    have g32 : c3.arena.get c1.arena.nextSlot = some R2 := by
      rw [← hc3]
      show (c2.arena.allocate R3).1.get _ = _
      rw [Arena.get_allocate_ne _ _ _ n23]
      exact g2
    have g31 : c3.arena.get Container.empty.arena.nextSlot = some R1 := by
      rw [← hc3]
      show (c2.arena.allocate R3).1.get _ = _
      rw [Arena.get_allocate_ne _ _ _ n13]
      exact g21
    -- erase R2
    have he := Container.erase_live w3 g32
    have w4 := w3.of_without g32
    have hv4 : (c3.without c1.arena.nextSlot R2).seqView = [R1, R3] := by
      rw [w3.seqView_without g32, hv3]
      simp [hr12, hr32]
    have g41 : (c3.without c1.arena.nextSlot R2).arena.get Container.empty.arena.nextSlot
        = some R1 := by
      rw [WF.get_without]
      simp [n12, g31]
    -- modify R1
    obtain ⟨hm, _⟩ := w4.modify_keys_kept m g41 hid hem
    have hv5 : ((c3.without c1.arena.nextSlot R2).withUpdate Container.empty.arena.nextSlot R1
        (m R1)).seqView = [m R1, R3] := by
      rw [w4.seqView_withUpdate (m R1) g41, hv4]
      simp [hr31]
    exact ⟨c1, c2, c3, _, _, _, _, _, i1, i2, i3, hv3, he, hv4, hm, rfl, hv5⟩

/-- Witness of C7 with `R1 = recordA`, `R2 = recordB`, `R3 = recordD` and the
mutator of `BM_MultiIndexModify` for the random values 5 and 7. -/
theorem sequence_order_stable_witness :
    ∃ c1 c2 c3 c4 c5 s1 s2 s3,
      Container.empty.insert recordA = some (c1, .ok s1) ∧
      c1.insert recordB = some (c2, .ok s2) ∧
      c2.insert recordD = some (c3, .ok s3) ∧
      c3.seqView = [recordA, recordB, recordD] ∧
      c3.erase s2 = some (c4, .ok ()) ∧
      c4.seqView = [recordA, recordD] ∧
      c4.modify s1 (benchMutator 5 7) = some (c5, .Updated) ∧
      c5.seq = c4.seq ∧
      c5.seqView = [benchMutator 5 7 recordA, recordD] :=
  sequence_order_stable.2.2 recordA recordB recordD (benchMutator 5 7)
    (by decide) (by decide) (by decide) (by decide) (by decide) (by decide) rfl rfl

/-! ## The benchmark loops -/

theorem insertAll_spec : ∀ (ps : List Person) (c : Container), WF c →
    (ps.map Person.id).Nodup → (ps.map Person.email).Nodup →
    (∀ p ∈ ps, ∀ q, c.holds q → q.id ≠ p.id ∧ q.email ≠ p.email) →
    ∃ c' rs, insertAll ps c = some (c', rs) ∧ WF c' ∧ (∀ r ∈ rs, ∃ s, r = .ok s) ∧
      rs.length = ps.length ∧ c'.seqView = c.seqView ++ ps := by
  intro ps
  induction ps with
  | nil =>
    intro c h _ _ _
    exact ⟨c, [], rfl, h, by simp, rfl, by simp⟩
  | cons p ps ih =>
    intro c h hid hem hfree
    rw [List.map_cons, List.nodup_cons] at hid hem
    obtain ⟨hi, hw⟩ := insert_new h p (hfree p (List.mem_cons_self _ _))
    have hfree' : ∀ p' ∈ ps, ∀ q, (c.withRecord p).holds q →
        q.id ≠ p'.id ∧ q.email ≠ p'.email := by
      intro p' hp' q hq
      rcases (WF.holds_withRecord _ _ _).1 hq with rfl | hq
      · constructor
        · intro heq
          exact hid.1 (heq ▸ List.mem_map_of_mem Person.id hp')
        · intro heq
          exact hem.1 (heq ▸ List.mem_map_of_mem Person.email hp')
      · exact hfree p' (List.mem_cons_of_mem _ hp') q hq
    obtain ⟨c', rs, hrec, hw', hok, hlen, hview⟩ := ih (c.withRecord p) hw hid.2 hem.2 hfree'
    refine ⟨c', .ok c.arena.nextSlot :: rs, ?_, hw', ?_, ?_, ?_⟩
    · simp [insertAll, hi, hrec]
    · intro r hr
      rcases List.mem_cons.1 hr with rfl | hr
      · exact ⟨_, rfl⟩
      · exact hok r hr
    · simp [hlen]
    · rw [hview, h.seqView_withRecord]
      simp

theorem length_filterMap_of_some {α β : Type} (f : α → Option β) :
    ∀ (l : List α), (∀ a ∈ l, ∃ b, f a = some b) → (l.filterMap f).length = l.length := by
  intro l
  induction l with
  | nil => intro _; rfl
  | cons a l ih =>
    intro h
    obtain ⟨b, hb⟩ := h a (List.mem_cons_self _ _)
    rw [List.filterMap_cons_some hb, List.length_cons, List.length_cons,
      ih (fun a' ha' => h a' (List.mem_cons_of_mem _ ha'))]

theorem seqView_length {c : Container} (h : WF c) : c.seqView.length = c.seq.length :=
  length_filterMap_of_some _ _ (fun s hs => (h.seq_live s).1 hs)

theorem generatePersons_ids (count : Nat) :
    (generatePersons count).map Person.id
      = List.map (fun (i : Nat) => (i : Int)) (List.range count) := by
  rw [generatePersons_eq_map, List.map_map]
  rfl

theorem generatePersons_ids_nodup (count : Nat) :
    ((generatePersons count).map Person.id).Nodup := by
  rw [generatePersons_ids]
  exact (List.nodup_range count).map (fun a b h => Int.ofNat.inj h)

theorem generatePersons_emails_nodup (count : Nat) :
    ((generatePersons count).map Person.email).Nodup := by
  rw [generatePersons_eq_map, List.map_map]
  exact (List.nodup_range count).map
    (fun a b h => generatePersonsBody_email_injective h)

theorem fill_spec (count : Nat) :
    ∃ c rs, insertAll (generatePersons count) Container.empty = some (c, rs) ∧ WF c ∧
      (∀ r ∈ rs, ∃ s, r = .ok s) ∧ rs.length = count ∧ c.seqView = generatePersons count := by
  obtain ⟨c, rs, h1, h2, h3, h4, h5⟩ := insertAll_spec (generatePersons count) Container.empty
    WF.of_empty (generatePersons_ids_nodup count) (generatePersons_emails_nodup count)
    (fun p _ q hq => absurd hq (not_holds_empty q))
  refine ⟨c, rs, h1, h2, h3, ?_, ?_⟩
  · rw [h4, generatePersons_length]
  · rw [h5]
    rfl

/-- C9 (`generatePersons`).  For every `count >= 0` the result has exactly
`count` elements, and for every `i < count` the `i`-th element has id `i`, name
`names[i mod 10]`, email the name followed by the decimal digits of `i` and
"@example.com", age `20 + (i mod 60)` and city `cities[i mod 10]`; its age
lies in 20..79 inclusive. -/
theorem generatePersons_elements (count : Nat) :
    (generatePersons count).length = count ∧
    ∀ i, i < count → ∃ name city, names[i % 10]? = some name ∧ cities[i % 10]? = some city ∧
      (generatePersons count)[i]? = some
        { id := (i : Int), name := name, email := name ++ toString i ++ "@example.com",
          age := 20 + ((i % 60 : Nat) : Int), city := city } ∧
      (20 : Int) ≤ 20 + ((i % 60 : Nat) : Int) ∧ 20 + ((i % 60 : Nat) : Int) ≤ 79 := by
  refine ⟨generatePersons_length count, ?_⟩
  intro i hi
  have hmod : i % 10 < 10 := Nat.mod_lt _ (by decide)
  have h60 : i % 60 < 60 := Nat.mod_lt _ (by decide)
  refine ⟨names.getD (i % 10) "", cities.getD (i % 10) "", names_lookup _ hmod,
    cities_lookup _ hmod, ?_, by omega, by omega⟩
  rw [generatePersons_getElem? hi]
  rfl

/-- Witness of C9 at `count = 25`, element 13. -/
theorem generatePersons_elements_witness :
    ∃ name city, names[13 % 10]? = some name ∧ cities[13 % 10]? = some city ∧
      (generatePersons 25)[13]? = some
        { id := ((13 : Nat) : Int), name := name,
          email := name ++ toString 13 ++ "@example.com",
          age := 20 + ((13 % 60 : Nat) : Int), city := city } ∧
      (20 : Int) ≤ 20 + ((13 % 60 : Nat) : Int) ∧ 20 + ((13 % 60 : Nat) : Int) ≤ 79 :=
  (generatePersons_elements 25).2 13 (by decide)

/-- C10 (the generated records insert without failure).  For every `count` the
records of `generatePersons(count)` have pairwise distinct ids and pairwise
distinct emails; the insert loop of `BM_MultiIndexInsert` on the empty container
returns, every `insert` succeeding, and the container ends with exactly `count`
records: the sequence index enumerates `generatePersons(count)` in order. -/
theorem generated_records_all_insert (count : Nat) :
    ((generatePersons count).map Person.id).Nodup ∧
    ((generatePersons count).map Person.email).Nodup ∧
    ∃ c rs, BM_MultiIndexInsert count = some (c, rs) ∧
      rs.length = count ∧ (∀ r ∈ rs, ∃ s, r = .ok s) ∧
      c.seqView = generatePersons count ∧ c.seqView.length = count ∧
      c.seq.length = count ∧ ∀ p, c.holds p ↔ p ∈ generatePersons count := by
  refine ⟨generatePersons_ids_nodup count, generatePersons_emails_nodup count, ?_⟩
  obtain ⟨c, rs, h1, hw, hok, hlen, hview⟩ := fill_spec count
  have hseq : c.seq.length = count := by
    rw [← seqView_length hw, hview, generatePersons_length]
  refine ⟨c, rs, h1, hlen, hok, hview, ?_, hseq, ?_⟩
  · rw [hview, generatePersons_length]
  · intro p
    rw [← hview, hw.mem_seqView]

theorem findId_some {c : Container} (h : WF c) {k : Int} {s : Nat}
    (hf : c.findId k = some s) : ∃ p, c.arena.get s = some p ∧ p.id = k := by
  unfold Container.findId OrderedIndex.find at hf
  have hmem := List.mem_of_mem_head? (Option.mem_def.2 hf)
  obtain ⟨e, he, rfl⟩ := List.mem_map.1 hmem
  obtain ⟨he1, he2⟩ := List.mem_filter.1 he
  obtain ⟨p, hp, hk⟩ := h.id_agrees.slot_live he1
  exact ⟨p, hp, hk.trans (by simpa using he2)⟩

theorem findId_of_mem_ids {c : Container} (h : WF c) {k : Int}
    (hk : k ∈ c.seqView.map Person.id) : ∃ s, c.findId k = some s := by
  obtain ⟨p, hp, rfl⟩ := List.mem_map.1 hk
  obtain ⟨s, hs⟩ := (h.mem_seqView p).1 hp
  exact ⟨s, h.findId_of_get hs⟩

theorem map_field_update {β : Type} (f : Person → β) (old new : Person) (hf : f new = f old)
    (l : List Person) : (l.map (fun q => if q = old then new else q)).map f = l.map f := by
  rw [List.map_map]
  apply List.map_congr_left
  intro q _
  show f (if q = old then new else q) = f q
  by_cases hq : q = old
  · rw [if_pos hq, hf, hq]
  · rw [if_neg hq]

theorem modifyLoop_spec (SIZE : Nat) (rand : Nat → Nat) (hSIZE : 1 ≤ SIZE) :
    ∀ (k n : Nat) (c : Container), WF c →
      c.seqView.map Person.id = (generatePersons SIZE).map Person.id →
      ∃ c' outs, modifyLoop SIZE rand k n c = some (c', outs) ∧ WF c' ∧
        (∀ o ∈ outs, o = ModifyOutcome.Updated) ∧ outs.length = k ∧
        c'.seqView.map Person.id = c.seqView.map Person.id ∧
        c'.seqView.map Person.email = c.seqView.map Person.email ∧
        c'.seqView.map Person.age = c.seqView.map Person.age := by
  intro k
  induction k with
  | zero =>
    intro n c h _
    exact ⟨c, [], rfl, h, by simp, rfl, rfl, rfl, rfl⟩
  | succ k ih =>
    intro n c h hids
    have hlt : rand n % SIZE < SIZE := Nat.mod_lt _ (by omega)
    have hin : ((rand n % SIZE : Nat) : Int) ∈ c.seqView.map Person.id := by
      rw [hids, generatePersons_ids]
      exact List.mem_map.2 ⟨_, List.mem_range.2 hlt, rfl⟩
    obtain ⟨s, hs⟩ := findId_of_mem_ids h hin
    obtain ⟨A, hA, _⟩ := findId_some h hs
    obtain ⟨hm, hw⟩ := h.modify_keys_kept (benchMutator (rand (n + 1)) (rand (n + 2))) hA
      rfl rfl
    have hv := h.seqView_withUpdate (benchMutator (rand (n + 1)) (rand (n + 2)) A) hA
    have hid' := map_field_update Person.id A
      (benchMutator (rand (n + 1)) (rand (n + 2)) A) rfl c.seqView
    have hem' := map_field_update Person.email A
      (benchMutator (rand (n + 1)) (rand (n + 2)) A) rfl c.seqView
    have hag' := map_field_update Person.age A
      (benchMutator (rand (n + 1)) (rand (n + 2)) A) rfl c.seqView
    rw [← hv] at hid' hem' hag'
    obtain ⟨c', outs, hrec, hw', hall, hlen, h1, h2, h3⟩ := ih (n + 3) _ hw (hid'.trans hids)
    refine ⟨c', .Updated :: outs, ?_, hw', ?_, ?_, h1.trans hid', h2.trans hem',
      h3.trans hag'⟩
    · simp only [modifyLoop, hs, hm, hrec]
      rfl
    · intro o ho
      rcases List.mem_cons.1 ho with rfl | ho
      · rfl
      · exact hall o ho
    · simp [hlen]

/-- C8 (the modify calls of the benchmark always succeed).  In one iteration of
`BM_MultiIndexModify`, for every `SIZE >= 1`, every `mod_count` and every
sequence of values of `rand()`, the run returns, it makes exactly `mod_count`
calls of `modify`, every one with the outcome `Updated` (none hits a duplicate
key, none erases), and afterwards the container holds exactly `SIZE` records, in
sequence order those with ids `0 .. SIZE-1` and the emails and ages that
`generatePersons(SIZE)` gave them. -/
theorem benchmark_modify_always_succeeds (SIZE mod_count : Nat) (rand : Nat → Nat)
    (hSIZE : 1 ≤ SIZE) :
    ∃ c outs, BM_MultiIndexModify SIZE mod_count rand = some (c, outs) ∧
      outs.length = mod_count ∧ (∀ o ∈ outs, o = ModifyOutcome.Updated) ∧
      c.seqView.length = SIZE ∧ (∀ p, c.holds p ↔ p ∈ c.seqView) ∧
      c.seqView.map Person.id = List.map (fun (i : Nat) => (i : Int)) (List.range SIZE) ∧
      c.seqView.map Person.email = (generatePersons SIZE).map Person.email ∧
      c.seqView.map Person.age = (generatePersons SIZE).map Person.age := by
  obtain ⟨c0, rs, hfill, hw0, _, _, hview0⟩ := fill_spec SIZE
  obtain ⟨c, outs, hloop, hw, hall, hlen, h1, h2, h3⟩ :=
    modifyLoop_spec SIZE rand hSIZE mod_count 0 c0 hw0 (by rw [hview0])
  rw [hview0] at h1 h2 h3
  refine ⟨c, outs, ?_, hlen, hall, ?_, fun p => (hw.mem_seqView p).symm, ?_, h2, h3⟩
  · simp only [BM_MultiIndexModify, hfill, hloop]
  · have := congrArg List.length h1
    simpa [generatePersons_length] using this
  · rw [h1, generatePersons_ids]

/-- Witness of C8 for `SIZE = 3`, `mod_count = 2` and `rand()` returning the
number of the call. -/
theorem benchmark_modify_always_succeeds_witness :
    ∃ c outs, BM_MultiIndexModify 3 2 (fun k => k) = some (c, outs) ∧
      outs.length = 2 ∧ (∀ o ∈ outs, o = ModifyOutcome.Updated) ∧
      c.seqView.length = 3 ∧ (∀ p, c.holds p ↔ p ∈ c.seqView) ∧
      c.seqView.map Person.id = List.map (fun (i : Nat) => (i : Int)) (List.range 3) ∧
      c.seqView.map Person.email = (generatePersons 3).map Person.email ∧
      c.seqView.map Person.age = (generatePersons 3).map Person.age :=
  benchmark_modify_always_succeeds 3 2 (fun k => k) (by decide)

/-! ## The range scan of `BM_MultiIndexRangeByAge` -/

theorem scanLoop_take {α : Type} (upper : Nat) :
    ∀ (rest : List α) (it : Nat), it ≤ upper → upper - it ≤ rest.length →
      scanLoop upper rest it = some (rest.take (upper - it)) := by
  intro rest
  induction rest with
  | nil =>
    intro it h1 h2
    have : it = upper := by simp at h2; omega
    simp [scanLoop, this]
  | cons e rest ih =>
    intro it h1 h2
    by_cases heq : it = upper
    · simp [scanLoop, heq]
    · have h3 : upper - it = (upper - (it + 1)) + 1 := by omega
      have h4 : upper - (it + 1) ≤ rest.length := by
        simp only [List.length_cons] at h2
        omega
      simp only [scanLoop, heq, if_false, ih (it + 1) (by omega) h4]
      rw [h3, List.take_succ_cons]
      rfl

namespace OrderedIndex

variable {κ : Type} [LinearOrder κ]

theorem upper_bound_le_length (hi : κ) (idx : List (κ × Nat)) :
    upper_bound hi idx ≤ idx.length := by
  induction idx with
  | nil => simp [upper_bound]
  | cons e es ih =>
    unfold upper_bound
    by_cases h : hi < e.1
    · simp [h]
    · simp only [h, if_false, List.length_cons]
      omega

theorem take_upper_bound (lo hi : κ) :
    ∀ (idx : List (κ × Nat)), idx.Pairwise (fun a b => a.1 ≤ b.1) → (∀ e ∈ idx, lo ≤ e.1) →
      idx.take (upper_bound hi idx) = idx.filter (fun e => decide (lo ≤ e.1 ∧ e.1 ≤ hi)) := by
  intro idx
  induction idx with
  | nil => intro _ _; rfl
  | cons x xs ih =>
    intro hs hlo
    rw [List.pairwise_cons] at hs
    unfold upper_bound
    by_cases h : hi < x.1
    · have hnone : ∀ e ∈ x :: xs, ¬ (decide (lo ≤ e.1 ∧ e.1 ≤ hi) = true) := by
        intro e he
        have hxe : x.1 ≤ e.1 := by
          rcases List.mem_cons.1 he with rfl | he
          · exact le_refl _
          · exact hs.1 e he
        simp only [decide_eq_true_eq, not_and, not_le]
        intro _
        exact lt_of_lt_of_le h hxe
      simp only [h, if_true, List.take_zero]
      exact (List.filter_eq_nil_iff.2 hnone).symm
    · have hx : decide (lo ≤ x.1 ∧ x.1 ≤ hi) = true :=
        decide_eq_true ⟨hlo x (List.mem_cons_self _ _), le_of_not_lt h⟩
      simp only [h, if_false, List.take_succ_cons]
      rw [List.filter_cons, if_pos hx, ih hs.2 (fun e he => hlo e (List.mem_cons_of_mem _ he))]

theorem bounds_spec (lo hi : κ) (hle : lo ≤ hi) :
    ∀ (idx : List (κ × Nat)), idx.Pairwise (fun a b => a.1 ≤ b.1) →
      lower_bound lo idx ≤ upper_bound hi idx ∧
      (idx.drop (lower_bound lo idx)).take (upper_bound hi idx - lower_bound lo idx)
        = idx.filter (fun e => decide (lo ≤ e.1 ∧ e.1 ≤ hi)) := by
  intro idx
  induction idx with
  | nil => intro _; exact ⟨le_refl _, rfl⟩
  | cons x xs ih =>
    intro hs
    by_cases h : x.1 < lo
    · have hs' := (List.pairwise_cons.1 hs).2
      have hxhi : ¬ hi < x.1 := not_lt.2 (le_of_lt (lt_of_lt_of_le h hle))
      have hx : ¬ (decide (lo ≤ x.1 ∧ x.1 ≤ hi) = true) := by
        simp only [decide_eq_true_eq, not_and]
        intro h1
        exact absurd h (not_lt.2 h1)
      obtain ⟨ih1, ih2⟩ := ih hs'
      simp only [lower_bound, upper_bound, h, hxhi, if_true, if_false, List.drop_succ_cons]
      refine ⟨by omega, ?_⟩
      rw [List.filter_cons, if_neg hx, ← ih2]
      congr 1
      omega
    · have hlo : ∀ e ∈ x :: xs, lo ≤ e.1 := by
        intro e he
        rcases List.mem_cons.1 he with rfl | he
        · exact le_of_not_lt h
        · exact le_trans (le_of_not_lt h) ((List.pairwise_cons.1 hs).1 e he)
      have h0 : lower_bound lo (x :: xs) = 0 := by simp [lower_bound, h]
      rw [h0]
      exact ⟨Nat.zero_le _, take_upper_bound lo hi (x :: xs) hs hlo⟩

end OrderedIndex

theorem rangeScan_eq {c : Container} (h : WF c) (low high : Int) (hle : low ≤ high) :
    rangeScan c low high
      = some (c.byAge.filter (fun e => decide (low ≤ e.1 ∧ e.1 ≤ high))) := by
  obtain ⟨h1, h2⟩ := OrderedIndex.bounds_spec low high hle c.byAge h.age_sorted
  have h3 := OrderedIndex.upper_bound_le_length high c.byAge
  unfold rangeScan
  simp only []
  rw [scanLoop_take _ _ _ h1 (by rw [List.length_drop]; omega), h2]

theorem enumerate_filter_age {c : Container} (h : WF c) (low high : Int) :
    c.enumerate (c.byAge.filter (fun e => decide (low ≤ e.1 ∧ e.1 ≤ high)))
      = c.ageView.filter (fun p => decide (low ≤ p.age ∧ p.age ≤ high)) := by
  unfold Container.ageView Container.enumerate
  rw [List.filterMap_filter, List.filter_filterMap]
  apply List.filterMap_congr
  intro e he
  obtain ⟨p, hp, hk⟩ := h.age_agrees.slot_live he
  have hk' : p.age = e.1 := hk
  rw [hp]
  by_cases hin : low ≤ e.1 ∧ e.1 ≤ high
  · have hin' : low ≤ p.age ∧ p.age ≤ high := by rw [hk']; exact hin
    simp [hin, hin', Option.filter]
  · have hin' : ¬ (low ≤ p.age ∧ p.age ≤ high) := by rw [hk']; exact hin
    simp only [decide_eq_true_eq, hin, if_false, Option.filter]
    simp only [decide_eq_true_eq, hin', if_false]

theorem ageView_sorted {c : Container} (h : WF c) :
    c.ageView.Pairwise (fun a b => a.age ≤ b.age) := by
  unfold Container.ageView Container.enumerate
  rw [List.pairwise_filterMap]
  apply h.age_sorted.imp_of_mem
  intro a b ha hb hab p hp q hq
  obtain ⟨p', hp', hk⟩ := h.age_agrees.slot_live ha
  obtain ⟨q', hq', hk'⟩ := h.age_agrees.slot_live hb
  rw [Option.mem_def.1 hp] at hp'
  rw [Option.mem_def.1 hq] at hq'
  cases hp'
  cases hq'
  have e1 : p.age = a.1 := hk
  have e2 : q.age = b.1 := hk'
  rw [e1, e2]
  exact hab

theorem ageView_nodup {c : Container} (h : WF c) : c.ageView.Nodup := by
  have : c.ageView = (c.byAge.map Prod.snd).filterMap c.arena.get := by
    unfold Container.ageView Container.enumerate
    rw [List.filterMap_map]
    rfl
  rw [this]
  apply List.Nodup.filterMap _ h.age_agrees.2
  intro s t p hp hq
  exact h.slot_unique_of_id (Option.mem_def.1 hp) (Option.mem_def.1 hq) rfl

theorem agesContainer_reachable : Reachable agesContainer := by
  have h1 : Container.empty.insert (aged 0 20)
      = some (Container.empty.withRecord (aged 0 20), .ok 0) := by rfl
  have h2 : (Container.empty.withRecord (aged 0 20)).insert (aged 1 25)
      = some ((Container.empty.withRecord (aged 0 20)).withRecord (aged 1 25), .ok 1) := by rfl
  have h3 : ((Container.empty.withRecord (aged 0 20)).withRecord (aged 1 25)).insert (aged 2 30)
      = some (((Container.empty.withRecord (aged 0 20)).withRecord (aged 1 25)).withRecord
          (aged 2 30), .ok 2) := by rfl
  have h4 : (((Container.empty.withRecord (aged 0 20)).withRecord (aged 1 25)).withRecord
        (aged 2 30)).insert (aged 3 35)
      = some ((((Container.empty.withRecord (aged 0 20)).withRecord (aged 1 25)).withRecord
          (aged 2 30)).withRecord (aged 3 35), .ok 3) := by rfl
  have h5 : ((((Container.empty.withRecord (aged 0 20)).withRecord (aged 1 25)).withRecord
        (aged 2 30)).withRecord (aged 3 35)).insert (aged 4 40)
      = some (agesContainer, .ok 4) := by rfl
  exact Reachable.insert _ (Reachable.insert _ (Reachable.insert _ (Reachable.insert _
    (Reachable.insert _ Reachable.empty h1) h2) h3) h4) h5

/-- C2, as the code has it (range query over the age index).  In every
reachable container and for all bounds `low <= high`, the scan of
`BM_MultiIndexRangeByAge` for the range `{min = low, max = high}` returns, and
the records it visits are exactly the records held with `low <= age <= high`
(both bounds inclusive), each once, in the order of the age index, which is
ascending in age. -/
theorem range_scan_inclusive (c : Container) (hc : Reachable c) (low high : Int)
    (hle : low ≤ high) :
    ∃ out, rangeScanRecords c low high = some out ∧
      out = c.ageView.filter (fun p => decide (low ≤ p.age ∧ p.age ≤ high)) ∧
      out.Pairwise (fun a b => a.age ≤ b.age) ∧ out.Nodup ∧
      ∀ p, p ∈ out ↔ c.holds p ∧ low ≤ p.age ∧ p.age ≤ high := by
  have h := WF.of_reachable hc
  refine ⟨_, ?_, rfl, (ageView_sorted h).filter _, (ageView_nodup h).filter _, ?_⟩
  · unfold rangeScanRecords
    rw [rangeScan_eq h low high hle, Option.map_some', enumerate_filter_age h]
  · intro p
    rw [List.mem_filter, decide_eq_true_eq]
    unfold Container.ageView
    rw [WF.mem_enumerate h.age_agrees]

/-- Witness of C2 as amended: the bounds (25, 35) on the records aged
20, 25, 30, 35, 40. -/
theorem range_scan_inclusive_witness :
    ∃ out, rangeScanRecords agesContainer 25 35 = some out ∧
      out = agesContainer.ageView.filter (fun p => decide (25 ≤ p.age ∧ p.age ≤ 35)) ∧
      out.Pairwise (fun a b => a.age ≤ b.age) ∧ out.Nodup ∧
      ∀ p, p ∈ out ↔ agesContainer.holds p ∧ 25 ≤ p.age ∧ p.age ≤ 35 :=
  range_scan_inclusive agesContainer agesContainer_reachable 25 35 (by decide)

/-- Counterexample to C2 as stated: on the reachable container holding records
aged 20, 25, 30, 35 and 40, the scan for the bounds (25, 35) visits the records
aged 25, 30 and 35: the record aged 35 is included, so the result is not the
records with `25 <= age < 35`. -/
theorem range_scan_upper_exclusive_counterexample :
    Reachable agesContainer ∧
    agesContainer.ageView.map Person.age = [20, 25, 30, 35, 40] ∧
    (rangeScanRecords agesContainer 25 35).map (List.map Person.age) = some [25, 30, 35] ∧
    rangeScanRecords agesContainer 25 35 ≠
      some (agesContainer.ageView.filter (fun p => decide (25 ≤ p.age ∧ p.age < 35))) := by
  refine ⟨agesContainer_reachable, by rfl, by rfl, ?_⟩
  decide

/-! ## The standard-container comparison -/

theorem mapFind_mapAssign {κ : Type} [DecidableEq κ] (k k' : κ) (v : Nat) :
    ∀ (m : List (κ × Nat)),
      mapFind k' (mapAssign k v m) = if k' = k then some v else mapFind k' m := by
  intro m
  induction m with
  | nil =>
    by_cases h : k' = k
    · simp [mapAssign, mapFind, h]
    · simp [mapAssign, mapFind, h, Ne.symm h]
  | cons x rest ih =>
    unfold mapAssign
    by_cases hx : x.1 = k
    · by_cases h : k' = k
      · simp [hx, mapFind, h]
      · have hx' : ¬ x.1 = k' := fun hh => h (hh ▸ hx)
        simp [hx, mapFind, h, Ne.symm h, hx']
    · simp only [hx, if_false, mapFind, ih]
      by_cases h : k' = k
      · have hx' : ¬ x.1 = k' := fun hh => hx (hh.trans h)
        simp [h, hx]
      · simp [h]

theorem mem_keys_mapAssign {κ : Type} [DecidableEq κ] (k k' : κ) (v : Nat) :
    ∀ (m : List (κ × Nat)),
      k' ∈ (mapAssign k v m).map Prod.fst ↔ k' = k ∨ k' ∈ m.map Prod.fst := by
  intro m
  induction m with
  | nil => simp [mapAssign]
  | cons x rest ih =>
    unfold mapAssign
    by_cases hx : x.1 = k
    · simp only [hx, if_true, List.map_cons, List.mem_cons]
      rw [← hx]
      tauto
    · simp only [hx, if_false, List.map_cons, List.mem_cons, ih]
      tauto

theorem length_mapAssign {κ : Type} [DecidableEq κ] (k : κ) (v : Nat) :
    ∀ (m : List (κ × Nat)), k ∉ m.map Prod.fst → (mapAssign k v m).length = m.length + 1 := by
  intro m
  induction m with
  | nil => intro _; rfl
  | cons x rest ih =>
    intro h
    have hx : ¬ x.1 = k := fun hh => h (by simp [hh])
    have hr : k ∉ rest.map Prod.fst := fun hh => h (by simp [hh])
    simp [mapAssign, hx, ih hr]

theorem length_multimapEmplace {κ : Type} [LinearOrder κ] (k : κ) (v : Nat) :
    ∀ (m : List (κ × Nat)), (multimapEmplace k v m).length = m.length + 1 := by
  intro m
  induction m with
  | nil => rfl
  | cons x rest ih =>
    unfold multimapEmplace
    by_cases h : k < x.1
    · simp [h]
    · simp [h, ih]

theorem length_emplaceFrom {κ : Type} [LinearOrder κ] (f : Person → κ) :
    ∀ (ps : List Person) (i : Nat) (m : List (κ × Nat)),
      (emplaceFrom f ps i m).length = m.length + ps.length := by
  intro ps
  induction ps with
  | nil => intro i m; rfl
  | cons p ps ih =>
    intro i m
    simp only [emplaceFrom, ih, length_multimapEmplace, List.length_cons]
    omega

theorem mapFind_assignFrom_other {κ : Type} [DecidableEq κ] (f : Person → κ) (k : κ) :
    ∀ (ps : List Person) (i : Nat) (m : List (κ × Nat)), k ∉ ps.map f →
      mapFind k (assignFrom f ps i m) = mapFind k m := by
  intro ps
  induction ps with
  | nil => intro i m _; rfl
  | cons p ps ih =>
    intro i m h
    have hp : ¬ k = f p := fun hh => h (by simp [hh])
    have hr : k ∉ ps.map f := fun hh => h (by simp [hh])
    simp only [assignFrom, ih _ _ hr, mapFind_mapAssign, hp, if_false]

theorem mapFind_assignFrom {κ : Type} [DecidableEq κ] (f : Person → κ) :
    ∀ (ps : List Person) (i : Nat) (m : List (κ × Nat)), (ps.map f).Nodup →
      ∀ (j : Nat) (p : Person), ps[j]? = some p →
        mapFind (f p) (assignFrom f ps i m) = some (i + j) := by
  intro ps
  induction ps with
  | nil => intro i m _ j p h; simp at h
  | cons q ps ih =>
    intro i m hnd j p hj
    rw [List.map_cons, List.nodup_cons] at hnd
    cases j with
    | zero =>
      simp only [List.getElem?_cons_zero, Option.some.injEq] at hj
      subst hj
      simp only [assignFrom, mapFind_assignFrom_other f _ ps _ _ hnd.1, mapFind_mapAssign,
        if_true, Nat.add_zero]
    | succ j =>
      simp only [List.getElem?_cons_succ] at hj
      simp only [assignFrom]
      rw [ih (i + 1) _ hnd.2 j p hj]
      congr 1
      omega

theorem mem_keys_assignFrom {κ : Type} [DecidableEq κ] (f : Person → κ) (k : κ) :
    ∀ (ps : List Person) (i : Nat) (m : List (κ × Nat)),
      k ∈ (assignFrom f ps i m).map Prod.fst ↔ k ∈ ps.map f ∨ k ∈ m.map Prod.fst := by
  intro ps
  induction ps with
  | nil => intro i m; simp [assignFrom]
  | cons p ps ih =>
    intro i m
    simp only [assignFrom, ih, mem_keys_mapAssign, List.map_cons, List.mem_cons]
    tauto

theorem length_assignFrom {κ : Type} [DecidableEq κ] (f : Person → κ) :
    ∀ (ps : List Person) (i : Nat) (m : List (κ × Nat)), (ps.map f).Nodup →
      (∀ p ∈ ps, f p ∉ m.map Prod.fst) →
      (assignFrom f ps i m).length = m.length + ps.length := by
  intro ps
  induction ps with
  | nil => intro i m _ _; rfl
  | cons p ps ih =>
    intro i m hnd hfresh
    rw [List.map_cons, List.nodup_cons] at hnd
    have hp : f p ∉ m.map Prod.fst := hfresh p (List.mem_cons_self _ _)
    have hfresh' : ∀ q ∈ ps, f q ∉ (mapAssign (f p) i m).map Prod.fst := by
      intro q hq hmem
      rcases (mem_keys_mapAssign _ _ _ _).1 hmem with heq | hmem
      · exact hnd.1 (heq ▸ List.mem_map_of_mem f hq)
      · exact hfresh q (List.mem_cons_of_mem _ hq) hmem
    simp only [assignFrom, ih _ _ hnd.2 hfresh', length_mapAssign _ _ _ hp, List.length_cons]
    omega

theorem standardInsertLoop_fields :
    ∀ (ps : List Person) (i : Nat) (st : StandardContainers),
      (standardInsertLoop ps i st).data = st.data ++ ps ∧
      (standardInsertLoop ps i st).id_index = assignFrom Person.id ps i st.id_index ∧
      (standardInsertLoop ps i st).email_index = assignFrom Person.email ps i st.email_index ∧
      (standardInsertLoop ps i st).name_index
        = emplaceFrom (fun p => p.name.data) ps i st.name_index ∧
      (standardInsertLoop ps i st).age_index = emplaceFrom Person.age ps i st.age_index ∧
      (standardInsertLoop ps i st).city_index
        = emplaceFrom (fun p => p.city.data) ps i st.city_index := by
  intro ps
  induction ps with
  | nil => intro i st; simp [standardInsertLoop, assignFrom, emplaceFrom]
  | cons p ps ih =>
    intro i st
    obtain ⟨h1, h2, h3, h4, h5, h6⟩ := ih (i + 1) (standardInsertBody st p i)
    simp only [standardInsertLoop, h1, h2, h3, h4, h5, h6, assignFrom, emplaceFrom]
    simp [standardInsertBody]

/-- C11 (the standard-container comparison builds the same collection).  For
`persons = generatePersons(n)`, after the insert loop of
`BM_StandardContainersInsert` the vector `data` holds the `n` persons in order,
`id_index`, `email_index`, `name_index`, `age_index` and `city_index` each have
exactly `n` entries, and for every `k < n` both `data[id_index[k]]` and
`data[email_index[persons[k].email]]` are `persons[k]`, the person with id `k`,
which is also the record that find by id `k` and find by that email return on
the `person_multi_index` filled by `BM_MultiIndexInsert`. -/
theorem standard_containers_agree (n : Nat) :
    (BM_StandardContainersInsert n).data = generatePersons n ∧
    (BM_StandardContainersInsert n).id_index.length = n ∧
    (BM_StandardContainersInsert n).email_index.length = n ∧
    (BM_StandardContainersInsert n).name_index.length = n ∧
    (BM_StandardContainersInsert n).age_index.length = n ∧
    (BM_StandardContainersInsert n).city_index.length = n ∧
    ∀ k, k < n → ∃ p, (generatePersons n)[k]? = some p ∧ p.id = (k : Int) ∧
      (∃ i, mapFind (k : Int) (BM_StandardContainersInsert n).id_index = some i ∧
        (BM_StandardContainersInsert n).data[i]? = some p) ∧
      (∃ j, mapFind p.email (BM_StandardContainersInsert n).email_index = some j ∧
        (BM_StandardContainersInsert n).data[j]? = some p) ∧
      ∃ c rs, BM_MultiIndexInsert n = some (c, rs) ∧
        c.findById (k : Int) = some p ∧ c.findByEmail p.email = some p := by
  obtain ⟨h1, h2, h3, h4, h5, h6⟩ := standardInsertLoop_fields (generatePersons n) 0
    { id_index := [], email_index := [], name_index := [], age_index := [], city_index := [],
      name_city_index := [], data := [] }
  have hd : (BM_StandardContainersInsert n).data = generatePersons n := by
    unfold BM_StandardContainersInsert
    rw [h1]
    rfl
  refine ⟨hd, ?_, ?_, ?_, ?_, ?_, ?_⟩
  · unfold BM_StandardContainersInsert
    rw [h2, length_assignFrom _ _ _ _ (generatePersons_ids_nodup n) (by simp),
      generatePersons_length]
    simp
  · unfold BM_StandardContainersInsert
    rw [h3, length_assignFrom _ _ _ _ (generatePersons_emails_nodup n) (by simp),
      generatePersons_length]
    simp
  · unfold BM_StandardContainersInsert
    rw [h4, length_emplaceFrom, generatePersons_length]
    simp
  · unfold BM_StandardContainersInsert
    rw [h5, length_emplaceFrom, generatePersons_length]
    simp
  · unfold BM_StandardContainersInsert
    rw [h6, length_emplaceFrom, generatePersons_length]
    simp
  · intro k hk
    have hget := generatePersons_getElem? hk
    refine ⟨generatePersonsBody k, hget, rfl, ⟨k, ?_, ?_⟩, ⟨k, ?_, ?_⟩, ?_⟩
    · have := mapFind_assignFrom Person.id (generatePersons n) 0 []
        (generatePersons_ids_nodup n) k _ hget
      unfold BM_StandardContainersInsert
      rw [h2]
      simpa using this
    · rw [hd]
      exact hget
    · have := mapFind_assignFrom Person.email (generatePersons n) 0 []
        (generatePersons_emails_nodup n) k _ hget
      unfold BM_StandardContainersInsert
      rw [h3]
      simpa using this
    · rw [hd]
      exact hget
    · obtain ⟨c, rs, hfill, hw, _, _, hview⟩ := fill_spec n
      have hmem : generatePersonsBody k ∈ c.seqView := by
        rw [hview]
        exact List.getElem?_mem hget
      obtain ⟨s, hs⟩ := (hw.mem_seqView _).1 hmem
      exact ⟨c, rs, hfill, hw.findById_of_get hs, hw.findByEmail_of_get hs⟩

/-- Witness of C11 at `n = 5`, `k = 3`. -/
theorem standard_containers_agree_witness :
    ∃ p, (generatePersons 5)[3]? = some p ∧ p.id = ((3 : Nat) : Int) ∧
      (∃ i, mapFind ((3 : Nat) : Int) (BM_StandardContainersInsert 5).id_index = some i ∧
        (BM_StandardContainersInsert 5).data[i]? = some p) ∧
      (∃ j, mapFind p.email (BM_StandardContainersInsert 5).email_index = some j ∧
        (BM_StandardContainersInsert 5).data[j]? = some p) ∧
      ∃ c rs, BM_MultiIndexInsert 5 = some (c, rs) ∧
        c.findById ((3 : Nat) : Int) = some p ∧ c.findByEmail p.email = some p :=
  (standard_containers_agree 5).2.2.2.2.2.2 3 (by decide)

/-! ## The total of `BM_MultiIndexRangeByAge` -/

theorem seqView_nodup {c : Container} (h : WF c) : c.seqView.Nodup := by
  unfold Container.seqView
  apply List.Nodup.filterMap _ h.seq_nodup
  intro s t p hp hq
  exact h.slot_unique_of_id (Option.mem_def.1 hp) (Option.mem_def.1 hq) rfl

theorem ageView_perm_seqView {c : Container} (h : WF c) : c.ageView.Perm c.seqView := by
  rw [List.perm_ext_iff_of_nodup (ageView_nodup h) (seqView_nodup h)]
  intro p
  unfold Container.ageView
  rw [WF.mem_enumerate h.age_agrees, h.mem_seqView]

theorem scan_count {c : Container} (h : WF c) (low high : Int) :
    (c.byAge.filter (fun e => decide (low ≤ e.1 ∧ e.1 ≤ high))).length
      = (c.seqView.filter (fun p => decide (low ≤ p.age ∧ p.age ≤ high))).length := by
  have h1 : (c.enumerate (c.byAge.filter (fun e => decide (low ≤ e.1 ∧ e.1 ≤ high)))).length
      = (c.byAge.filter (fun e => decide (low ≤ e.1 ∧ e.1 ≤ high))).length := by
    unfold Container.enumerate
    apply length_filterMap_of_some
    intro e he
    obtain ⟨p, hp, _⟩ := h.age_agrees.slot_live (List.mem_filter.1 he).1
    exact ⟨p, hp⟩
  rw [← h1, enumerate_filter_age h]
  exact ((ageView_perm_seqView h).filter _).length_eq

theorem countRanges_eq {c : Container} (h : WF c) :
    ∀ (ranges : List (Int × Int)) (total : Nat), (∀ r ∈ ranges, r.1 ≤ r.2) →
      countRanges c ranges total = some (total + (ranges.map (fun r =>
        (c.seqView.filter (fun p => decide (r.1 ≤ p.age ∧ p.age ≤ r.2))).length)).sum) := by
  intro ranges
  induction ranges with
  | nil => intro total _; simp [countRanges]
  | cons r rest ih =>
    intro total hle
    have hr := hle r (List.mem_cons_self _ _)
    simp only [countRanges, rangeScan_eq h r.1 r.2 hr, scan_count h,
      ih _ (fun r' hr' => hle r' (List.mem_cons_of_mem _ hr')), List.map_cons, List.sum_cons]
    congr 1
    omega

theorem seqView_filter_generated (SIZE : Nat) (low high : Int) :
    ((generatePersons SIZE).filter (fun p => decide (low ≤ p.age ∧ p.age ≤ high))).length
      = ((List.range SIZE).filter (fun i =>
          decide (low ≤ 20 + ((i % 60 : Nat) : Int) ∧ 20 + ((i % 60 : Nat) : Int) ≤ high))).length := by
  rw [generatePersons_eq_map, List.filter_map, List.length_map]
  rfl

set_option maxRecDepth 100000 in
theorem expectedRangeTotal_thousand : expectedRangeTotal 1000 = 923 := by decide

/-- C12 (the total of the range benchmark).  For every `SIZE` one iteration of
`BM_MultiIndexRangeByAge` returns, and `total_count` is the sum, over the five
ranges {20,30}, {30,40}, {40,50}, {50,60}, {60,70}, of the number of `i` in
`0 .. SIZE-1` with `min <= 20 + (i mod 60) <= max`, both bounds inclusive (a
record aged 30, 40, 50 or 60 lies in two ranges and is counted in both); for
`SIZE = 1000` the total is 923. -/
theorem range_benchmark_total (SIZE : Nat) :
    BM_MultiIndexRangeByAge SIZE = some (expectedRangeTotal SIZE) ∧
    expectedRangeTotal SIZE =
      ((List.range SIZE).filter (fun i => decide (20 ≤ 20 + ((i % 60 : Nat) : Int) ∧
        20 + ((i % 60 : Nat) : Int) ≤ 30))).length +
      ((List.range SIZE).filter (fun i => decide (30 ≤ 20 + ((i % 60 : Nat) : Int) ∧
        20 + ((i % 60 : Nat) : Int) ≤ 40))).length +
      ((List.range SIZE).filter (fun i => decide (40 ≤ 20 + ((i % 60 : Nat) : Int) ∧
        20 + ((i % 60 : Nat) : Int) ≤ 50))).length +
      ((List.range SIZE).filter (fun i => decide (50 ≤ 20 + ((i % 60 : Nat) : Int) ∧
        20 + ((i % 60 : Nat) : Int) ≤ 60))).length +
      ((List.range SIZE).filter (fun i => decide (60 ≤ 20 + ((i % 60 : Nat) : Int) ∧
        20 + ((i % 60 : Nat) : Int) ≤ 70))).length ∧
    BM_MultiIndexRangeByAge 1000 = some 923 := by
  have key : ∀ n, BM_MultiIndexRangeByAge n = some (expectedRangeTotal n) := by
    intro n
    obtain ⟨c, rs, hfill, hw, _, _, hview⟩ := fill_spec n
    have hle : ∀ r ∈ age_ranges, r.1 ≤ r.2 := by decide
    simp only [BM_MultiIndexRangeByAge, hfill, countRanges_eq hw age_ranges 0 hle, hview,
      seqView_filter_generated, Nat.zero_add]
    rfl
  refine ⟨key SIZE, ?_, ?_⟩
  · simp [expectedRangeTotal, age_ranges, Nat.add_assoc]
  · rw [key 1000, expectedRangeTotal_thousand]

end MultiIndexBench

namespace GraphBench

/-! ## `generate_random_graph` -/

theorem foldl_invariant {σ ι : Type} (P : σ → Prop) (f : σ → ι → σ)
    (hstep : ∀ st i, P st → P (f st i)) : ∀ (l : List ι) (st : σ), P st → P (l.foldl f st) := by
  intro l
  induction l with
  | nil => intro st h; exact h
  | cons i l ih => intro st h; exact ih _ (hstep st i h)

theorem propFind_propAssign {β : Type} (k k' : Nat) (v : β) :
    ∀ (m : List (Nat × β)),
      propFind k' (propAssign k v m) = if k' = k then some v else propFind k' m := by
  intro m
  induction m with
  | nil =>
    by_cases h : k' = k
    · simp [propAssign, propFind, h]
    · simp [propAssign, propFind, h, Ne.symm h]
  | cons x rest ih =>
    unfold propAssign
    by_cases hx : x.1 = k
    · by_cases h : k' = k
      · simp [hx, propFind, h]
      · have hx' : ¬ x.1 = k' := fun hh => h (hh ▸ hx)
        simp [hx, propFind, h, Ne.symm h, hx']
    · simp only [hx, if_false, propFind, ih]
      by_cases h : k' = k
      · simp [h, hx]
      · simp [h]

theorem uniform_int_bounds (a b raw : Nat) (h : a ≤ b) :
    a ≤ uniform_int a b raw ∧ uniform_int a b raw ≤ b := by
  unfold uniform_int
  have := Nat.mod_lt raw (show 0 < b - a + 1 by omega)
  omega

theorem add_vertices_fields (n : Nat) (g : Graph) :
    ((List.range n).foldl (fun g _ => g.add_vertex.1) g).num_vertices = g.num_vertices + n ∧
    ((List.range n).foldl (fun g _ => g.add_vertex.1) g).edges = g.edges ∧
    ((List.range n).foldl (fun g _ => g.add_vertex.1) g).kind = g.kind ∧
    ((List.range n).foldl (fun g _ => g.add_vertex.1) g).next_id = g.next_id := by
  induction n with
  | zero => simp
  | succ n ih =>
    rw [List.range_succ, List.foldl_append]
    obtain ⟨h1, h2, h3, h4⟩ := ih
    simp only [List.foldl_cons, List.foldl_nil]
    refine ⟨?_, h2, h3, h4⟩
    show ((List.range n).foldl (fun g _ => g.add_vertex.1) g).num_vertices + 1 = _
    rw [h1]
    omega

theorem not_found_spec (g : Graph) (s t : Nat)
    (h : (g.out_edges s).any (fun e => decide (e.target = t)) = false) :
    (∀ e ∈ g.edges, ¬ (e.source = s ∧ e.target = t)) ∧
    (g.kind = .undirectedS → ∀ e ∈ g.edges, ¬ (e.target = s ∧ e.source = t)) := by
  rw [List.any_eq_false] at h
  unfold Graph.out_edges at h
  cases hk : g.kind with
  | undirectedS =>
    rw [hk] at h
    simp only at h
    constructor
    · rintro e he ⟨h1, h2⟩
      refine h e ?_ (by simpa using h2)
      rw [List.mem_flatMap]
      exact ⟨e, he, by simp [h1]⟩
    · rintro _ e he ⟨h1, h2⟩
      refine h { source := s, target := e.source, id := e.id } ?_ (by simpa using h2)
      rw [List.mem_flatMap]
      exact ⟨e, he, by simp [h1]⟩
  | directedS =>
    rw [hk] at h
    simp only at h
    constructor
    · rintro e he ⟨h1, h2⟩
      exact h e (List.mem_filter.2 ⟨he, by simpa using h1⟩) (by simpa using h2)
    · intro hh
      cases hh
  | bidirectionalS =>
    rw [hk] at h
    simp only at h
    constructor
    · rintro e he ⟨h1, h2⟩
      exact h e (List.mem_filter.2 ⟨he, by simpa using h1⟩) (by simpa using h2)
    · intro hh
      cases hh

/-- What one iteration of the edge loop does: nothing, or one `add_edge` of a
pair of distinct in-range vertices not yet joined, with an in-range weight. -/
theorem randomEdgeBody_cases (n max_weight : Nat) (rand : Nat → Nat) (hn : 1 ≤ n)
    (hw : 1 ≤ max_weight) (st : Graph × List (Nat × Int)) (i : Nat) :
    randomEdgeBody n max_weight rand st i = st ∨
    ∃ s t w, s < n ∧ t < n ∧ s ≠ t ∧ 1 ≤ w ∧ w ≤ max_weight ∧
      (∀ e ∈ st.1.edges, ¬ (e.source = s ∧ e.target = t)) ∧
      (st.1.kind = .undirectedS → ∀ e ∈ st.1.edges, ¬ (e.target = s ∧ e.source = t)) ∧
      randomEdgeBody n max_weight rand st i =
        ({ st.1 with num_vertices := max st.1.num_vertices (max s t + 1)
                     edges := st.1.edges ++ [{ source := s, target := t, id := st.1.next_id }]
                     next_id := st.1.next_id + 1 },
         propAssign st.1.next_id ((w : Nat) : Int) st.2) := by
  have hs := uniform_int_bounds 0 (n - 1) (rand (3 * i)) (Nat.zero_le _)
  have ht := uniform_int_bounds 0 (n - 1) (rand (3 * i + 1)) (Nat.zero_le _)
  have hwt := uniform_int_bounds 1 max_weight (rand (3 * i + 2)) hw
  unfold randomEdgeBody
  simp only []
  by_cases hne : uniform_int 0 (n - 1) (rand (3 * i)) ≠ uniform_int 0 (n - 1) (rand (3 * i + 1))
  · cases hf : (st.1.out_edges (uniform_int 0 (n - 1) (rand (3 * i)))).any
        (fun e => decide (e.target = uniform_int 0 (n - 1) (rand (3 * i + 1)))) with
    | true => left; simp [hne, hf]
    | false =>
      right
      obtain ⟨h1, h2⟩ := not_found_spec _ _ _ hf
      refine ⟨_, _, uniform_int 1 max_weight (rand (3 * i + 2)), by omega, by omega, hne,
        hwt.1, hwt.2, h1, h2, ?_⟩
      simp [hne, hf, Graph.add_edge]
  · left
    simp [hne]

/-- The loop invariant of the edge loop for a graph of `n` vertices: the vertex
count is `n`, the kind is kept, every edge joins two distinct vertices below
`n`, no two edges have the same source and target, and in an undirected graph no
two edges join the same pair of vertices. -/
theorem randomEdgeBody_simple (n max_weight : Nat) (rand : Nat → Nat) (hn : 1 ≤ n)
    (hw : 1 ≤ max_weight) (kind : Directedness) (st : Graph × List (Nat × Int)) (i : Nat)
    (h : st.1.kind = kind ∧ st.1.num_vertices = n ∧
      (∀ e ∈ st.1.edges, e.source < n ∧ e.target < n ∧ e.source ≠ e.target) ∧
      st.1.edges.Pairwise (fun e e' => ¬ (e.source = e'.source ∧ e.target = e'.target)) ∧
      (kind = .undirectedS → st.1.edges.Pairwise (fun e e' => ¬ sameEnds e e'))) :
    (randomEdgeBody n max_weight rand st i).1.kind = kind ∧
    (randomEdgeBody n max_weight rand st i).1.num_vertices = n ∧
    (∀ e ∈ (randomEdgeBody n max_weight rand st i).1.edges,
      e.source < n ∧ e.target < n ∧ e.source ≠ e.target) ∧
    (randomEdgeBody n max_weight rand st i).1.edges.Pairwise
      (fun e e' => ¬ (e.source = e'.source ∧ e.target = e'.target)) ∧
    (kind = .undirectedS →
      (randomEdgeBody n max_weight rand st i).1.edges.Pairwise (fun e e' => ¬ sameEnds e e')) := by
  obtain ⟨hk, hnum, hin, hp, hu⟩ := h
  rcases randomEdgeBody_cases n max_weight rand hn hw st i with heq |
    ⟨s, t, w, hs, ht, hst, _, _, hnew, hnewu, heq⟩
  · rw [heq]
    exact ⟨hk, hnum, hin, hp, hu⟩
  · rw [heq]
    refine ⟨hk, ?_, ?_, ?_, ?_⟩
    · show max st.1.num_vertices (max s t + 1) = n
      rw [hnum]
      omega
    · intro e he
      rcases List.mem_append.1 he with he | he
      · exact hin e he
      · rw [List.mem_singleton] at he
        subst he
        exact ⟨hs, ht, hst⟩
    · show (st.1.edges ++ [_]).Pairwise _
      rw [List.pairwise_append]
      refine ⟨hp, List.pairwise_singleton _ _, ?_⟩
      intro a ha b hb
      rw [List.mem_singleton] at hb
      subst hb
      exact hnew a ha
    · intro hund
      show (st.1.edges ++ [_]).Pairwise _
      rw [List.pairwise_append]
      refine ⟨hu hund, List.pairwise_singleton _ _, ?_⟩
      intro a ha b hb
      rw [List.mem_singleton] at hb
      subst hb
      rintro (h1 | h1)
      · exact hnew a ha h1
      · exact hnewu (hk.trans hund) a ha ⟨h1.2, h1.1⟩

/-- The loop invariant of the edge loop for the weights: every edge has an entry
in the weight map, with a value in `1 .. max_weight`. -/
theorem randomEdgeBody_weighted (n max_weight : Nat) (rand : Nat → Nat) (hn : 1 ≤ n)
    (hw : 1 ≤ max_weight) (st : Graph × List (Nat × Int)) (i : Nat)
    (h : ∀ e ∈ st.1.edges, ∃ w : Int, propFind e.id st.2 = some w ∧ 1 ≤ w ∧
      w ≤ (max_weight : Int)) :
    ∀ e ∈ (randomEdgeBody n max_weight rand st i).1.edges,
      ∃ w : Int, propFind e.id (randomEdgeBody n max_weight rand st i).2 = some w ∧ 1 ≤ w ∧
        w ≤ (max_weight : Int) := by
  rcases randomEdgeBody_cases n max_weight rand hn hw st i with heq |
    ⟨s, t, w, _, _, _, hw1, hw2, _, _, heq⟩
  · rw [heq]
    exact h
  · rw [heq]
    intro e he
    show ∃ w' : Int, propFind e.id (propAssign st.1.next_id ((w : Nat) : Int) st.2) = some w' ∧ _
    rw [propFind_propAssign]
    by_cases hid : e.id = st.1.next_id
    · rw [if_pos hid]
      exact ⟨_, rfl, by omega, by omega⟩
    · rw [if_neg hid]
      rcases List.mem_append.1 he with he | he
      · exact h e he
      · rw [List.mem_singleton] at he
        subst he
        exact absurd rfl hid

theorem randomEdgeBody_length (n max_weight : Nat) (rand : Nat → Nat) (hn : 1 ≤ n)
    (hw : 1 ≤ max_weight) (st : Graph × List (Nat × Int)) (i : Nat) :
    (randomEdgeBody n max_weight rand st i).1.edges.length ≤ st.1.edges.length + 1 := by
  rcases randomEdgeBody_cases n max_weight rand hn hw st i with heq |
    ⟨s, t, w, _, _, _, _, _, _, _, heq⟩
  · rw [heq]
    omega
  · rw [heq]
    simp

theorem edge_loop_length (n max_weight : Nat) (rand : Nat → Nat) (hn : 1 ≤ n)
    (hw : 1 ≤ max_weight) (st : Graph × List (Nat × Int)) (k : Nat) :
    ((List.range k).foldl (randomEdgeBody n max_weight rand) st).1.edges.length
      ≤ st.1.edges.length + k := by
  induction k with
  | zero => simp
  | succ k ih =>
    rw [List.range_succ, List.foldl_append]
    simp only [List.foldl_cons, List.foldl_nil]
    have := randomEdgeBody_length n max_weight rand hn hw
      ((List.range k).foldl (randomEdgeBody n max_weight rand) st) k
    omega

theorem generate_random_graph_eq (kind : Directedness) (n num_edges max_weight : Nat)
    (rand : Nat → Nat) (hn : 1 ≤ n) (hw : 1 ≤ max_weight) :
    generate_random_graph (Graph.empty kind) [] n num_edges max_weight rand =
      some ((List.range num_edges).foldl (randomEdgeBody n max_weight rand)
        ((List.range n).foldl (fun g _ => g.add_vertex.1) (Graph.empty kind), [])) := by
  unfold generate_random_graph
  have : ¬ (n < 1 ∨ max_weight < 1) := by omega
  simp only [this, if_false]

/-- C13 (`generate_random_graph` produces a simple graph).  Called on an empty
graph with `num_vertices >= 1` (and the weight bound `max_weight >= 1`, 100 by
default), for every `num_edges`, every directedness and every sequence of draws,
the function returns a graph with exactly `num_vertices` vertices, whose edges
join vertices of the graph, none from a vertex to itself, no two with the same
source and target; in the undirected instantiation no two edges join the same
unordered pair of vertices. -/
theorem random_graph_simple (kind : Directedness) (num_vertices num_edges max_weight : Nat)
    (rand : Nat → Nat) (hn : 1 ≤ num_vertices) (hw : 1 ≤ max_weight) :
    ∃ g weight_map,
      generate_random_graph (Graph.empty kind) [] num_vertices num_edges max_weight rand
        = some (g, weight_map) ∧
      g.num_vertices = num_vertices ∧
      (∀ e ∈ g.edges, e.source < num_vertices ∧ e.target < num_vertices) ∧
      (∀ e ∈ g.edges, e.source ≠ e.target) ∧
      g.edges.Pairwise (fun e e' => ¬ (e.source = e'.source ∧ e.target = e'.target)) ∧
      (kind = .undirectedS → g.edges.Pairwise (fun e e' => ¬ sameEnds e e')) := by
  obtain ⟨v1, v2, v3, _⟩ := add_vertices_fields num_vertices (Graph.empty kind)
  have h0 : ((List.range num_vertices).foldl (fun g _ => g.add_vertex.1) (Graph.empty kind),
        ([] : List (Nat × Int))).1.kind = kind ∧
      ((List.range num_vertices).foldl (fun g _ => g.add_vertex.1) (Graph.empty kind),
        ([] : List (Nat × Int))).1.num_vertices = num_vertices ∧
      (∀ e ∈ ((List.range num_vertices).foldl (fun g _ => g.add_vertex.1) (Graph.empty kind),
        ([] : List (Nat × Int))).1.edges,
        e.source < num_vertices ∧ e.target < num_vertices ∧ e.source ≠ e.target) ∧
      ((List.range num_vertices).foldl (fun g _ => g.add_vertex.1) (Graph.empty kind),
        ([] : List (Nat × Int))).1.edges.Pairwise
          (fun e e' => ¬ (e.source = e'.source ∧ e.target = e'.target)) ∧
      (kind = .undirectedS →
        ((List.range num_vertices).foldl (fun g _ => g.add_vertex.1) (Graph.empty kind),
          ([] : List (Nat × Int))).1.edges.Pairwise (fun e e' => ¬ sameEnds e e')) := by
    simp only [v1, v2, v3]
    simp [Graph.empty]
  obtain ⟨_, i2, i3, i4, i5⟩ := foldl_invariant _ (randomEdgeBody num_vertices max_weight rand)
    (fun st i h => randomEdgeBody_simple num_vertices max_weight rand hn hw kind st i h)
    (List.range num_edges) _ h0
  exact ⟨_, _, generate_random_graph_eq kind num_vertices num_edges max_weight rand hn hw, i2,
    fun e he => ⟨(i3 e he).1, (i3 e he).2.1⟩, fun e he => (i3 e he).2.2, i4, i5⟩

/-- Witness of C13: the undirected instantiation with 4 vertices, 8 iterations
and the draws `7 k + 3`. -/
theorem random_graph_simple_witness :
    ∃ g weight_map,
      generate_random_graph (Graph.empty .undirectedS) [] 4 8 100 (fun k => k * 7 + 3)
        = some (g, weight_map) ∧
      g.num_vertices = 4 ∧
      (∀ e ∈ g.edges, e.source < 4 ∧ e.target < 4) ∧
      (∀ e ∈ g.edges, e.source ≠ e.target) ∧
      g.edges.Pairwise (fun e e' => ¬ (e.source = e'.source ∧ e.target = e'.target)) ∧
      (Directedness.undirectedS = .undirectedS →
        g.edges.Pairwise (fun e e' => ¬ sameEnds e e')) :=
  random_graph_simple .undirectedS 4 8 100 (fun k => k * 7 + 3) (by decide) (by decide)

theorem single_vertex_no_edge (max_weight : Nat) (rand : Nat → Nat)
    (st : Graph × List (Nat × Int)) (i : Nat) : randomEdgeBody 1 max_weight rand st i = st := by
  have h : uniform_int 0 (1 - 1) (rand (3 * i)) = uniform_int 0 (1 - 1) (rand (3 * i + 1)) := by
    simp [uniform_int, Nat.mod_one]
  unfold randomEdgeBody
  simp only []
  rw [if_neg (fun hne => hne h)]

/-- C14 (edge count and weights of the random graph).  For every sequence of
draws (with `num_vertices >= 1` and `max_weight >= 1`, without which the
distributions are undefined) the graph built by `generate_random_graph` on an
empty graph and weight map has at most `num_edges` edges, and every edge has an
entry in the weight map whose value lies in `1 .. max_weight`.  The bound is not
the exact number: with a single vertex every draw is a self-loop and the graph
has no edge at all. -/
theorem random_graph_edges_bounded_weighted (kind : Directedness)
    (num_vertices num_edges max_weight : Nat) (rand : Nat → Nat) (hn : 1 ≤ num_vertices)
    (hw : 1 ≤ max_weight) :
    ∃ g weight_map,
      generate_random_graph (Graph.empty kind) [] num_vertices num_edges max_weight rand
        = some (g, weight_map) ∧
      g.edges.length ≤ num_edges ∧
      (∀ e ∈ g.edges, ∃ w : Int, propFind e.id weight_map = some w ∧ 1 ≤ w ∧
        w ≤ (max_weight : Int)) ∧
      (num_vertices = 1 → g.edges = []) := by
  obtain ⟨_, v2, _, _⟩ := add_vertices_fields num_vertices (Graph.empty kind)
  refine ⟨_, _, generate_random_graph_eq kind num_vertices num_edges max_weight rand hn hw,
    ?_, ?_, ?_⟩
  · have := edge_loop_length num_vertices max_weight rand hn hw
      ((List.range num_vertices).foldl (fun g _ => g.add_vertex.1) (Graph.empty kind), [])
      num_edges
    simp only [v2] at this
    simpa [Graph.empty] using this
  · apply foldl_invariant
      (fun st : Graph × List (Nat × Int) => ∀ e ∈ st.1.edges, ∃ w : Int,
        propFind e.id st.2 = some w ∧ 1 ≤ w ∧ w ≤ (max_weight : Int))
      (randomEdgeBody num_vertices max_weight rand)
      (fun st i h => randomEdgeBody_weighted num_vertices max_weight rand hn hw st i h)
    intro e he
    simp only [v2] at he
    simp [Graph.empty] at he
  · intro h1
    subst h1
    have hfix : ∀ (l : List Nat) (st : Graph × List (Nat × Int)),
        l.foldl (randomEdgeBody 1 max_weight rand) st = st := by
      intro l
      induction l with
      | nil => intro st; rfl
      | cons i l ih => intro st; rw [List.foldl_cons, single_vertex_no_edge, ih]
    rw [hfix]
    simp only [v2]
    rfl

/-- Witness of C14: the directed instantiation with 5 vertices, 12 iterations and
the draws `k * k + 1`. -/
theorem random_graph_edges_bounded_weighted_witness :
    ∃ g weight_map,
      generate_random_graph (Graph.empty .directedS) [] 5 12 100 (fun k => k * k + 1)
        = some (g, weight_map) ∧
      g.edges.length ≤ 12 ∧
      (∀ e ∈ g.edges, ∃ w : Int, propFind e.id weight_map = some w ∧ 1 ≤ w ∧
        w ≤ ((100 : Nat) : Int)) ∧
      ((5 : Nat) = 1 → g.edges = []) :=
  random_graph_edges_bounded_weighted .directedS 5 12 100 (fun k => k * k + 1) (by decide)
    (by decide)

/-! ## `generate_grid_graph`: the loops -/

theorem cell_index_lt {w h x y : Nat} (hx : x < w) (hy : y < h) : y * w + x < h * w := by
  have h1 : y * w + x < (y + 1) * w := by rw [Nat.succ_mul]; omega
  have h2 : (y + 1) * w ≤ h * w := Nat.mul_le_mul_right w hy
  omega

theorem forCells_induction {σ : Type} (w h : Nat) (f : σ → Nat → Nat → σ) (init : σ)
    (P : Nat → σ → Prop) (h0 : P 0 init)
    (hstep : ∀ st x y, x < w → y < h → P (y * w + x) st → P (y * w + x + 1) (f st x y)) :
    P (h * w) (forCells w h f init) := by
  have inner : ∀ y, y < h → ∀ n, n ≤ w → ∀ st, P (y * w) st →
      P (y * w + n) ((List.range n).foldl (fun st x => f st x y) st) := by
    intro y hy n
    induction n with
    | zero => intro _ st hst; simpa using hst
    | succ n ih =>
      intro hn st hst
      rw [List.range_succ, List.foldl_append]
      exact hstep _ n y (by omega) hy (ih (by omega) st hst)
  have outer : ∀ m, m ≤ h → P (m * w)
      ((List.range m).foldl (fun st y => (List.range w).foldl (fun st x => f st x y) st)
        init) := by
    intro m
    induction m with
    | zero => intro _; simpa using h0
    | succ m ih =>
      intro hm
      rw [List.range_succ, List.foldl_append, Nat.succ_mul]
      exact inner m (by omega) w (le_refl _) _ (ih (by omega))
  exact outer h (le_refl _)

theorem foldl_flatMap_eq {α β σ : Type} (f : σ → β → σ) (g : α → List β) :
    ∀ (l : List α) (init : σ),
      (l.flatMap g).foldl f init = l.foldl (fun st a => (g a).foldl f st) init := by
  intro l
  induction l with
  | nil => intro init; rfl
  | cons a l ih =>
    intro init
    rw [List.flatMap_cons, List.foldl_append, ih]
    rfl

theorem forCells_eq_foldl_cells {σ : Type} (w h : Nat) (f : σ → Nat → Nat → σ) (init : σ) :
    forCells w h f init = (cells w h).foldl (fun st c => f st c.1 c.2) init := by
  unfold forCells cells
  rw [foldl_flatMap_eq]
  congr 1
  funext st y
  rw [List.foldl_map]

theorem mem_cells {w h : Nat} {c : Nat × Nat} : c ∈ cells w h ↔ c.1 < w ∧ c.2 < h := by
  unfold cells
  simp only [List.mem_flatMap, List.mem_range, List.mem_map]
  constructor
  · rintro ⟨y, hy, x, hx, rfl⟩
    exact ⟨hx, hy⟩
  · rintro ⟨hx, hy⟩
    exact ⟨c.2, hy, c.1, hx, rfl⟩

/-! ### The vertex loops -/

theorem vertex_loop_spec (kind : Directedness) (w h : Nat) :
    (forCells w h (gridVertexBody w)
        { g := Graph.empty kind, pos_map := [], weight_map := []
          vertices := List.replicate (w * h) 0 }).g
      = { kind := kind, num_vertices := h * w, edges := [], next_id := 0 } ∧
    (forCells w h (gridVertexBody w)
        { g := Graph.empty kind, pos_map := [], weight_map := []
          vertices := List.replicate (w * h) 0 }).weight_map = [] ∧
    (∀ j, j < h * w → (forCells w h (gridVertexBody w)
        { g := Graph.empty kind, pos_map := [], weight_map := []
          vertices := List.replicate (w * h) 0 }).vertices.getD j 0 = j) ∧
    (∀ j, j < h * w → propFind j (forCells w h (gridVertexBody w)
        { g := Graph.empty kind, pos_map := [], weight_map := []
          vertices := List.replicate (w * h) 0 }).pos_map
      = some (((j % w : Nat) : Int), ((j / w : Nat) : Int))) := by
  have key := forCells_induction w h (gridVertexBody w)
    { g := Graph.empty kind, pos_map := [], weight_map := []
      vertices := List.replicate (w * h) 0 }
    (fun k st => st.g = { kind := kind, num_vertices := k, edges := [], next_id := 0 } ∧
      st.weight_map = [] ∧ st.vertices.length = h * w ∧
      (∀ j, j < k → st.vertices.getD j 0 = j) ∧
      (∀ j, j < k → propFind j st.pos_map = some (((j % w : Nat) : Int), ((j / w : Nat) : Int))))
    ⟨rfl, rfl, by simp [Nat.mul_comm], fun j hj => absurd hj (Nat.not_lt_zero j),
      fun j hj => absurd hj (Nat.not_lt_zero j)⟩
    (by
      rintro st x y hx hy ⟨hg, hwm, hlen, hv, hp⟩
      have hk := cell_index_lt hx hy
      have hmod : (y * w + x) % w = x := by
        rw [Nat.add_comm, Nat.add_mul_mod_self_right, Nat.mod_eq_of_lt hx]
      have hdiv : (y * w + x) / w = y := by
        rw [Nat.add_comm, Nat.add_mul_div_right _ _ (by omega : 0 < w), Nat.div_eq_of_lt hx,
          Nat.zero_add]
      refine ⟨?_, ?_, ?_, ?_, ?_⟩
      · simp [gridVertexBody, Graph.add_vertex, hg]
      · simp [gridVertexBody, hwm]
      · simp [gridVertexBody, hlen]
      · intro j hj
        have hvn : st.g.add_vertex.2 = y * w + x := by simp [Graph.add_vertex, hg]
        show (st.vertices.set (y * w + x) st.g.add_vertex.2).getD j 0 = j
        rw [hvn, List.getD_eq_getElem?_getD, List.getElem?_set]
        by_cases hjk : y * w + x = j
        · rw [if_pos hjk, if_pos (by rw [hlen]; exact hk), ← hjk]
          rfl
        · have := hv j (by omega)
          rw [List.getD_eq_getElem?_getD] at this
          simp [hjk, this]
      · intro j hj
        have hvn : st.g.add_vertex.2 = y * w + x := by simp [Graph.add_vertex, hg]
        show propFind j (propAssign st.g.add_vertex.2 ((x : Int), (y : Int)) st.pos_map) = _
        rw [hvn, propFind_propAssign]
        by_cases hjk : j = y * w + x
        · rw [if_pos hjk, hjk, hmod, hdiv]
        · rw [if_neg hjk]
          exact hp j (by omega))
  obtain ⟨k1, k2, _, k4, k5⟩ := key
  exact ⟨k1, k2, k4, k5⟩

/-! ### The edge loops -/

theorem addWeighted_eq (st : Grid) (s t : Nat) (w : Int) :
    addWeighted st s t w =
      { st with g := { st.g with num_vertices := max st.g.num_vertices (max s t + 1)
                                 edges := st.g.edges ++ [{ source := s, target := t,
                                                           id := st.g.next_id }]
                                 next_id := st.g.next_id + 1 }
                weight_map := propAssign st.g.next_id w st.weight_map } := by
  simp [addWeighted, Graph.add_edge]

theorem foldl_ite_singleton {σ β : Type} (f : σ → β → σ) (c : Prop) [Decidable c] (b : β)
    (st : σ) : (if c then [b] else []).foldl f st = if c then f st b else st := by
  by_cases h : c <;> simp [h]

theorem gridEdgeBody_eq (w h : Nat) (st : Grid) (x y : Nat) (hx : x < w) (hy : y < h)
    (hv : ∀ j, j < h * w → st.vertices.getD j 0 = j) :
    gridEdgeBody w h st x y =
      (cellEdges w h (x, y)).foldl (fun st t => addWeighted st t.1 t.2.1 t.2.2) st := by
  have hc := hv (y * w + x) (cell_index_lt hx hy)
  unfold gridEdgeBody cellEdges
  simp only [List.foldl_append, foldl_ite_singleton, hc]
  have e1 : (if x + 1 < w then addWeighted st (y * w + x)
        (st.vertices.getD (y * w + (x + 1)) 0) 1 else st)
      = (if x + 1 < w then addWeighted st (y * w + x) (y * w + (x + 1)) 1 else st) := by
    by_cases c : x + 1 < w
    · rw [if_pos c, if_pos c, hv _ (cell_index_lt c hy)]
    · rw [if_neg c, if_neg c]
  have e2 : ∀ s : Grid, (if y + 1 < h then addWeighted s (y * w + x)
        (st.vertices.getD ((y + 1) * w + x) 0) 1 else s)
      = (if y + 1 < h then addWeighted s (y * w + x) ((y + 1) * w + x) 1 else s) := by
    intro s
    by_cases c : y + 1 < h
    · rw [if_pos c, if_pos c, hv _ (cell_index_lt hx c)]
    · rw [if_neg c, if_neg c]
  have e3 : ∀ s : Grid, (if x + 1 < w ∧ y + 1 < h then addWeighted s (y * w + x)
        (st.vertices.getD ((y + 1) * w + (x + 1)) 0) 14 else s)
      = (if x + 1 < w ∧ y + 1 < h then
          addWeighted s (y * w + x) ((y + 1) * w + (x + 1)) 14 else s) := by
    intro s
    by_cases c : x + 1 < w ∧ y + 1 < h
    · rw [if_pos c, if_pos c, hv _ (cell_index_lt c.1 c.2)]
    · rw [if_neg c, if_neg c]
  have e4 : ∀ s : Grid, (if x > 0 ∧ y + 1 < h then addWeighted s (y * w + x)
        (st.vertices.getD ((y + 1) * w + (x - 1)) 0) 14 else s)
      = (if x > 0 ∧ y + 1 < h then
          addWeighted s (y * w + x) ((y + 1) * w + (x - 1)) 14 else s) := by
    intro s
    by_cases c : x > 0 ∧ y + 1 < h
    · rw [if_pos c, if_pos c, hv _ (cell_index_lt (by omega : x - 1 < w) c.2)]
    · rw [if_neg c, if_neg c]
  rw [e1, e2, e3, e4]

theorem propAssign_fresh {β : Type} (k : Nat) (v : β) :
    ∀ (m : List (Nat × β)), (∀ p ∈ m, p.1 ≠ k) → propAssign k v m = m ++ [(k, v)] := by
  intro m
  induction m with
  | nil => intro _; rfl
  | cons x rest ih =>
    intro h
    have hx : ¬ x.1 = k := h x (List.mem_cons_self _ _)
    simp only [propAssign, hx, if_false, List.cons_append,
      ih (fun p hp => h p (List.mem_cons_of_mem _ hp))]

theorem add_all_spec : ∀ (T : List (Nat × Nat × Int)) (st : Grid),
    (∀ p ∈ st.weight_map, p.1 < st.g.next_id) →
    (∀ t ∈ T, t.1 < st.g.num_vertices ∧ t.2.1 < st.g.num_vertices) →
    (T.foldl (fun st t => addWeighted st t.1 t.2.1 t.2.2) st).g =
      { st.g with edges := st.g.edges ++ edgesFrom st.g.next_id T
                  next_id := st.g.next_id + T.length } ∧
    (T.foldl (fun st t => addWeighted st t.1 t.2.1 t.2.2) st).weight_map =
      st.weight_map ++ weightsFrom st.g.next_id T ∧
    (T.foldl (fun st t => addWeighted st t.1 t.2.1 t.2.2) st).vertices = st.vertices ∧
    (T.foldl (fun st t => addWeighted st t.1 t.2.1 t.2.2) st).pos_map = st.pos_map := by
  intro T
  induction T with
  | nil => intro st _ _; simp [edgesFrom, weightsFrom]
  | cons t T ih =>
    intro st hkeys hin
    have ht := hin t (List.mem_cons_self _ _)
    have hmax : max st.g.num_vertices (max t.1 t.2.1 + 1) = st.g.num_vertices := by omega
    have hfresh : propAssign st.g.next_id t.2.2 st.weight_map
        = st.weight_map ++ [(st.g.next_id, t.2.2)] :=
      propAssign_fresh _ _ _ (fun p hp => Nat.ne_of_lt (hkeys p hp))
    have hstep : addWeighted st t.1 t.2.1 t.2.2 =
        { st with g := { st.g with edges := st.g.edges ++ [{ source := t.1, target := t.2.1,
                                                             id := st.g.next_id }]
                                   next_id := st.g.next_id + 1 }
                  weight_map := st.weight_map ++ [(st.g.next_id, t.2.2)] } := by
      rw [addWeighted_eq, hmax, hfresh]
    have hkeys' : ∀ p ∈ (addWeighted st t.1 t.2.1 t.2.2).weight_map,
        p.1 < (addWeighted st t.1 t.2.1 t.2.2).g.next_id := by
      rw [hstep]
      intro p hp
      rcases List.mem_append.1 hp with hp | hp
      · exact Nat.lt_succ_of_lt (hkeys p hp)
      · rw [List.mem_singleton] at hp
        rw [hp]
        exact Nat.lt_succ_self _
    have hin' : ∀ t' ∈ T, t'.1 < (addWeighted st t.1 t.2.1 t.2.2).g.num_vertices ∧
        t'.2.1 < (addWeighted st t.1 t.2.1 t.2.2).g.num_vertices := by
      rw [hstep]
      exact fun t' ht' => hin t' (List.mem_cons_of_mem _ ht')
    obtain ⟨i1, i2, i3, i4⟩ := ih _ hkeys' hin'
    rw [List.foldl_cons]
    refine ⟨?_, ?_, ?_, ?_⟩
    · rw [i1, hstep]
      simp [edgesFrom, Nat.add_assoc, Nat.add_comm 1]
    · rw [i2, hstep]
      simp [weightsFrom]
    · rw [i3, hstep]
    · rw [i4, hstep]

theorem edge_loop_eq (w h : Nat) : ∀ (cs : List (Nat × Nat)) (st : Grid),
    (∀ c ∈ cs, c.1 < w ∧ c.2 < h) → (∀ j, j < h * w → st.vertices.getD j 0 = j) →
    cs.foldl (fun st c => gridEdgeBody w h st c.1 c.2) st =
      (cs.flatMap (cellEdges w h)).foldl (fun st t => addWeighted st t.1 t.2.1 t.2.2) st := by
  intro cs
  induction cs with
  | nil => intro st _ _; rfl
  | cons c cs ih =>
    intro st hcs hv
    obtain ⟨hx, hy⟩ := hcs c (List.mem_cons_self _ _)
    have hvert : ∀ (T : List (Nat × Nat × Int)) (s : Grid),
        (T.foldl (fun st t => addWeighted st t.1 t.2.1 t.2.2) s).vertices = s.vertices := by
      intro T
      induction T with
      | nil => intro s; rfl
      | cons t T ihT =>
        intro s
        rw [List.foldl_cons, ihT, addWeighted_eq]
    rw [List.foldl_cons, List.flatMap_cons, List.foldl_append, gridEdgeBody_eq w h st c.1 c.2 hx hy hv]
    apply ih _ (fun c' hc' => hcs c' (List.mem_cons_of_mem _ hc'))
    intro j hj
    rw [hvert]
    exact hv j hj

/-! ### The edges of the grid -/

theorem mem_cellEdges (w h : Nat) (c : Nat × Nat) (t : Nat × Nat × Int) :
    t ∈ cellEdges w h c ↔ t.1 = c.2 * w + c.1 ∧
      ((c.1 + 1 < w ∧ t.2.1 = c.2 * w + (c.1 + 1) ∧ t.2.2 = 1) ∨
       (c.2 + 1 < h ∧ t.2.1 = (c.2 + 1) * w + c.1 ∧ t.2.2 = 1) ∨
       (c.1 + 1 < w ∧ c.2 + 1 < h ∧ t.2.1 = (c.2 + 1) * w + (c.1 + 1) ∧ t.2.2 = 14) ∨
       (0 < c.1 ∧ c.2 + 1 < h ∧ t.2.1 = (c.2 + 1) * w + (c.1 - 1) ∧ t.2.2 = 14)) := by
  obtain ⟨t1, t2, t3⟩ := t
  unfold cellEdges
  simp only [List.mem_append, List.mem_ite_nil_right, List.mem_singleton, Prod.mk.injEq,
    gt_iff_lt]
  tauto

theorem gridTriples_in_range (w h : Nat) :
    ∀ t ∈ (cells w h).flatMap (cellEdges w h), t.1 < h * w ∧ t.2.1 < h * w := by
  intro t ht
  obtain ⟨c, hc, htc⟩ := List.mem_flatMap.1 ht
  obtain ⟨hx, hy⟩ := mem_cells.1 hc
  obtain ⟨h1, h2⟩ := (mem_cellEdges w h c t).1 htc
  refine ⟨by rw [h1]; exact cell_index_lt hx hy, ?_⟩
  rcases h2 with ⟨c1, e, _⟩ | ⟨c1, e, _⟩ | ⟨c1, c2, e, _⟩ | ⟨c1, c2, e, _⟩
  · rw [e]; exact cell_index_lt c1 hy
  · rw [e]; exact cell_index_lt hx c1
  · rw [e]; exact cell_index_lt c1 c2
  · rw [e]; exact cell_index_lt (by omega) c2

theorem gridBuild_spec (kind : Directedness) (w h : Nat) :
    (gridBuild (Graph.empty kind) [] [] w h).g =
      { kind := kind, num_vertices := h * w
        edges := edgesFrom 0 ((cells w h).flatMap (cellEdges w h))
        next_id := ((cells w h).flatMap (cellEdges w h)).length } ∧
    (gridBuild (Graph.empty kind) [] [] w h).weight_map =
      weightsFrom 0 ((cells w h).flatMap (cellEdges w h)) ∧
    (∀ j, j < h * w → (gridBuild (Graph.empty kind) [] [] w h).vertices.getD j 0 = j) ∧
    (∀ j, j < h * w → propFind j (gridBuild (Graph.empty kind) [] [] w h).pos_map
      = some (((j % w : Nat) : Int), ((j / w : Nat) : Int))) := by
  obtain ⟨v1, v2, v3, v4⟩ := vertex_loop_spec kind w h
  unfold gridBuild
  simp only []
  rw [forCells_eq_foldl_cells w h (gridEdgeBody w h),
    edge_loop_eq w h (cells w h) _ (fun c hc => mem_cells.1 hc) v3]
  obtain ⟨a1, a2, a3, a4⟩ := add_all_spec ((cells w h).flatMap (cellEdges w h))
    (forCells w h (gridVertexBody w)
      { g := Graph.empty kind, pos_map := [], weight_map := []
        vertices := List.replicate (w * h) 0 })
    (by rw [v2]; intro p hp; cases hp)
    (by rw [v1]; exact gridTriples_in_range w h)
  refine ⟨?_, ?_, ?_, ?_⟩
  · rw [a1, v1]
    simp
  · rw [a2, v2, v1]
    simp
  · intro j hj
    rw [a3]
    exact v3 j hj
  · intro j hj
    rw [a4]
    exact v4 j hj

theorem edgesFrom_id_ge : ∀ (T : List (Nat × Nat × Int)) (n : Nat),
    ∀ e ∈ edgesFrom n T, n ≤ e.id := by
  intro T
  induction T with
  | nil => intro n e he; cases he
  | cons t T ih =>
    intro n e he
    rcases List.mem_cons.1 he with rfl | he
    · exact le_refl _
    · exact Nat.le_of_succ_le (ih (n + 1) e he)

theorem length_edgesFrom : ∀ (T : List (Nat × Nat × Int)) (n : Nat),
    (edgesFrom n T).length = T.length := by
  intro T
  induction T with
  | nil => intro n; rfl
  | cons t T ih => intro n; simp [edgesFrom, ih]

theorem mem_edgesFrom_ends : ∀ (T : List (Nat × Nat × Int)) (n : Nat) (e : Edge),
    e ∈ edgesFrom n T → ∃ t ∈ T, t.1 = e.source ∧ t.2.1 = e.target := by
  intro T
  induction T with
  | nil => intro n e he; cases he
  | cons t T ih =>
    intro n e he
    rcases List.mem_cons.1 he with rfl | he
    · exact ⟨t, List.mem_cons_self _ _, rfl, rfl⟩
    · obtain ⟨t', ht', h1, h2⟩ := ih (n + 1) e he
      exact ⟨t', List.mem_cons_of_mem _ ht', h1, h2⟩

theorem edgesFrom_weighted : ∀ (T : List (Nat × Nat × Int)) (n s t : Nat) (wt : Int),
    (∃ e ∈ edgesFrom n T, e.source = s ∧ e.target = t ∧
      propFind e.id (weightsFrom n T) = some wt) ↔ (s, t, wt) ∈ T := by
  intro T
  induction T with
  | nil => intro n s t wt; simp [edgesFrom]
  | cons t0 T ih =>
    intro n s t wt
    rw [List.mem_cons, ← ih (n + 1) s t wt]
    constructor
    · rintro ⟨e, he, h1, h2, h3⟩
      rcases List.mem_cons.1 he with rfl | he
      · left
        simp only [weightsFrom, propFind, if_true, Option.some.injEq] at h3
        rw [← h1, ← h2, ← h3]
      · right
        have hge := edgesFrom_id_ge T (n + 1) e he
        have hne : ¬ n = e.id := by omega
        simp only [weightsFrom, propFind, hne, if_false] at h3
        exact ⟨e, he, h1, h2, h3⟩
    · rintro (heq | ⟨e, he, h1, h2, h3⟩)
      · refine ⟨{ source := t0.1, target := t0.2.1, id := n }, List.mem_cons_self _ _, ?_, ?_, ?_⟩
        · rw [← heq]
        · rw [← heq]
        · simp only [weightsFrom, propFind, if_true]
          rw [← heq]
      · have hge := edgesFrom_id_ge T (n + 1) e he
        have hne : ¬ n = e.id := by omega
        refine ⟨e, List.mem_cons_of_mem _ he, h1, h2, ?_⟩
        simp only [weightsFrom, propFind, hne, if_false]
        exact h3

/-! ### The number of edges -/

theorem length_flatMap_const {α β : Type} (f : α → List β) (k : Nat) :
    ∀ (l : List α), (∀ a ∈ l, (f a).length = k) → (l.flatMap f).length = l.length * k := by
  intro l
  induction l with
  | nil => intro _; simp
  | cons a l ih =>
    intro h
    rw [List.flatMap_cons, List.length_append, h a (List.mem_cons_self _ _),
      ih (fun a' ha' => h a' (List.mem_cons_of_mem _ ha')), List.length_cons, Nat.succ_mul]
    omega

theorem row_prefix_length (w h y n : Nat) (hn : n ≤ w) :
    (((List.range n).map (fun x => (x, y))).flatMap (cellEdges w h)).length =
      (if n ≤ w - 1 then n else w - 1) +
      (if y + 1 < h then n + (if n ≤ w - 1 then n else w - 1) + (n - 1) else 0) := by
  induction n with
  | zero => simp
  | succ n ih =>
    have ih' := ih (by omega)
    rw [List.range_succ, List.map_append, List.flatMap_append, List.length_append, ih']
    simp only [List.map_cons, List.map_nil, List.flatMap_cons, List.flatMap_nil,
      List.append_nil, cellEdges, List.length_append]
    split_ifs <;> simp only [List.length_cons, List.length_nil] <;> omega

theorem row_length (w h y : Nat) (hw : 1 ≤ w) :
    (((List.range w).map (fun x => (x, y))).flatMap (cellEdges w h)).length =
      if y + 1 < h then 4 * (w - 1) + 1 else w - 1 := by
  rw [row_prefix_length w h y w (le_refl _)]
  split_ifs <;> omega

theorem grid_triples_length (a b : Nat) :
    ((cells (a + 1) (b + 1)).flatMap (cellEdges (a + 1) (b + 1))).length
      = a * (b + 1) + (a + 1) * b + 2 * a * b := by
  unfold cells
  rw [List.flatMap_assoc, List.range_succ, List.flatMap_append, List.length_append,
    length_flatMap_const _ (4 * a + 1)]
  · simp only [List.flatMap_cons, List.flatMap_nil, List.append_nil, List.length_range]
    rw [row_length (a + 1) (b + 1) b (by omega)]
    simp only [Nat.lt_irrefl, if_false, Nat.add_sub_cancel]
    ring
  · intro y hy
    rw [List.mem_range] at hy
    rw [row_length (a + 1) (b + 1) y (by omega)]
    simp [hy]

/-! ### No edge twice -/

theorem cells_increasing (w h : Nat) :
    (cells w h).Pairwise (fun c c' => c.2 * w + c.1 < c'.2 * w + c'.1) := by
  unfold cells
  rw [List.pairwise_flatMap]
  constructor
  · intro y _
    rw [List.pairwise_map]
    exact (List.pairwise_lt_range w).imp (fun hab => by simpa using hab)
  · apply (List.pairwise_lt_range h).imp_of_mem
    intro y y' _ _ hyy c hc c' hc'
    obtain ⟨x, hx, rfl⟩ := List.mem_map.1 hc
    obtain ⟨x', _, rfl⟩ := List.mem_map.1 hc'
    rw [List.mem_range] at hx
    have h1 : y * w + x < (y + 1) * w := by rw [Nat.succ_mul]; omega
    have h2 : (y + 1) * w ≤ y' * w := Nat.mul_le_mul_right w hyy
    show y * w + x < y' * w + x'
    omega

theorem cellEdges_distinct (w h : Nat) (c : Nat × Nat) :
    (cellEdges w h c).Pairwise (fun t t' => ¬ (t.1 = t'.1 ∧ t.2.1 = t'.2.1)) := by
  have hm : (c.2 + 1) * w = c.2 * w + w := Nat.succ_mul _ _
  unfold cellEdges
  rw [hm]
  by_cases c1 : c.1 + 1 < w <;> by_cases c2 : c.2 + 1 < h <;> by_cases c3 : c.1 > 0 <;>
    simp [c1, c2, c3] <;> omega

theorem gridTriples_distinct (w h : Nat) :
    ((cells w h).flatMap (cellEdges w h)).Pairwise
      (fun t t' => ¬ (t.1 = t'.1 ∧ t.2.1 = t'.2.1)) := by
  rw [List.pairwise_flatMap]
  refine ⟨fun c _ => cellEdges_distinct w h c, ?_⟩
  apply (cells_increasing w h).imp
  intro c c' hlt t ht t' ht' heq
  have h1 := ((mem_cellEdges w h c t).1 ht).1
  have h2 := ((mem_cellEdges w h c' t').1 ht').1
  omega

theorem edgesFrom_distinct : ∀ (T : List (Nat × Nat × Int)) (n : Nat),
    T.Pairwise (fun t t' => ¬ (t.1 = t'.1 ∧ t.2.1 = t'.2.1)) →
    (edgesFrom n T).Pairwise (fun e e' => ¬ (e.source = e'.source ∧ e.target = e'.target)) := by
  intro T
  induction T with
  | nil => intro n _; exact List.Pairwise.nil
  | cons t T ih =>
    intro n hp
    rw [List.pairwise_cons] at hp
    show List.Pairwise _ (_ :: edgesFrom (n + 1) T)
    rw [List.pairwise_cons]
    refine ⟨?_, ih (n + 1) hp.2⟩
    intro e he
    obtain ⟨t', ht', h1, h2⟩ := mem_edgesFrom_ends T (n + 1) e he
    rw [← h1, ← h2]
    exact hp.1 t' ht'

theorem edgesFrom_has_weight : ∀ (T : List (Nat × Nat × Int)) (n : Nat),
    ∀ e ∈ edgesFrom n T, ∃ wt, propFind e.id (weightsFrom n T) = some wt := by
  intro T
  induction T with
  | nil => intro n e he; cases he
  | cons t T ih =>
    intro n e he
    rcases List.mem_cons.1 he with rfl | he
    · exact ⟨t.2.2, by simp [weightsFrom, propFind]⟩
    · have hge := edgesFrom_id_ge T (n + 1) e he
      have hne : ¬ n = e.id := by omega
      obtain ⟨wt, hwt⟩ := ih (n + 1) e he
      exact ⟨wt, by simp only [weightsFrom, propFind, hne, if_false]; exact hwt⟩

theorem mem_gridTriples (w h : Nat) (s t : Nat) (wt : Int) :
    (s, t, wt) ∈ (cells w h).flatMap (cellEdges w h) ↔
      ∃ x y, x < w ∧ y < h ∧ s = y * w + x ∧
        ((x + 1 < w ∧ t = y * w + (x + 1) ∧ wt = 1) ∨
         (y + 1 < h ∧ t = (y + 1) * w + x ∧ wt = 1) ∨
         (x + 1 < w ∧ y + 1 < h ∧ t = (y + 1) * w + (x + 1) ∧ wt = 14) ∨
         (0 < x ∧ y + 1 < h ∧ t = (y + 1) * w + (x - 1) ∧ wt = 14)) := by
  rw [List.mem_flatMap]
  constructor
  · rintro ⟨c, hc, hm⟩
    obtain ⟨hx, hy⟩ := mem_cells.1 hc
    obtain ⟨h1, h2⟩ := (mem_cellEdges w h c _).1 hm
    exact ⟨c.1, c.2, hx, hy, h1, h2⟩
  · rintro ⟨x, y, hx, hy, h1, h2⟩
    exact ⟨(x, y), mem_cells.2 ⟨hx, hy⟩, (mem_cellEdges w h (x, y) _).2 ⟨h1, h2⟩⟩

/-- C15 (the edges of the grid before obstacle removal).  Called on an empty
graph with `width, height >= 1`, the part of `generate_grid_graph` before the
obstacles creates `width * height` vertices, vertex `y * width + x` standing at
position `(x, y)`, and exactly these edges: from each cell `(x, y)` to its right
neighbour `(x+1, y)` and its down neighbour `(x, y+1)` with weight 1, and to its
down-right `(x+1, y+1)` and down-left `(x-1, y+1)` neighbours with weight 14,
whenever the neighbour is inside the grid.  Every edge has a weight, no two
edges have the same source and target, and their number is `(width-1)*height +
width*(height-1) + 2*(width-1)*(height-1)`. -/
theorem grid_edges_exact (kind : Directedness) (width height : Nat) (hw : 1 ≤ width)
    (hh : 1 ≤ height) :
    (gridBuild (Graph.empty kind) [] [] width height).g.num_vertices = width * height ∧
    (∀ x y, x < width → y < height →
      positionOf (gridBuild (Graph.empty kind) [] [] width height).pos_map (y * width + x)
        = ((x : Int), (y : Int))) ∧
    (∀ s t wt,
      (∃ e ∈ (gridBuild (Graph.empty kind) [] [] width height).g.edges,
        e.source = s ∧ e.target = t ∧
        propFind e.id (gridBuild (Graph.empty kind) [] [] width height).weight_map = some wt) ↔
      ∃ x y, x < width ∧ y < height ∧ s = y * width + x ∧
        ((x + 1 < width ∧ t = y * width + (x + 1) ∧ wt = 1) ∨
         (y + 1 < height ∧ t = (y + 1) * width + x ∧ wt = 1) ∨
         (x + 1 < width ∧ y + 1 < height ∧ t = (y + 1) * width + (x + 1) ∧ wt = 14) ∨
         (0 < x ∧ y + 1 < height ∧ t = (y + 1) * width + (x - 1) ∧ wt = 14))) ∧
    (∀ e ∈ (gridBuild (Graph.empty kind) [] [] width height).g.edges,
      ∃ wt, propFind e.id (gridBuild (Graph.empty kind) [] [] width height).weight_map
        = some wt) ∧
    (gridBuild (Graph.empty kind) [] [] width height).g.edges.Pairwise
      (fun e e' => ¬ (e.source = e'.source ∧ e.target = e'.target)) ∧
    (gridBuild (Graph.empty kind) [] [] width height).g.edges.length =
      (width - 1) * height + width * (height - 1) + 2 * (width - 1) * (height - 1) := by
  obtain ⟨g1, g2, _, g4⟩ := gridBuild_spec kind width height
  rw [g1, g2]
  refine ⟨Nat.mul_comm _ _, ?_, ?_, ?_, ?_, ?_⟩
  · intro x y hx hy
    have hmod : (y * width + x) % width = x := by
      rw [Nat.add_comm, Nat.add_mul_mod_self_right, Nat.mod_eq_of_lt hx]
    have hdiv : (y * width + x) / width = y := by
      rw [Nat.add_comm, Nat.add_mul_div_right _ _ (by omega : 0 < width),
        Nat.div_eq_of_lt hx, Nat.zero_add]
    unfold positionOf
    rw [g4 _ (cell_index_lt hx hy), hmod, hdiv]
    rfl
  · intro s t wt
    rw [edgesFrom_weighted, mem_gridTriples]
  · exact edgesFrom_has_weight _ 0
  · exact edgesFrom_distinct _ 0 (gridTriples_distinct width height)
  · obtain ⟨a, rfl⟩ : ∃ a, width = a + 1 := ⟨width - 1, by omega⟩
    obtain ⟨b, rfl⟩ : ∃ b, height = b + 1 := ⟨height - 1, by omega⟩
    show (edgesFrom 0 _).length = _
    rw [length_edgesFrom, grid_triples_length]
    simp only [Nat.add_sub_cancel]

/-- Witness of C15 on the 3 by 2 grid of the A* benchmark's graph type. -/
theorem grid_edges_exact_witness :
    (gridBuild (Graph.empty .bidirectionalS) [] [] 3 2).g.edges.length =
      (3 - 1) * 2 + 3 * (2 - 1) + 2 * (3 - 1) * (2 - 1) :=
  (grid_edges_exact .bidirectionalS 3 2 (by decide) (by decide)).2.2.2.2.2

/-! ### Edges go forward -/

theorem grid_edge_forward (kind : Directedness) (w h : Nat) :
    ∀ e ∈ (gridBuild (Graph.empty kind) [] [] w h).g.edges,
      (∃ x y, x < w ∧ y < h ∧ e.source = y * w + x) ∧ e.source < e.target := by
  obtain ⟨g1, _, _, _⟩ := gridBuild_spec kind w h
  rw [g1]
  intro e he
  obtain ⟨t, ht, h1, h2⟩ := mem_edgesFrom_ends _ 0 e he
  obtain ⟨c, hc, hm⟩ := List.mem_flatMap.1 ht
  obtain ⟨hx, hy⟩ := mem_cells.1 hc
  obtain ⟨hs, hcase⟩ := (mem_cellEdges w h c t).1 hm
  have hm' : (c.2 + 1) * w = c.2 * w + w := Nat.succ_mul _ _
  refine ⟨⟨c.1, c.2, hx, hy, by rw [← h1, hs]⟩, ?_⟩
  rw [← h1, ← h2, hs]
  rcases hcase with ⟨_, e1, _⟩ | ⟨_, e1, _⟩ | ⟨_, _, e1, _⟩ | ⟨_, _, e1, _⟩
  · rw [e1]; omega
  · rw [e1, hm']; omega
  · rw [e1, hm']; omega
  · rw [e1, hm']; omega

theorem obstacle_loop_subset (w h : Nat) (rand : Nat → Nat) (st0 : Grid) (k : Nat) :
    ∀ e ∈ ((List.range k).foldl (obstacleBody w h rand) st0).g.edges, e ∈ st0.g.edges := by
  apply foldl_invariant (fun st : Grid => ∀ e ∈ st.g.edges, e ∈ st0.g.edges)
    (obstacleBody w h rand)
  · intro st i hst e he
    exact hst e (List.mem_filter.1 he).1
  · exact fun e he => he

theorem forward_transGen {g : Graph} (hg : ∀ e ∈ g.edges, e.source < e.target) {u v : Nat}
    (h : Relation.TransGen (Adjacent g) u v) : u < v := by
  induction h with
  | single hab =>
    obtain ⟨e, he, rfl, rfl⟩ := hab
    exact hg e he
  | tail _ hbc ih =>
    obtain ⟨e, he, rfl, rfl⟩ := hbc
    exact lt_trans ih (hg e he)

theorem forward_reaches {g : Graph} (hg : ∀ e ∈ g.edges, e.source < e.target) {u v : Nat}
    (h : Relation.ReflTransGen (Adjacent g) u v) : u ≤ v := by
  rcases Relation.reflTransGen_iff_eq_or_transGen.1 h with heq | ht
  · exact le_of_eq heq.symm
  · exact le_of_lt (forward_transGen hg ht)

/-- C16 (every grid edge goes to a larger index).  Called on an empty graph with
`width, height >= 1`, `generate_grid_graph` returns for every sequence of draws;
every edge it creates leaves a vertex `y * width + x` of the grid for a vertex
of strictly larger index; the obstacle removal only takes edges away; so both
before and after it no vertex reaches itself along one or more edges (the graph
is acyclic) and every vertex reachable from `s` has index at least `s`. -/
theorem grid_edges_go_forward (kind : Directedness) (width height : Nat) (rand : Nat → Nat)
    (hw : 1 ≤ width) (hh : 1 ≤ height) :
    ∃ st, generate_grid_graph (Graph.empty kind) [] [] width height rand = some st ∧
      (∀ e ∈ (gridBuild (Graph.empty kind) [] [] width height).g.edges,
        (∃ x y, x < width ∧ y < height ∧ e.source = y * width + x) ∧ e.source < e.target) ∧
      (∀ e ∈ st.g.edges, e ∈ (gridBuild (Graph.empty kind) [] [] width height).g.edges) ∧
      (∀ e ∈ st.g.edges, e.source < e.target) ∧
      (∀ v, ¬ Relation.TransGen
        (Adjacent (gridBuild (Graph.empty kind) [] [] width height).g) v v) ∧
      (∀ v, ¬ Relation.TransGen (Adjacent st.g) v v) ∧
      (∀ s t, Relation.ReflTransGen
        (Adjacent (gridBuild (Graph.empty kind) [] [] width height).g) s t → s ≤ t) ∧
      (∀ s t, Relation.ReflTransGen (Adjacent st.g) s t → s ≤ t) := by
  have hpos : ¬ (width * height < 1) := by
    have := Nat.mul_le_mul hw hh
    omega
  have hb := grid_edge_forward kind width height
  have hsub := obstacle_loop_subset width height rand
    (gridBuild (Graph.empty kind) [] [] width height) ((width * height) / 10)
  have hb' : ∀ e ∈ (gridBuild (Graph.empty kind) [] [] width height).g.edges,
      e.source < e.target := fun e he => (hb e he).2
  have ha : ∀ e ∈ ((List.range ((width * height) / 10)).foldl
        (obstacleBody width height rand)
        (gridBuild (Graph.empty kind) [] [] width height)).g.edges, e.source < e.target :=
    fun e he => hb' e (hsub e he)
  refine ⟨_, by simp only [generate_grid_graph, hpos, if_false], hb, hsub, ha, ?_, ?_, ?_, ?_⟩
  · exact fun v hv => Nat.lt_irrefl v (forward_transGen hb' hv)
  · exact fun v hv => Nat.lt_irrefl v (forward_transGen ha hv)
  · exact fun s t hst => forward_reaches hb' hst
  · exact fun s t hst => forward_reaches ha hst

/-- Witness of C16 on the 4 by 5 grid with the draws `7 k + 3`. -/
theorem grid_edges_go_forward_witness :
    ∃ st, generate_grid_graph (Graph.empty .bidirectionalS) [] [] 4 5 (fun k => k * 7 + 3)
        = some st ∧
      (∀ e ∈ st.g.edges, e.source < e.target) ∧
      (∀ v, ¬ Relation.TransGen (Adjacent st.g) v v) ∧
      (∀ s t, Relation.ReflTransGen (Adjacent st.g) s t → s ≤ t) := by
  obtain ⟨st, h1, _, _, h4, _, h6, _, h8⟩ :=
    grid_edges_go_forward .bidirectionalS 4 5 (fun k => k * 7 + 3) (by decide) (by decide)
  exact ⟨st, h1, h4, h6, h8⟩

/-! ## `ManhattanDistanceHeuristic` -/

theorem int32_of_bounds {z : Int} (h1 : -2147483648 ≤ z) (h2 : z ≤ 2147483647) :
    int32 z = some z := by
  simp [int32, h1, h2]

theorem heuristic_value (goal v : Nat) (pos_map : List (Nat × (Int × Int)))
    (h : |(positionOf pos_map v).1 - (positionOf pos_map goal).1| +
      |(positionOf pos_map v).2 - (positionOf pos_map goal).2| ≤ 2147483647) :
    ManhattanDistanceHeuristic goal pos_map v =
      some (|(positionOf pos_map v).1 - (positionOf pos_map goal).1| +
        |(positionOf pos_map v).2 - (positionOf pos_map goal).2|) := by
  have a1 := abs_nonneg ((positionOf pos_map v).1 - (positionOf pos_map goal).1)
  have a2 := abs_nonneg ((positionOf pos_map v).2 - (positionOf pos_map goal).2)
  have b1 := neg_abs_le ((positionOf pos_map v).1 - (positionOf pos_map goal).1)
  have b2 := le_abs_self ((positionOf pos_map v).1 - (positionOf pos_map goal).1)
  have b3 := neg_abs_le ((positionOf pos_map v).2 - (positionOf pos_map goal).2)
  have b4 := le_abs_self ((positionOf pos_map v).2 - (positionOf pos_map goal).2)
  unfold ManhattanDistanceHeuristic
  simp only []
  rw [int32_of_bounds (by omega) (by omega), int32_of_bounds (by omega) (by omega)]
  simp only []
  rw [int32_of_bounds (by omega) (by omega), int32_of_bounds (by omega) (by omega)]
  simp only []
  rw [int32_of_bounds (by omega) (by omega)]

theorem grid_position (kind : Directedness) (w h : Nat) (rand : Nat → Nat) (st : Grid)
    (hst : generate_grid_graph (Graph.empty kind) [] [] w h rand = some st) (x y : Nat)
    (hx : x < w) (hy : y < h) : positionOf st.pos_map (y * w + x) = ((x : Int), (y : Int)) := by
  have hpm : st.pos_map = (gridBuild (Graph.empty kind) [] [] w h).pos_map := by
    unfold generate_grid_graph at hst
    simp only [] at hst
    split at hst
    · cases hst
    · cases hst
      exact foldl_invariant
        (fun s : Grid => s.pos_map = (gridBuild (Graph.empty kind) [] [] w h).pos_map)
        (obstacleBody w h rand) (fun s i hs => hs) _ _ rfl
  obtain ⟨_, _, _, g4⟩ := gridBuild_spec kind w h
  have hmod : (y * w + x) % w = x := by
    rw [Nat.add_comm, Nat.add_mul_mod_self_right, Nat.mod_eq_of_lt hx]
  have hdiv : (y * w + x) / w = y := by
    rw [Nat.add_comm, Nat.add_mul_div_right _ _ (by omega : 0 < w), Nat.div_eq_of_lt hx,
      Nat.zero_add]
  unfold positionOf
  rw [hpm, g4 _ (cell_index_lt hx hy), hmod, hdiv]
  rfl

theorem grid_distance_bound (w h x y gx gy : Nat) (hx : x < w) (hy : y < h) (hgx : gx < w)
    (hgy : gy < h) (hfit : w * h ≤ 2147483647) :
    |(x : Int) - (gx : Int)| + |(y : Int) - (gy : Int)| ≤ 2147483647 := by
  have h1 : |(x : Int) - (gx : Int)| ≤ (w : Int) - 1 := abs_le.2 ⟨by omega, by omega⟩
  have h2 : |(y : Int) - (gy : Int)| ≤ (h : Int) - 1 := abs_le.2 ⟨by omega, by omega⟩
  obtain ⟨a, rfl⟩ : ∃ a, w = a + 1 := ⟨w - 1, by omega⟩
  obtain ⟨b, rfl⟩ : ∃ b, h = b + 1 := ⟨h - 1, by omega⟩
  have h3 : (a + 1) * (b + 1) = a * b + a + b + 1 := by ring
  rw [h3] at hfit
  push_cast at h1 h2
  omega

/-- C17 (`ManhattanDistanceHeuristic`).  With `(x_v, y_v)` and `(x_goal,
y_goal)` the positions the position map gives for `v` and for the goal, the
heuristic returns `|x_v - x_goal| + |y_v - y_goal|` whenever that value fits in
`int` (so that no step of the `int` computation overflows); the value is
non-negative; at the goal itself the heuristic returns 0 whatever the map holds;
and on the position map filled by `generate_grid_graph` for a grid whose size
`width * height` fits in `int`, the value fits for every pair of vertices: for
`v` at cell `(x, y)` and the goal at cell `(gx, gy)` the heuristic returns
`|x - gx| + |y - gy|`. -/
theorem manhattan_heuristic_spec (goal v : Nat) (pos_map : List (Nat × (Int × Int)))
    (hfit : |(positionOf pos_map v).1 - (positionOf pos_map goal).1| +
      |(positionOf pos_map v).2 - (positionOf pos_map goal).2| ≤ 2147483647) :
    ManhattanDistanceHeuristic goal pos_map v =
      some (|(positionOf pos_map v).1 - (positionOf pos_map goal).1| +
        |(positionOf pos_map v).2 - (positionOf pos_map goal).2|) ∧
    0 ≤ |(positionOf pos_map v).1 - (positionOf pos_map goal).1| +
      |(positionOf pos_map v).2 - (positionOf pos_map goal).2| ∧
    ManhattanDistanceHeuristic goal pos_map goal = some 0 ∧
    (∀ (kind : Directedness) (width height : Nat) (rand : Nat → Nat) (st : Grid),
      width * height ≤ 2147483647 →
      generate_grid_graph (Graph.empty kind) [] [] width height rand = some st →
      ∀ x y gx gy, x < width → y < height → gx < width → gy < height →
        ManhattanDistanceHeuristic (gy * width + gx) st.pos_map (y * width + x) =
          some (|(x : Int) - (gx : Int)| + |(y : Int) - (gy : Int)|)) := by
  refine ⟨heuristic_value goal v pos_map hfit, ?_, ?_, ?_⟩
  · exact add_nonneg (abs_nonneg _) (abs_nonneg _)
  · have := heuristic_value goal goal pos_map (by simp)
    simpa using this
  · intro kind width height rand st hsize hst x y gx gy hx hy hgx hgy
    have p1 := grid_position kind width height rand st hst x y hx hy
    have p2 := grid_position kind width height rand st hst gx gy hgx hgy
    have hb := grid_distance_bound width height x y gx gy hx hy hgx hgy hsize
    have := heuristic_value (gy * width + gx) (y * width + x) st.pos_map
      (by rw [p1, p2]; exact hb)
    rw [p1, p2] at this
    exact this

/-- Witness of C17 on the position map of the 3 by 2 grid: vertex 0 at `(0, 0)`
and the goal 5 at `(2, 1)`. -/
theorem manhattan_heuristic_spec_witness :
    ManhattanDistanceHeuristic 5 (gridBuild (Graph.empty .bidirectionalS) [] [] 3 2).pos_map 0
      = some 3 := by
  have h := (manhattan_heuristic_spec 5 0
    (gridBuild (Graph.empty .bidirectionalS) [] [] 3 2).pos_map (by decide)).1
  rw [h]
  decide

end GraphBench
